import Mathlib

/-!
Power sums `S(p, n) = 0^p + 1^p + ... + n^p` by five closed forms.

A shallow embedding of the C sources under `src/main/c` (the C++ classes under
`src/main/cpp` run the same algorithms) and theorems about it.

Conventions of the embedding:

* `long` parameters are `ℤ`; every public entry point keeps its `power < 0` / `n < 0` guard.
  After the guard a loop bound is turned into a natural number with `Int.toNat`.
  Where a `long` expression is handed to GMP as an `unsigned long` (`n + 1`, `n - t`,
  `n + k`, `2 * n + 1`, ..) a sum that wrapped is read back as the exact value, so these are
  exact. The summation loop of `computeEulerSumWithTimeStat` compares `n + j` as a signed
  `long` and passes `n + j + 1` to `nCr` as a `long`: there the 64-bit two's-complement wrap
  is modelled (`wrapLong`).
* `mpz_t` values are `ℤ`, `mpq_t` values are `ℚ` (always in lowest terms, as GMP keeps them
  after `mpq_div`, `mpq_mul`, `mpq_add` on canonical operands).
* `mpz_divexact_ui` is integer division `/`; exactness is a property proved about the
  call sites, not an assumption of the definitions.
* An `mpz_t result` out-parameter is modelled by passing the value it held before the
  call and returning the value it holds afterwards.
* C arrays are lists; `a[i]` is `a.getD i 0` and `a[i] = v` is `a.set i v`.
* `for (i = a; i <= b; i++)` is a left fold over `List.range' a (b + 1 - a)`; a descending
  loop is a left fold over the reversed range.
* CPU-time measurements (`coeffInitTime`, `sumTime`) are not modelled.
-/

namespace PowerSum

/-! ## `power_sum.c` -/

/-- `computeSumUsingSeries(power, n, result)` of `power_sum.c`: the brute-force sum.
`mpz_ui_pow_ui` gives `0 ^ 0 = 1`, as does `^` on `ℤ`. -/
def computeSumUsingSeries (power n : ℤ) (_result : ℤ) : ℤ :=
  let result : ℤ := 0
  if power < 0 ∨ n < 0 then result
  else
    (List.range (n.toNat + 1)).foldl
      (fun (result : ℤ) (count : ℕ) => result + (count : ℤ) ^ power.toNat) result

/-- One pass of the loop of `nCr`: `num--; result = result * num / i`.
The state is `(num, result)`. -/
def nCrStep (st : ℤ × ℤ) (i : ℕ) : ℤ × ℤ :=
  let num := st.1 - 1
  (num, st.2 * num / (i : ℤ))

/-- `nCr(n, r, result)` of `power_sum.c` on arguments `n, r ≥ 0`, taken in `ℕ`; `n / 2` is
then the truncating C division. The one call whose first argument can be negative (a wrapped
sum, in the Euler evaluator) goes through `nCrLong`. -/
def nCr (n r : ℕ) : ℤ :=
  if r > n then 0
  else
    let r := if r > n / 2 then n - r else r
    if r = 0 then 1
    else ((List.range' 2 (r - 1)).foldl nCrStep ((n : ℤ), (n : ℤ))).2

/-! ## `faulhaber_power_sum.c` -/

/-- `postProcessRow`: the matrix part of the row (all entries but the augmented one) is
reversed, the augmented column is set to `1`, and `scaleBy` becomes the first non-zero
entry of the resulting row (`1` when there is none). `row` holds the matrix part only, as
in `FaulhaberPowerSum::postProcessRow`, which reverses and then appends the `1`. -/
def postProcessRow (row : List ℤ) : List ℤ × ℤ :=
  let row := row.reverse ++ [1]
  (row, (row.find? (fun x => decide (x ≠ 0))).getD 1)

/-- The incremental binomial update shared by both row builders:
`ncr = ncr * ((i + 2) * (i + 1)) / ((top - i - 1) * (top - i))`, in `long` arithmetic. -/
def ncrUpdate (ncr : ℤ) (top i : ℤ) : ℤ :=
  ncr * ((i + 2) * (i + 1)) / ((top - i - 1) * (top - i))

/-- One pass of the first loop of `createRowForOddPower`, for the loop variable `i`.
The state is `(row, ncr)`; the row grows by one entry (`numAdded++`). -/
def oddRowStep (rowNum : ℕ) (st : List ℤ × ℤ) (i : ℕ) : List ℤ × ℤ :=
  if i > rowNum then (st.1 ++ [0], st.2)
  else
    let ncr := if st.2 = 0 then nCr rowNum i else ncrUpdate st.2 rowNum i
    (st.1 ++ [ncr], ncr)

/-- The values taken by the loop variable of `for (i = 2*rowNum - 1; i >= 1; i -= 2)`. -/
def rowLoopIndices (rowNum : ℕ) : List ℕ :=
  (List.range rowNum).map (fun t => 2 * rowNum - 1 - 2 * t)

/-- `createRowForOddPower(nLimit, rowNum, row, scaleBy)`: returns `(row, scaleBy)`. -/
def createRowForOddPower (nLimit rowNum : ℕ) : List ℤ × ℤ :=
  let st := (rowLoopIndices rowNum).foldl (oddRowStep rowNum) (([] : List ℤ), (0 : ℤ))
  -- while (numAdded < nLimit) row[numAdded++] = 0
  let row := st.1 ++ List.replicate (nLimit - st.1.length) 0
  postProcessRow row

/-- One pass of the first loop of `createRowForEvenPower`. The state is
`(row, ncr1, ncr2)`. -/
def evenRowStep (rowNum : ℕ) (st : List ℤ × ℤ × ℤ) (i : ℕ) : List ℤ × ℤ × ℤ :=
  if i > rowNum then (st.1 ++ [0], st.2.1, st.2.2)
  else
    let ncr1 := if st.2.1 = 0 then nCr rowNum i else ncrUpdate st.2.1 rowNum i
    let ncr2 := if st.2.2 = 0 then nCr (rowNum - 1) i
                else ncrUpdate st.2.2 ((rowNum : ℤ) - 1) i
    (st.1 ++ [ncr1 + ncr2], ncr1, ncr2)

/-- `createRowForEvenPower(nLimit, rowNum, row, scaleBy)`: returns `(row, scaleBy)`. -/
def createRowForEvenPower (nLimit rowNum : ℕ) : List ℤ × ℤ :=
  let st := (rowLoopIndices rowNum).foldl (evenRowStep rowNum)
    (([] : List ℤ), (0 : ℤ), (0 : ℤ))
  let row := st.1 ++ List.replicate (nLimit - st.1.length) 0
  postProcessRow row

/-- The row builder selected by the parity flag `oddPower`. -/
def createRow (oddPower : Bool) (nLimit rowNum : ℕ) : List ℤ × ℤ :=
  if oddPower then createRowForOddPower nLimit rowNum
  else createRowForEvenPower nLimit rowNum

/-- Local state of the elimination loop of `getFaulhaberCoefficients`. `stopped` records
that the `break` on a zero pivot was taken. -/
structure FaulhaberState where
  firstRow : List ℤ
  scaleBy : ℤ
  coeffs : List ℚ
  pivotIndex : ℕ
  stopped : Bool

/-- The inner loop `for (j = pivotIndex + 1; j < nLimit + 1; j++)`:
`firstRow[j] = firstRow[j] * nextRow[pivotIndex] - pivot * nextRow[j]`. -/
def eliminateRow (nLimit pivotIndex : ℕ) (pivot : ℤ) (nextRow firstRow : List ℤ) : List ℤ :=
  (List.range' (pivotIndex + 1) (nLimit - pivotIndex)).foldl
    (fun firstRow j =>
      firstRow.set j (firstRow.getD j 0 * nextRow.getD pivotIndex 0 - pivot * nextRow.getD j 0))
    firstRow

/-- One pass of `for (i = nLimit - 1; i >= 1; i--)` in `getFaulhaberCoefficients`. -/
def faulhaberStep (oddPower : Bool) (nLimit : ℕ) (st : FaulhaberState) (i : ℕ) :
    FaulhaberState :=
  if st.stopped then st
  else
    let firstRow := st.firstRow.set nLimit 0
    let pivot := firstRow.getD st.pivotIndex 0
    if pivot = 0 then { st with firstRow := firstRow, stopped := true }
    else
      let next := createRow oddPower nLimit i
      let scaleBy := st.scaleBy * next.2
      let firstRow := eliminateRow nLimit st.pivotIndex pivot next.1 firstRow
      { firstRow := firstRow
        scaleBy := scaleBy
        coeffs := st.coeffs ++ [(firstRow.getD nLimit 0 : ℚ) / (scaleBy : ℚ)]
        pivotIndex := st.pivotIndex + 1
        stopped := false }

/-- The row limit `nLimit` of `getFaulhaberCoefficients` for a power `p ≥ 0`. -/
def faulhaberLimit (p : ℕ) : ℕ :=
  if p % 2 = 1 then (p + 1) / 2 else p / 2 + 1

/-- The state of `getFaulhaberCoefficients` when its elimination loop ends. -/
def faulhaberRun (p : ℕ) : FaulhaberState :=
  let oddPower : Bool := decide (p % 2 = 1)
  let nLimit := faulhaberLimit p
  let first := createRow oddPower nLimit nLimit
  (List.range' 1 (nLimit - 1)).reverse.foldl (faulhaberStep oddPower nLimit)
    { firstRow := first.1
      scaleBy := first.2
      coeffs := [(first.1.getD nLimit 0 : ℚ) / (first.2 : ℚ)]
      pivotIndex := 1
      stopped := false }

/-- `getFaulhaberCoefficients(power, coeffList, numCoeffs)`: the returned list is
`finalCoeffs`, its length is `numCoeffs` (the final `pivotIndex`). -/
def getFaulhaberCoefficients (power : ℤ) : List ℚ :=
  if power < 0 then []
  else
    let st := faulhaberRun power.toNat
    st.coeffs.take st.pivotIndex

/-- One pass of the summation loop of `computeFaulhaberSumWithTimeStat`, for the index `i`
(descending). The state is `(sum, NPow)`. -/
def faulhaberSumStep (coeffs : List ℚ) (N : ℤ) (st : ℚ × ℤ) (i : ℕ) : ℚ × ℤ :=
  (st.1 + (st.2 : ℚ) * coeffs.getD i 0, st.2 * N)

/-- `computeFaulhaberSumWithTimeStat(power, n, result, ..)`. The C function multiplies the
rational `sum` by `2n + 1` (even powers), takes its numerator and halves it; the C++ method
halves the rational first and takes the numerator last. -/
def computeFaulhaberSumWithTimeStat (power n : ℤ) (_result : ℤ) : ℤ :=
  let result : ℤ := 0
  if power < 0 ∨ n < 0 then result
  else if power > 0 then
    let coeffs := getFaulhaberCoefficients power
    if n > 0 then
      let N : ℤ := n * (n + 1)
      let NPow : ℤ := if power % 2 = 1 then N * N else N
      let st := (List.range coeffs.length).reverse.foldl (faulhaberSumStep coeffs N)
        ((0 : ℚ), NPow)
      let sum : ℚ := if power % 2 = 0 then st.1 * ((2 * n + 1 : ℤ) : ℚ) else st.1
      sum.num / 2
    else result
  else n + 1

/-- `computeFaulhaberSum(power, n, result)`. -/
def computeFaulhaberSum (power n : ℤ) (result : ℤ) : ℤ :=
  computeFaulhaberSumWithTimeStat power n result

/-! ## `bernoulli_power_sum.c` -/

/-- One pass of the loop of `computeNextCoefficient`, for the index `k`. The state is
`(binom, nextCoeff)`. -/
def nextCoefficientStep (current : List ℚ) (m : ℕ) (st : ℤ × ℚ) (k : ℕ) : ℤ × ℚ :=
  let nextCoeff := if k % 2 = 0 ∨ k = 1 then st.2 + (st.1 : ℚ) * current.getD k 0 else st.2
  (st.1 * ((m : ℤ) + 1 - (k : ℤ)) / ((k : ℤ) + 1), nextCoeff)

/-- `computeNextCoefficient(current, m, nextCoeff)`: returns `nextCoeff`. -/
def computeNextCoefficient (current : List ℚ) (m : ℕ) : ℚ :=
  let st := (List.range m).foldl (nextCoefficientStep current m) ((1 : ℤ), (0 : ℚ))
  (-st.2) / (st.1 : ℚ)

/-- One pass of `for (i = 2; i <= power; i++)` in `getBernoulliCoefficients`. -/
def bernoulliStep (coeffs : List ℚ) (i : ℕ) : List ℚ :=
  if i % 2 = 1 then coeffs.set i 0
  else coeffs.set i (computeNextCoefficient coeffs i)

/-- `getBernoulliCoefficients(power, coeffList, numCoeffs)`. -/
def getBernoulliCoefficients (power : ℤ) : List ℚ :=
  if power < 0 then []
  else
    let p := power.toNat
    let coeffs := (List.replicate (p + 1) (0 : ℚ)).set 0 1
    if power > 0 then
      let coeffs := coeffs.set 1 (-1 / 2)
      (List.range' 2 (p - 1)).foldl bernoulliStep coeffs
    else coeffs

/-- Local state of the summation loop of `computeBernoulliSumWithTimeStat`. -/
structure BernoulliSumState where
  sum : ℚ
  binom : ℤ
  pow : ℤ
  binomN : ℤ
  binomR : ℤ

/-- One pass of the (descending) summation loop of `computeBernoulliSumWithTimeStat`. -/
def bernoulliSumStep (coeffs : List ℚ) (nPlusOne : ℤ) (st : BernoulliSumState) (i : ℕ) :
    BernoulliSumState :=
  let sum := if i % 2 = 0 ∨ i = 1 then st.sum + coeffs.getD i 0 * (st.binom : ℚ) * (st.pow : ℚ)
             else st.sum
  let binomN := st.binomN - 1
  let binomR := st.binomR + 1
  { sum := sum
    binom := st.binom * binomN / binomR
    pow := st.pow * nPlusOne
    binomN := binomN
    binomR := binomR }

/-- `computeBernoulliSumWithTimeStat(power, n, result, ..)`. -/
def computeBernoulliSumWithTimeStat (power n : ℤ) (_result : ℤ) : ℤ :=
  if power < 0 ∨ n < 0 then 0
  else
    let coeffs := getBernoulliCoefficients power
    let binomN : ℤ := power + 1
    let nPlusOne : ℤ := n + 1
    let st := (List.range coeffs.length).reverse.foldl (bernoulliSumStep coeffs nPlusOne)
      { sum := 0, binom := binomN, pow := nPlusOne, binomN := binomN, binomR := 1 }
    let sum : ℚ := st.sum / ((power + 1 : ℤ) : ℚ)
    sum.num

/-- `computeBernoulliSum(power, n, result)`. -/
def computeBernoulliSum (power n : ℤ) (result : ℤ) : ℤ :=
  computeBernoulliSumWithTimeStat power n result

/-! ## `stirling_power_sum.c` -/

/-- One pass of the inner loop of `_getStirlingCoefficients`, for the index `term`.
The state is `(coeffs, Sm_1j_1)`. -/
def stirlingTermStep (st : List ℤ × ℤ) (term : ℕ) : List ℤ × ℤ :=
  let Smj := (term : ℤ) * st.1.getD term 0 + st.2
  (st.1.set term Smj, st.1.getD term 0)

/-- One pass of the outer loop of `_getStirlingCoefficients`, for `currentPower`;
`maxNumCoefficients` is the value after the decrement. -/
def stirlingRowStep (maxNumCoefficients : ℤ) (st : List ℤ × ℤ) (currentPower : ℕ) :
    List ℤ × ℤ :=
  let termMax : ℤ :=
    if (currentPower : ℤ) > maxNumCoefficients then maxNumCoefficients else currentPower
  let st := (List.range' 1 termMax.toNat).foldl stirlingTermStep st
  (st.1, st.1.getD 0 0)

/-- `_getStirlingCoefficients(power, maxNumCoefficients, coeffList, numCoeffs)`. -/
def _getStirlingCoefficients (power maxNumCoefficients : ℤ) : List ℤ :=
  if power < 0 then []
  else
    let p := power.toNat
    if power > 0 then
      let maxNumCoefficients := maxNumCoefficients - 1
      ((List.range' 1 p).foldl (stirlingRowStep maxNumCoefficients)
        (List.replicate (p + 1) (0 : ℤ), (1 : ℤ))).1
    else [1]

/-- `getStirlingCoefficients(power, coeffList, numCoeffs)`. -/
def getStirlingCoefficients (power : ℤ) : List ℚ :=
  (_getStirlingCoefficients power (power + 1)).map (fun (z : ℤ) => (z : ℚ))

/-- One pass of the summation loop of `computeStirlingSumWithTimeStat`, for the index `t`.
The state is `(result, fallingFactorial)`. -/
def stirlingSumStep (coeffs : List ℤ) (n : ℤ) (st : ℤ × ℤ) (t : ℕ) : ℤ × ℤ :=
  let factor := st.2 / ((t : ℤ) + 1) * coeffs.getD t 0
  (st.1 + factor, st.2 * (n - (t : ℤ)))

/-- `computeStirlingSumWithTimeStat(power, n, result, ..)`. -/
def computeStirlingSumWithTimeStat (power n : ℤ) (_result : ℤ) : ℤ :=
  let result : ℤ := 0
  if power < 0 ∨ n < 0 then result
  else
    let coeffs := _getStirlingCoefficients power (n + 1)
    let numTermsToCompute : ℤ := (if power > n then n else power) + 1
    ((List.range numTermsToCompute.toNat).foldl (stirlingSumStep coeffs n) (result, n + 1)).1

/-- `computeStirlingSum(power, n, result)`. -/
def computeStirlingSum (power n : ℤ) (result : ℤ) : ℤ :=
  computeStirlingSumWithTimeStat power n result

/-! ## `euler_power_sum.c` -/

/-- One pass of the recurrence loop `for (j = 0; j <= limit; j++)` of
`_getEulerCoefficients`, in the row `i`. The state is `(coeffs, E_i_1_j_1)`. -/
def eulerTermStep (i : ℕ) (st : List ℤ × ℤ) (j : ℕ) : List ℤ × ℤ :=
  if j = 0 then (st.1.set j 1, st.1.getD j 0)
  else
    let temp := st.1.getD j 0 * ((j : ℤ) + 1) + st.2 * ((i : ℤ) - (j : ℤ))
    (st.1.set j temp, st.1.getD j 0)

/-- The mirrored copy of `_getEulerCoefficients` in the row `i`, with `j = halfLimit`:
`coeffs[j + k] = coeffs[j - k]` for an odd row, `coeffs[j + k] = coeffs[j - k + 1]` for an
even one, for `k = 1, 2, ..` while `j + k < i`. -/
def eulerMirror (i j : ℕ) (oddPower : Bool) (coeffs : List ℤ) : List ℤ :=
  (List.range' 1 (i - 1 - j)).foldl
    (fun coeffs k =>
      coeffs.set (j + k) (coeffs.getD (if oddPower then j - k else j + 1 - k) 0))
    coeffs

/-- One pass of the outer loop of `_getEulerCoefficients`, for the row `i ≥ 1`. -/
def eulerRowStep (maxN : ℤ) (st : List ℤ × ℤ) (i : ℕ) : List ℤ × ℤ :=
  let oddPower : Bool := decide (i % 2 = 1)
  let halfI : ℕ := i / 2
  let halfLimit : ℕ := if oddPower then halfI else halfI - 1
  let limit : ℤ := if (halfLimit : ℤ) > maxN then maxN else halfLimit
  let st := (List.range (limit + 1).toNat).foldl (eulerTermStep i) st
  let coeffs := eulerMirror i halfLimit oddPower st.1
  (coeffs.set i 0, st.2)

/-- `_getEulerCoefficients(power, maxN, coeffList, numCoeffs)`. -/
def _getEulerCoefficients (power maxN : ℤ) : List ℤ :=
  if power < 0 then []
  else
    let p := power.toNat
    let coeffs := (1 : ℤ) :: List.replicate p (0 : ℤ)
    ((List.range' 1 p).foldl (eulerRowStep maxN) (coeffs, (0 : ℤ))).1

/-- `getEulerCoefficients(power, coeffList, numCoeffs)`. -/
def getEulerCoefficients (power : ℤ) : List ℚ :=
  (_getEulerCoefficients power power).map (fun (z : ℤ) => (z : ℚ))

/-- Local state of the summation loop of `computeEulerSumWithTimeStat`. -/
structure EulerSumState where
  result : ℤ
  temp : ℤ
  firstTime : Bool

/-- The value of a signed 64-bit `long` expression whose exact value is `z`:
two's-complement wrap into `[-2^63, 2^63)`. -/
def wrapLong (z : ℤ) : ℤ :=
  (z + 9223372036854775808) % 18446744073709551616 - 9223372036854775808

/-- A `long` value passed as the `unsigned long` parameter of `mpz_mul_ui` or
`mpz_divexact_ui`: its residue in `[0, 2^64)`. -/
def toUnsignedLong (z : ℤ) : ℤ := z % 18446744073709551616

/-- The call `nCr(n, r, temp)` at a site where the `long` argument `n` may be negative (a
wrapped sum) and `r ≥ 1`: a negative `n` takes the branch `r > n` of `nCr`, which sets the
result to `0`; otherwise the call is `nCr` on non-negative arguments. -/
def nCrLong (n r : ℤ) : ℤ :=
  if r > n then 0 else nCr n.toNat r.toNat

/-- One pass of the summation loop of `computeEulerSumWithTimeStat`, for the index `j`.
Here `power, n ≥ 0` (the guard has passed). The sums `n + j`, `n + j + 1` and
`n + j - power` are `long` expressions and wrap; `power + 1` does not, the generator having
allocated `power + 1` entries. -/
def eulerSumStep (coeffs : List ℤ) (power n : ℕ) (st : EulerSumState) (j : ℕ) :
    EulerSumState :=
  let nj : ℤ := wrapLong ((n : ℤ) + (j : ℤ))
  if nj ≥ (power : ℤ) then
    let temp :=
      if st.firstTime then nCrLong (wrapLong (nj + 1)) ((power : ℤ) + 1)
      else st.temp * toUnsignedLong (wrapLong (nj + 1))
        / toUnsignedLong (wrapLong (nj - (power : ℤ)))
    { result := st.result + coeffs.getD j 0 * temp, temp := temp, firstTime := false }
  else st

/-- `computeEulerSumWithTimeStat(power, n, result, ..)`. The index arithmetic of its loop is
in `eulerSumStep`. -/
def computeEulerSumWithTimeStat (power n : ℤ) (_result : ℤ) : ℤ :=
  let result : ℤ := 0
  if power < 0 ∨ n < 0 then result
  else
    let coeffs := _getEulerCoefficients power n
    ((List.range coeffs.length).foldl (eulerSumStep coeffs power.toNat n.toNat)
      { result := result, temp := 0, firstTime := true }).result

/-- `computeEulerSum(power, n, result)`. -/
def computeEulerSum (power n : ℤ) (result : ℤ) : ℤ :=
  computeEulerSumWithTimeStat power n result

/-! ## `central_factorial_power_sum.c` -/

/-- One pass of the inner loop of `_getCentralFactorialCoefficients`, for the index `k` in
the row `i`. The state is `(coeffs, T_2_2)`. -/
def centralTermStep (i : ℕ) (st : List ℤ × ℤ) (k : ℕ) : List ℤ × ℤ :=
  if i = k then (st.1.set k 1, st.2)
  else if i > 0 ∧ k > 0 then
    let temp := st.1.getD k 0 * (k : ℤ) * (k : ℤ) + st.2
    (st.1.set k temp, st.1.getD k 0)
  else (st.1.set k 0, st.2)

/-- One pass of the outer loop of `_getCentralFactorialCoefficients`, for the row `i`. -/
def centralRowStep (maxNumCoefficients : ℕ) (st : List ℤ × ℤ) (i : ℕ) : List ℤ × ℤ :=
  let st := (List.range maxNumCoefficients).foldl (centralTermStep i) st
  (st.1, st.1.getD 0 0)

/-- `_getCentralFactorialCoefficients(power, maxN, coeffList, numCoeffs)`. -/
def _getCentralFactorialCoefficients (power maxN : ℤ) : List ℤ :=
  if power < 0 then []
  else
    let p := power.toNat
    let m : ℕ := p / 2 + p % 2
    let maxNumCoefficients : ℤ := if maxN < (m : ℤ) + 1 then maxN + 1 else (m : ℤ) + 1
    let size := maxNumCoefficients.toNat
    ((List.range (m + 1)).foldl (centralRowStep size)
      (List.replicate size (0 : ℤ), (0 : ℤ))).1

/-- `getCentralFactorialCoefficients(power, coeffList, numCoeffs)`. -/
def getCentralFactorialCoefficients (power : ℤ) : List ℚ :=
  (_getCentralFactorialCoefficients power power).map (fun (z : ℤ) => (z : ℚ))

/-- One pass of the summation loop of `computeCentralFactorialSumWithTimeStat`, for the
index `k`. The state is `(result, fallingFactorial)`. -/
def centralSumStep (coeffs : List ℤ) (evenPower : Bool) (n : ℤ) (st : ℤ × ℤ) (k : ℕ) :
    ℤ × ℤ :=
  let fallingFactorial := st.2 * (n + (k : ℤ)) * (n - (k : ℤ) + 1)
  let temp := coeffs.getD k 0 * fallingFactorial
  let temp := if evenPower then temp * (2 * n + 1) / (2 * (2 * (k : ℤ) + 1))
              else temp / (2 * (k : ℤ))
  (st.1 + temp, fallingFactorial)

/-- `computeCentralFactorialSumWithTimeStat(power, n, result, ..)`. On the negative
domain the function returns before it touches `result`. -/
def computeCentralFactorialSumWithTimeStat (power n : ℤ) (result : ℤ) : ℤ :=
  if power < 0 ∨ n < 0 then result
  else
    let evenPower : Bool := decide (power % 2 = 0)
    let coeffs := _getCentralFactorialCoefficients power n
    if power > 0 then
      ((List.range' 1 (coeffs.length - 1)).foldl (centralSumStep coeffs evenPower n)
        ((0 : ℤ), (1 : ℤ))).1
    else n + 1

/-- `computeCentralFactorialSum(power, n, result)`. -/
def computeCentralFactorialSum (power n : ℤ) (result : ℤ) : ℤ :=
  computeCentralFactorialSumWithTimeStat power n result

/-! ## Reference sequences

The number triangles named in the header comments of the generators. -/

/-- Stirling numbers of the second kind, as defined in the header comment of
`stirling_power_sum.c`. -/
def stirling2 : ℕ → ℕ → ℤ
  | 0, 0 => 1
  | 0, _ + 1 => 0
  | _ + 1, 0 => 0
  | m + 1, j + 1 => ((j : ℤ) + 1) * stirling2 m (j + 1) + stirling2 m j

/-- Euler numbers of the first kind, as defined in the header comment of
`euler_power_sum.c`: `E(i, 0) = 1` and `E(i, j) = (j + 1) E(i - 1, j) + (i - j) E(i - 1, j - 1)`,
on top of the row `E(0, ·) = 1, 0, 0, ..` the generator starts from. -/
def euler1 : ℕ → ℕ → ℤ
  | 0, 0 => 1
  | 0, _ + 1 => 0
  | _ + 1, 0 => 1
  | i + 1, j + 1 =>
    ((j : ℤ) + 1 + 1) * euler1 i (j + 1) + (((i : ℤ) + 1) - ((j : ℤ) + 1)) * euler1 i j

/-- Central factorial numbers of the second kind with even arguments, `centralT i k` being
`T(2i, 2k)` of the header comment of `central_factorial_power_sum.c`:
`T(2i, 2k) = k * k * T(2i - 2, 2k) + T(2i - 2, 2k - 2)`, on top of `T(0, 0) = 1`. -/
def centralT : ℕ → ℕ → ℤ
  | 0, 0 => 1
  | 0, _ + 1 => 0
  | _ + 1, 0 => 0
  | i + 1, k + 1 => ((k : ℤ) + 1) * ((k : ℤ) + 1) * centralT i (k + 1) + centralT i k

/-- The central factorial `x^[2k] = x^2 (x^2 - 1^2) .. (x^2 - (k-1)^2)`. -/
def centralPow (x : ℤ) (k : ℕ) : ℤ :=
  ∏ l ∈ Finset.range k, (x ^ 2 - (l : ℤ) ^ 2)

/-- The odd central factorial `x (x^2 - 1^2) .. (x^2 - k^2)`, that is `x^[2k + 2] / x`. -/
def centralOdd (x : ℤ) (k : ℕ) : ℤ :=
  x * ∏ l ∈ Finset.range k, (x ^ 2 - ((l : ℤ) + 1) ^ 2)

/-- The product `(n + 1) n (n + 2) (n - 1) .. (n + k) (n - k + 1)` that the summation loop
of `computeCentralFactorialSumWithTimeStat` builds in `fallingFactorial`. -/
def centralProd (n : ℤ) (k : ℕ) : ℤ :=
  ∏ l ∈ Finset.range k, ((n + ((l : ℤ) + 1)) * (n - ((l : ℤ) + 1) + 1))

/-- The entry of the Faulhaber matrix row `rowNum = k` at the offset `s` from its leading
column: `C(k, 2s + 1)` for odd powers, `C(k, 2s + 1) + C(k - 1, 2s + 1)` for even powers
(the expansions of `N^k` and of `(2n + 1) N^(k - 1)` in power sums, after Edwards). -/
def rowEntry (oddPower : Bool) (k s : ℕ) : ℤ :=
  if oddPower then ((k.choose (2 * s + 1) : ℕ) : ℤ)
  else ((k.choose (2 * s + 1) : ℕ) : ℤ) + (((k - 1).choose (2 * s + 1) : ℕ) : ℤ)

/-- The matrix part of the row `rowNum = k` of the Faulhaber system with `nLimit` columns:
zero before the column `nLimit - k`, then `rowEntry` from the offset `0` on. -/
def rowMatrix (oddPower : Bool) (nLimit k j : ℕ) : ℤ :=
  if nLimit ≤ j + k then rowEntry oddPower k (j + k - nLimit) else 0

/-- The coefficient of the power sum `S(e, n)` in the expansion of `N^k / 2`, `N = n (n + 1)`
(Edwards): `C(k, 2k - e)`, zero when `e > 2k`. -/
def edwardsOdd (k e : ℕ) : ℚ :=
  if e ≤ 2 * k then ((k.choose (2 * k - e) : ℕ) : ℚ) else 0

/-- The coefficient of the power sum `S(e, n)` in the expansion of `(2n + 1) N^(k - 1) / 2`:
`C(k, 2k - 1 - e) + C(k - 1, 2k - 1 - e)`, zero when `e + 1 > 2k`. -/
def edwardsEven (k e : ℕ) : ℚ :=
  if e + 1 ≤ 2 * k then
    ((k.choose (2 * k - 1 - e) : ℕ) : ℚ) + (((k - 1).choose (2 * k - 1 - e) : ℕ) : ℚ)
  else 0

/-- The coefficients of `2 S(2m + 1, n)` in powers of `N`, from the top one down, computed
from those of `2 S(2m - 1, n)` (the sequence `b`): entry `t` is the coefficient of
`N^(m + 1 - t)`. -/
def faulU (m : ℕ) (b : ℕ → ℚ) : ℕ → ℚ
  | 0 => ((2 * (m : ℚ) + 1) * (2 * (m : ℚ)) * b m) / (2 * ((m : ℚ) + 1) * (2 * (m : ℚ) + 1))
  | t + 1 =>
    ((2 * (m : ℚ) + 1) * (2 * (m : ℚ)) * b (m - (t + 1))
      - (((m - (t + 1) : ℕ) : ℚ) + 2) * (((m - (t + 1) : ℕ) : ℚ) + 1) * faulU m b t)
    / (2 * (((m - (t + 1) : ℕ) : ℚ) + 1) * (2 * ((m - (t + 1) : ℕ) : ℚ) + 1))

/-- Faulhaber's coefficients: `faulY m k` is the coefficient of `N^k` in `2 S(2m - 1, n)`. -/
def faulY : ℕ → ℕ → ℚ
  | 0 => fun _ => 0
  | 1 => fun k => if k = 1 then 1 else 0
  | (m + 2) => fun k =>
    if 2 ≤ k ∧ k ≤ m + 2 then faulU (m + 1) (faulY (m + 1)) (m + 2 - k) else 0

/-- The coefficient that Faulhaber's formula puts at position `s` for the power `p`: the one
of `N^(nLimit - s)` for odd `p`, of `(2n+1) N^(nLimit - 1 - s)` for even `p`. -/
def faulhaberCoeff (p s : ℕ) : ℚ :=
  if p % 2 = 1 then faulY (faulhaberLimit p) (faulhaberLimit p - s)
  else ((faulhaberLimit p - s : ℕ) : ℚ) * faulY (faulhaberLimit p) (faulhaberLimit p - s)
    / ((p : ℚ) + 1)

/-- The number of non-zero leading coefficients of Faulhaber's formula for the power `p`. -/
def faulhaberLength (p : ℕ) : ℕ := if p = 1 then 1 else faulhaberLimit p - 1

/-- The invariant of the elimination loop of `getFaulhaberCoefficients` for the power `p`:
the coefficients found so far are Faulhaber's, and the matrix part of the accumulated row is
`scaleBy` times the combination of the rows used so far with those coefficients. -/
def FaulhaberInv (p : ℕ) (st : FaulhaberState) : Prop :=
  st.firstRow.length = faulhaberLimit p + 1 ∧
  st.scaleBy ≠ 0 ∧
  st.coeffs.length = st.pivotIndex ∧
  1 ≤ st.pivotIndex ∧
  st.pivotIndex ≤ faulhaberLength p ∧
  (∀ s, s < st.pivotIndex → st.coeffs.getD s 0 = faulhaberCoeff p s) ∧
  (∀ j, st.pivotIndex ≤ j → j < faulhaberLimit p →
    ((st.firstRow.getD j 0 : ℤ) : ℚ) = (st.scaleBy : ℚ) *
      (Finset.range st.pivotIndex).sum (fun s => faulhaberCoeff p s *
        ((rowMatrix (decide (p % 2 = 1)) (faulhaberLimit p) (faulhaberLimit p - s) j : ℤ) : ℚ)))

/-- The iteration that the specification describes for `nCr`, with the offset `d` in the
factor made explicit: start from `result = n` and apply `result = result * (n - i + d) / i`
for `i = 2..r`. The specification's wording is `d = 0`; it is compared below with the loop
of `nCr` taken from the source. -/
def nCrIterSpec (d : ℤ) (n r : ℕ) : ℤ :=
  (List.range' 2 (r - 1)).foldl
    (fun (result : ℤ) (i : ℕ) => result * ((n : ℤ) - (i : ℤ) + d) / (i : ℤ)) (n : ℤ)

/-- The rational `sum` that `computeBernoulliSumWithTimeStat(power, n, ..)` holds after
`mpq_div(sum, sum, power + 1)`, before `mpq_get_num`, on the domain `power, n ≥ 0`. -/
def bernoulliSumQuotient (power n : ℤ) : ℚ :=
  let coeffs := getBernoulliCoefficients power
  let binomN : ℤ := power + 1
  let nPlusOne : ℤ := n + 1
  let st := (List.range coeffs.length).reverse.foldl (bernoulliSumStep coeffs nPlusOne)
    { sum := 0, binom := binomN, pow := nPlusOne, binomN := binomN, binomR := 1 }
  st.sum / ((power + 1 : ℤ) : ℚ)

/-! # Properties -/

open Finset

/-! ## Loop and array lemmas -/

theorem getD_set_eq (l : List α) (i j : ℕ) (v d : α) :
    (l.set i v).getD j d = if i = j ∧ i < l.length then v else l.getD j d := by
  simp only [List.getD_eq_getElem?_getD, List.getElem?_set]
  by_cases h : i = j
  · subst h
    by_cases h2 : i < l.length
    · simp [h2]
    · simp [h2, List.getElem?_eq_none (Nat.le_of_not_lt h2)]
  · simp [h]

theorem getD_replicate_zero (n j : ℕ) : (List.replicate n (0 : ℤ)).getD j 0 = 0 := by
  simp only [List.getD_eq_getElem?_getD, List.getElem?_replicate]
  split <;> rfl

/-- Invariant rule for `for (k = 0; k < n; k++)`. -/
theorem foldl_range_inv {σ : Type*} (P : ℕ → σ → Prop) (f : σ → ℕ → σ) (s0 : σ) (n : ℕ)
    (h0 : P 0 s0) (hstep : ∀ k s, k < n → P k s → P (k + 1) (f s k)) :
    P n ((List.range n).foldl f s0) := by
  induction n with
  | zero => simpa using h0
  | succ m ih =>
    rw [List.range_succ, List.foldl_append]
    exact hstep m _ (Nat.lt_succ_self m)
      (ih (fun k s hk hP => hstep k s (Nat.lt_succ_of_lt hk) hP))

/-- Invariant rule for `for (k = lo; k < lo + n; k++)`; `P t` holds after `t` passes. -/
theorem foldl_range'_inv {σ : Type*} (P : ℕ → σ → Prop) (f : σ → ℕ → σ) (s0 : σ) (lo n : ℕ)
    (h0 : P 0 s0) (hstep : ∀ t s, t < n → P t s → P (t + 1) (f s (lo + t))) :
    P n ((List.range' lo n).foldl f s0) := by
  induction n with
  | zero => simpa using h0
  | succ m ih =>
    rw [List.range'_concat, List.foldl_append]
    simp only [one_mul, List.foldl_cons, List.foldl_nil]
    exact hstep m _ (Nat.lt_succ_self m)
      (ih (fun k s hk hP => hstep k s (Nat.lt_succ_of_lt hk) hP))

/-- Invariant rule for the descending loop `for (k = n - 1; k >= 0; k--)`; `P t` holds
after `t` passes, and pass number `t` runs the body at index `n - 1 - t`. -/
theorem foldl_range_reverse_inv {σ : Type*} (P : ℕ → σ → Prop) (f : σ → ℕ → σ) (s0 : σ)
    (n : ℕ) (h0 : P 0 s0) (hstep : ∀ t s, t < n → P t s → P (t + 1) (f s (n - 1 - t))) :
    P n ((List.range n).reverse.foldl f s0) := by
  have h : (List.range n).reverse = (List.range n).map (fun t => n - 1 - t) := by
    rw [List.range_eq_range', List.reverse_range', ← List.range_eq_range']
    simp
  rw [h, List.foldl_map]
  exact foldl_range_inv P (fun s t => f s (n - 1 - t)) s0 n h0 hstep

/-! ## The reference series -/

theorem computeSumUsingSeries_eq_sum (p n : ℕ) (r : ℤ) :
    computeSumUsingSeries (p : ℤ) (n : ℤ) r = ∑ k ∈ Finset.range (n + 1), (k : ℤ) ^ p := by
  have hg : ¬ ((p : ℤ) < 0 ∨ (n : ℤ) < 0) := by omega
  simp only [computeSumUsingSeries, hg, if_false, Int.toNat_ofNat]
  exact foldl_range_inv (fun k s => s = ∑ j ∈ Finset.range k, (j : ℤ) ^ p) _ 0 (n + 1)
    (by simp) (fun k s _ hs => by simp only [Finset.sum_range_succ, hs])

/-! ## Stirling numbers and falling factorials -/

theorem stirling2_eq_zero_of_lt : ∀ (m j : ℕ), m < j → stirling2 m j = 0
  | 0, 0, h => absurd h (lt_irrefl 0)
  | 0, _ + 1, _ => rfl
  | _ + 1, 0, h => by omega
  | m + 1, j + 1, h => by
    rw [stirling2, stirling2_eq_zero_of_lt m (j + 1) (by omega),
      stirling2_eq_zero_of_lt m j (by omega)]
    ring

theorem stirling2_succ_zero (m : ℕ) : stirling2 (m + 1) 0 = 0 := rfl

/-- `x * x^(j falling) = x^(j+1 falling) + j * x^(j falling)`. -/
theorem mul_descFactorial (x j : ℕ) :
    (x : ℤ) * (x.descFactorial j : ℤ)
      = (x.descFactorial (j + 1) : ℤ) + (j : ℤ) * (x.descFactorial j : ℤ) := by
  rw [Nat.descFactorial_succ]
  by_cases h : j ≤ x
  · push_cast [Nat.cast_sub h]
    ring
  · have h0 : x.descFactorial j = 0 := Nat.descFactorial_eq_zero_iff_lt.mpr (by omega)
    simp [h0]

/-- Powers in the falling-factorial basis. -/
theorem pow_eq_sum_stirling2 (x : ℕ) : ∀ p : ℕ,
    (x : ℤ) ^ p = ∑ j ∈ range (p + 1), stirling2 p j * (x.descFactorial j : ℤ)
  | 0 => by simp [stirling2]
  | p + 1 => by
    rw [pow_succ, pow_eq_sum_stirling2 x p, Finset.sum_mul]
    have h1 : ∀ j ∈ range (p + 1), stirling2 p j * (x.descFactorial j : ℤ) * (x : ℤ)
        = stirling2 p j * (x.descFactorial (j + 1) : ℤ)
          + (j : ℤ) * stirling2 p j * (x.descFactorial j : ℤ) := by
      intro j _
      have := mul_descFactorial x j
      linear_combination stirling2 p j * this
    rw [Finset.sum_congr rfl h1, Finset.sum_add_distrib]
    have h2 : ∑ j ∈ range (p + 1), (j : ℤ) * stirling2 p j * (x.descFactorial j : ℤ)
        = ∑ j ∈ range (p + 1),
            ((j : ℤ) + 1) * stirling2 p (j + 1) * (x.descFactorial (j + 1) : ℤ) := by
      rw [Finset.sum_range_succ', Finset.sum_range_succ _ p]
      rw [stirling2_eq_zero_of_lt p (p + 1) (by omega)]
      simp
    rw [h2, Finset.sum_range_succ' _ (p + 1), ← Finset.sum_add_distrib]
    simp only [stirling2_succ_zero, zero_mul, add_zero]
    refine Finset.sum_congr rfl (fun j _ => ?_)
    rw [stirling2]
    ring

theorem sum_range_choose_col (j : ℕ) : ∀ n : ℕ,
    ∑ x ∈ range (n + 1), x.choose j = (n + 1).choose (j + 1)
  | 0 => by
    cases j with
    | zero => simp
    | succ i => simp [Nat.choose_eq_zero_of_lt]
  | n + 1 => by
    rw [Finset.sum_range_succ, sum_range_choose_col j n, Nat.choose_succ_succ (n + 1) j]
    ring

theorem sum_range_descFactorial (j n : ℕ) :
    ∑ x ∈ range (n + 1), x.descFactorial j = j.factorial * (n + 1).choose (j + 1) := by
  rw [← sum_range_choose_col j n, Finset.mul_sum]
  exact Finset.sum_congr rfl (fun x _ => Nat.descFactorial_eq_factorial_mul_choose x j)

/-- The Stirling closed form of the power sum. -/
theorem sum_pow_eq_stirling2 (p n : ℕ) :
    ∑ x ∈ range (n + 1), (x : ℤ) ^ p
      = ∑ j ∈ range (p + 1), stirling2 p j * ((j.factorial * (n + 1).choose (j + 1) : ℕ) : ℤ) := by
  simp_rw [pow_eq_sum_stirling2 _ p]
  rw [Finset.sum_comm]
  refine Finset.sum_congr rfl (fun j _ => ?_)
  rw [← Finset.mul_sum, ← sum_range_descFactorial j n]
  push_cast
  rfl

/-! ## The Stirling generator -/

/-- The inner loop of `_getStirlingCoefficients` in the row `m + 1`: after `T` passes the
entries `1..T` hold the new row, the later ones still hold the row `m`, and the carry
`Sm_1j_1` is `S(m, T)`. -/
theorem stirling_inner_loop (len M m T : ℕ) (hT : T ≤ M) (hTl : T < len) (st : List ℤ × ℤ)
    (hlen : st.1.length = len) (hc : st.2 = stirling2 m 0) (h0 : st.1.getD 0 0 = 0)
    (hrow : ∀ j, 1 ≤ j → j ≤ M → st.1.getD j 0 = stirling2 m j) :
    ((List.range' 1 T).foldl stirlingTermStep st).1.length = len ∧
    ((List.range' 1 T).foldl stirlingTermStep st).2 = stirling2 m T ∧
    ((List.range' 1 T).foldl stirlingTermStep st).1.getD 0 0 = 0 ∧
    (∀ j, 1 ≤ j → j ≤ T →
      ((List.range' 1 T).foldl stirlingTermStep st).1.getD j 0 = stirling2 (m + 1) j) ∧
    (∀ j, T < j → j ≤ M →
      ((List.range' 1 T).foldl stirlingTermStep st).1.getD j 0 = stirling2 m j) := by
  refine foldl_range'_inv
    (fun t s => t ≤ T → (s.1.length = len ∧ s.2 = stirling2 m t ∧ s.1.getD 0 0 = 0 ∧
      (∀ j, 1 ≤ j → j ≤ t → s.1.getD j 0 = stirling2 (m + 1) j) ∧
      (∀ j, t < j → j ≤ M → s.1.getD j 0 = stirling2 m j)))
    stirlingTermStep st 1 T ?_ ?_ le_rfl
  · intro _
    exact ⟨hlen, hc, h0, fun j h1 h2 => absurd h1 (by omega), fun j h1 h2 => hrow j h1 h2⟩
  · intro t s ht hs _
    obtain ⟨hl, hcar, hz, hnew, hold⟩ := hs (by omega)
    have hcur : s.1.getD (1 + t) 0 = stirling2 m (1 + t) := hold (1 + t) (by omega) (by omega)
    refine ⟨?_, ?_, ?_, ?_, ?_⟩
    · simp [stirlingTermStep, hl]
    · simp only [stirlingTermStep]
      rw [hcur, Nat.add_comm 1 t]
    · simp only [stirlingTermStep]
      rw [getD_set_eq, if_neg (fun h => by omega)]
      exact hz
    · intro j h1 h2
      simp only [stirlingTermStep]
      rw [getD_set_eq]
      by_cases hj : 1 + t = j
      · have hlt : 1 + t < s.1.length := by omega
        rw [if_pos ⟨hj, hlt⟩, hcur, hcar, ← hj, Nat.add_comm 1 t, stirling2]
        push_cast
        ring
      · rw [if_neg (fun h => hj h.1)]
        exact hnew j h1 (by omega)
    · intro j h1 h2
      simp only [stirlingTermStep]
      rw [getD_set_eq, if_neg (fun h => by omega)]
      exact hold j (by omega) h2

/-- One row of `_getStirlingCoefficients`: the invariant "entries `1..M` hold `S(m, ·)`,
the carry holds `S(m, 0)`" moves from the row `m` to the row `m + 1`. -/
theorem stirling_row_step (len M m : ℕ) (hm : m + 1 < len) (st : List ℤ × ℤ)
    (hlen : st.1.length = len) (hc : st.2 = stirling2 m 0) (h0 : st.1.getD 0 0 = 0)
    (hrow : ∀ j, 1 ≤ j → j ≤ M → st.1.getD j 0 = stirling2 m j) :
    (stirlingRowStep (M : ℤ) st (m + 1)).1.length = len ∧
    (stirlingRowStep (M : ℤ) st (m + 1)).2 = stirling2 (m + 1) 0 ∧
    (stirlingRowStep (M : ℤ) st (m + 1)).1.getD 0 0 = 0 ∧
    (∀ j, 1 ≤ j → j ≤ M →
      (stirlingRowStep (M : ℤ) st (m + 1)).1.getD j 0 = stirling2 (m + 1) j) := by
  have key : ∀ T : ℕ, T = min (m + 1) M →
      ((List.range' 1 T).foldl stirlingTermStep st).1.length = len ∧
      ((List.range' 1 T).foldl stirlingTermStep st).1.getD 0 0 = 0 ∧
      (∀ j, 1 ≤ j → j ≤ M →
        ((List.range' 1 T).foldl stirlingTermStep st).1.getD j 0 = stirling2 (m + 1) j) := by
    intro T hTdef
    obtain ⟨a, _, c, d, e⟩ := stirling_inner_loop len M m T (by omega) (by omega) st hlen hc h0 hrow
    refine ⟨a, c, fun j h1 h2 => ?_⟩
    by_cases hj : j ≤ T
    · exact d j h1 hj
    · rw [e j (by omega) h2, stirling2_eq_zero_of_lt m j (by omega),
        stirling2_eq_zero_of_lt (m + 1) j (by omega)]
  have hT : (if ((m + 1 : ℕ) : ℤ) > (M : ℤ) then (M : ℤ) else ((m + 1 : ℕ) : ℤ)).toNat
      = min (m + 1) M := by
    split_ifs with h
    · rw [Int.toNat_ofNat]; omega
    · rw [Int.toNat_ofNat]; omega
  obtain ⟨a, c, d⟩ := key _ rfl
  simp only [stirlingRowStep, hT]
  exact ⟨a, c.trans (stirling2_succ_zero m).symm, c, d⟩

/-- The truncated Stirling generator: with `maxNumCoefficients = M + 1` every entry of
index `j ≤ M` is the Stirling number `S(p, j)`. -/
theorem getStirlingCoefficients_getD (p M j : ℕ) (hj : j ≤ M) :
    (_getStirlingCoefficients (p : ℤ) ((M : ℤ) + 1)).getD j 0 = stirling2 p j := by
  rcases Nat.eq_zero_or_pos p with hp | hp
  · subst hp
    cases j with
    | zero => simp [_getStirlingCoefficients, stirling2]
    | succ i => simp [_getStirlingCoefficients, stirling2]
  · have hg : ¬ ((p : ℤ) < 0) := by omega
    have hp' : (p : ℤ) > 0 := by omega
    simp only [_getStirlingCoefficients, hg, if_false, hp', if_true, Int.toNat_ofNat,
      add_sub_cancel_right]
    have main := foldl_range'_inv
      (fun t (s : List ℤ × ℤ) => t ≤ p → (s.1.length = p + 1 ∧ s.2 = stirling2 t 0 ∧
        s.1.getD 0 0 = 0 ∧ ∀ j, 1 ≤ j → j ≤ M → s.1.getD j 0 = stirling2 t j))
      (stirlingRowStep (M : ℤ)) (List.replicate (p + 1) (0 : ℤ), (1 : ℤ)) 1 p
      (fun _ => ⟨by simp, rfl, getD_replicate_zero _ _, fun j h1 _ => by
        rw [getD_replicate_zero, stirling2_eq_zero_of_lt 0 j (by omega)]⟩)
      (fun t s ht hs _ => by
        obtain ⟨a, b, c, d⟩ := hs (by omega)
        rw [Nat.add_comm 1 t]
        exact stirling_row_step (p + 1) M t (by omega) s a b c d)
      le_rfl
    obtain ⟨_, _, c, d⟩ := main
    cases j with
    | zero =>
      rw [c]
      obtain ⟨q, rfl⟩ : ∃ q, p = q + 1 := ⟨p - 1, by omega⟩
      rfl
    | succ i => exact d (i + 1) (by omega) hj

/-- The summation loop of `computeStirlingSumWithTimeStat`: after `t` passes the running
`fallingFactorial` is `(t + 1)! * C(n + 1, t + 1)` and `result` is the partial sum. -/
theorem stirling_sum_loop (coeffs : List ℤ) (n T : ℕ) (hT : T ≤ n + 1) :
    (List.range T).foldl (stirlingSumStep coeffs (n : ℤ)) ((0 : ℤ), (n : ℤ) + 1)
      = (∑ j ∈ range T, coeffs.getD j 0 * ((j.factorial * (n + 1).choose (j + 1) : ℕ) : ℤ),
         (((T + 1).factorial * (n + 1).choose (T + 1) : ℕ) : ℤ)) := by
  refine foldl_range_inv
    (fun t s => t ≤ n + 1 → s =
      (∑ j ∈ range t, coeffs.getD j 0 * ((j.factorial * (n + 1).choose (j + 1) : ℕ) : ℤ),
       (((t + 1).factorial * (n + 1).choose (t + 1) : ℕ) : ℤ)))
    _ _ T ?_ ?_ hT
  · intro _
    simp
  · intro t s ht hs _
    rw [hs (by omega)]
    simp only [stirlingSumStep]
    have hdiv : (((t + 1).factorial * (n + 1).choose (t + 1) : ℕ) : ℤ) / ((t : ℤ) + 1)
        = ((t.factorial * (n + 1).choose (t + 1) : ℕ) : ℤ) := by
      rw [Nat.factorial_succ]
      push_cast
      rw [mul_assoc, Int.mul_ediv_cancel_left _ (by omega)]
    have hmul : (((t + 1).factorial * (n + 1).choose (t + 1) : ℕ) : ℤ) * ((n : ℤ) - (t : ℤ))
        = (((t + 1 + 1).factorial * (n + 1).choose (t + 1 + 1) : ℕ) : ℤ) := by
      have h1 := Nat.choose_succ_right_eq (n + 1) (t + 1)
      have h2 : n + 1 - (t + 1) = n - t := by omega
      rw [h2] at h1
      have h3 : (((n + 1).choose (t + 1 + 1) * (t + 1 + 1) : ℕ) : ℤ)
          = (((n + 1).choose (t + 1) * (n - t) : ℕ) : ℤ) := by rw [h1]
      rw [Nat.factorial_succ (t + 1)]
      push_cast [Nat.cast_sub (show t ≤ n by omega)] at h3 ⊢
      linear_combination (-(((t + 1).factorial : ℕ) : ℤ)) * h3
    rw [hdiv, hmul, Finset.sum_range_succ]
    congr 1
    ring

/-- The Stirling evaluator computes the power sum. -/
theorem computeStirlingSum_eq_sum (p n : ℕ) (r : ℤ) :
    computeStirlingSum (p : ℤ) (n : ℤ) r = ∑ x ∈ range (n + 1), (x : ℤ) ^ p := by
  have hg : ¬ ((p : ℤ) < 0 ∨ (n : ℤ) < 0) := by omega
  have hT : ((if (p : ℤ) > (n : ℤ) then (n : ℤ) else (p : ℤ)) + 1).toNat = min p n + 1 := by
    split_ifs with h <;> omega
  simp only [computeStirlingSum, computeStirlingSumWithTimeStat, hg, if_false, hT]
  rw [stirling_sum_loop _ n (min p n + 1) (by omega), sum_pow_eq_stirling2]
  simp only
  have hsub : range (min p n + 1) ⊆ range (p + 1) :=
    Finset.range_subset.mpr (by omega)
  rw [← Finset.sum_subset hsub]
  · refine Finset.sum_congr rfl (fun j hj => ?_)
    rw [getStirlingCoefficients_getD p n j (by
      have := Finset.mem_range.mp hj
      omega)]
  · intro j hj hj'
    have h1 := Finset.mem_range.mp hj
    have h2 : ¬ j < min p n + 1 := fun h => hj' (Finset.mem_range.mpr h)
    rw [Nat.choose_eq_zero_of_lt (by omega)]
    simp

/-! ## The Bernoulli generator -/

/-- The exact division of the incremental binomial update:
`C(a, k) * (a - k) / (k + 1) = C(a, k + 1)`. -/
theorem choose_update (a k : ℕ) (hk : k ≤ a) :
    ((a.choose k : ℕ) : ℤ) * ((a : ℤ) - (k : ℤ)) / ((k : ℤ) + 1) = ((a.choose (k + 1) : ℕ) : ℤ) := by
  have h1 := Nat.choose_succ_right_eq a k
  have h3 : ((a.choose k : ℕ) : ℤ) * ((a : ℤ) - (k : ℤ))
      = ((a.choose (k + 1) : ℕ) : ℤ) * ((k : ℤ) + 1) := by
    have : ((a.choose (k + 1) * (k + 1) : ℕ) : ℤ) = ((a.choose k * (a - k) : ℕ) : ℤ) := by
      rw [h1]
    push_cast [Nat.cast_sub hk] at this
    linarith
  rw [h3, Int.mul_ediv_cancel _ (by omega)]

/-- The loop of `computeNextCoefficient`: after `K` passes `binom` is `C(m + 1, K)` and
`nextCoeff` is the partial sum over the even indices and the index `1`. -/
theorem nextCoefficient_loop (current : List ℚ) (m K : ℕ) (hK : K ≤ m + 1) :
    (List.range K).foldl (nextCoefficientStep current m) ((1 : ℤ), (0 : ℚ))
      = ((((m + 1).choose K : ℕ) : ℤ),
         ∑ k ∈ range K, if k % 2 = 0 ∨ k = 1
            then (((m + 1).choose k : ℕ) : ℚ) * current.getD k 0 else 0) := by
  refine foldl_range_inv
    (fun t s => t ≤ m + 1 → s = ((((m + 1).choose t : ℕ) : ℤ),
         ∑ k ∈ range t, if k % 2 = 0 ∨ k = 1
            then (((m + 1).choose k : ℕ) : ℚ) * current.getD k 0 else 0))
    _ _ K ?_ ?_ hK
  · intro _
    simp
  · intro t s ht hs ht'
    rw [hs (by omega)]
    simp only [nextCoefficientStep]
    have hu := choose_update (m + 1) t (by omega)
    push_cast at hu
    rw [hu, Finset.sum_range_succ]
    congr 1
    split_ifs <;> simp

theorem computeNextCoefficient_eq (current : List ℚ) (m : ℕ) :
    computeNextCoefficient current m
      = -(∑ k ∈ range m, if k % 2 = 0 ∨ k = 1
            then (((m + 1).choose k : ℕ) : ℚ) * current.getD k 0 else 0) / ((m : ℚ) + 1) := by
  simp only [computeNextCoefficient]
  rw [nextCoefficient_loop current m m (by omega)]
  simp [Nat.choose_succ_self_right]

theorem bernoulli_odd_eq_zero (k : ℕ) (hodd : k % 2 = 1) (hk : k ≠ 1) : bernoulli k = 0 := by
  rw [bernoulli_eq_bernoulli'_of_ne_one hk]
  exact bernoulli'_odd_eq_zero (Nat.odd_iff.mpr hodd) (by omega)

/-- Restricting a sum against Bernoulli numbers to the even indices and the index `1`
loses nothing. -/
theorem bernoulli_guard (k : ℕ) (c : ℚ) :
    (if k % 2 = 0 ∨ k = 1 then c * bernoulli k else 0) = c * bernoulli k := by
  split_ifs with h
  · rfl
  · rw [bernoulli_odd_eq_zero k (by omega) (by omega), mul_zero]

/-- The recurrence step: from `B(0..m-1)` the function returns `B(m)`. -/
theorem computeNextCoefficient_bernoulli (current : List ℚ) (m : ℕ) (hm : 1 ≤ m)
    (h : ∀ k, k < m → current.getD k 0 = bernoulli k) :
    computeNextCoefficient current m = bernoulli m := by
  rw [computeNextCoefficient_eq]
  have h1 : (∑ k ∈ range m, if k % 2 = 0 ∨ k = 1
        then (((m + 1).choose k : ℕ) : ℚ) * current.getD k 0 else 0)
      = ∑ k ∈ range m, (((m + 1).choose k : ℕ) : ℚ) * bernoulli k := by
    refine Finset.sum_congr rfl (fun k hk => ?_)
    rw [h k (Finset.mem_range.mp hk)]
    exact bernoulli_guard k _
  have h2 := sum_bernoulli (m + 1)
  rw [if_neg (by omega), Finset.sum_range_succ, Nat.choose_succ_self_right] at h2
  have hne : ((m : ℚ) + 1) ≠ 0 := by positivity
  rw [h1, div_eq_iff hne]
  push_cast at h2
  linarith

/-- The Bernoulli generator returns `B(0), .., B(p)`. -/
theorem getBernoulliCoefficients_spec (p : ℕ) :
    (getBernoulliCoefficients (p : ℤ)).length = p + 1 ∧
    ∀ k, k ≤ p → (getBernoulliCoefficients (p : ℤ)).getD k 0 = bernoulli k := by
  have hg : ¬ ((p : ℤ) < 0) := by omega
  simp only [getBernoulliCoefficients, hg, if_false, Int.toNat_ofNat]
  rcases Nat.eq_zero_or_pos p with hp | hp
  · subst hp
    refine ⟨by simp, fun k hk => ?_⟩
    have : k = 0 := by omega
    subst this
    simp
  · have hp' : (p : ℤ) > 0 := by omega
    simp only [hp', if_true]
    have main := foldl_range'_inv
      (fun t (s : List ℚ) => t ≤ p - 1 → (s.length = p + 1 ∧
        ∀ k, k < t + 2 → k ≤ p → s.getD k 0 = bernoulli k))
      bernoulliStep (((List.replicate (p + 1) (0 : ℚ)).set 0 1).set 1 (-1 / 2)) 2 (p - 1)
      (fun _ => ⟨by simp, fun k hk hkp => by
        rw [getD_set_eq, getD_set_eq]
        have hk' : k = 0 ∨ k = 1 := by omega
        rcases hk' with rfl | rfl
        · simp
        · simp
          omega⟩)
      (fun t s ht hs _ => by
        obtain ⟨hl, hv⟩ := hs (by omega)
        refine ⟨?_, fun k hk hkp => ?_⟩
        · simp only [bernoulliStep]
          split_ifs <;> simp [hl]
        · simp only [bernoulliStep]
          by_cases hkt : k = 2 + t
          · subst hkt
            split_ifs with hodd
            · rw [getD_set_eq, if_pos ⟨rfl, by omega⟩,
                bernoulli_odd_eq_zero _ hodd (by omega)]
            · rw [getD_set_eq, if_pos ⟨rfl, by omega⟩]
              exact computeNextCoefficient_bernoulli s (2 + t) (by omega)
                (fun j hj => hv j (by omega) (by omega))
          · split_ifs with hodd
            · rw [getD_set_eq, if_neg (fun h => hkt h.1.symm)]
              exact hv k (by omega) hkp
            · rw [getD_set_eq, if_neg (fun h => hkt h.1.symm)]
              exact hv k (by omega) hkp)
      le_rfl
    exact ⟨main.1, fun k hk => main.2 k (by omega) hk⟩

/-- The summation loop of `computeBernoulliSumWithTimeStat`, run on the coefficient list
`coeffs` of length `p + 1`: after `t` passes (indices `p, p - 1, ..`) the running binomial
is `C(p + 1, T + 1)` and the running power is `(n + 1) ^ (T + 1)`. -/
theorem bernoulli_sum_loop (coeffs : List ℚ) (p n : ℕ) :
    ((List.range (p + 1)).reverse.foldl (bernoulliSumStep coeffs ((n : ℤ) + 1))
      { sum := 0, binom := (p : ℤ) + 1, pow := (n : ℤ) + 1,
        binomN := (p : ℤ) + 1, binomR := 1 }).sum
      = ∑ s ∈ range (p + 1), if (p - s) % 2 = 0 ∨ p - s = 1
          then coeffs.getD (p - s) 0 * (((p + 1).choose (s + 1) : ℕ) : ℚ)
            * ((n : ℚ) + 1) ^ (s + 1) else 0 := by
  have main := foldl_range_reverse_inv
    (fun t (st : BernoulliSumState) => t ≤ p + 1 →
      (st.sum = ∑ s ∈ range t, (if (p - s) % 2 = 0 ∨ p - s = 1
          then coeffs.getD (p - s) 0 * (((p + 1).choose (s + 1) : ℕ) : ℚ)
            * ((n : ℚ) + 1) ^ (s + 1) else 0) ∧
       st.binom = (((p + 1).choose (t + 1) : ℕ) : ℤ) ∧
       st.pow = ((n : ℤ) + 1) ^ (t + 1) ∧
       st.binomN = (p : ℤ) + 1 - (t : ℤ) ∧
       st.binomR = (t : ℤ) + 1))
    (bernoulliSumStep coeffs ((n : ℤ) + 1))
    { sum := 0, binom := (p : ℤ) + 1, pow := (n : ℤ) + 1,
      binomN := (p : ℤ) + 1, binomR := 1 }
    (p + 1)
    (fun _ => by simp)
    (fun t st ht hs _ => by
      obtain ⟨h1, h2, h3, h4, h5⟩ := hs (by omega)
      have hidx : p + 1 - 1 - t = p - t := by omega
      rw [hidx]
      refine ⟨?_, ?_, ?_, ?_, ?_⟩
      · simp only [bernoulliSumStep]
        rw [Finset.sum_range_succ, h1, h2, h3]
        split_ifs
        · push_cast
          rfl
        · simp
      · simp only [bernoulliSumStep]
        rw [h2, h4, h5]
        have hu := choose_update (p + 1) (t + 1) (by omega)
        push_cast at hu ⊢
        rw [← hu]
        congr 1
        ring
      · simp only [bernoulliSumStep]
        rw [h3]
        ring
      · simp only [bernoulliSumStep]
        rw [h4]
        push_cast
        ring
      · simp only [bernoulliSumStep]
        rw [h5]
        push_cast
        ring)
    le_rfl
  exact main.1

/-- The Bernoulli evaluator computes the power sum. -/
theorem computeBernoulliSum_eq_sum (p n : ℕ) (r : ℤ) :
    computeBernoulliSum (p : ℤ) (n : ℤ) r = ∑ x ∈ range (n + 1), (x : ℤ) ^ p := by
  have hg : ¬ ((p : ℤ) < 0 ∨ (n : ℤ) < 0) := by omega
  obtain ⟨hlen, hval⟩ := getBernoulliCoefficients_spec p
  simp only [computeBernoulliSum, computeBernoulliSumWithTimeStat, hg, if_false, hlen]
  rw [bernoulli_sum_loop _ p n]
  have hterm : ∀ s ∈ range (p + 1),
      (if (p - s) % 2 = 0 ∨ p - s = 1
        then (getBernoulliCoefficients (p : ℤ)).getD (p - s) 0
          * (((p + 1).choose (s + 1) : ℕ) : ℚ) * ((n : ℚ) + 1) ^ (s + 1) else 0)
      = (fun i => bernoulli i * (((p + 1).choose i : ℕ) : ℚ) * ((n : ℚ) + 1) ^ (p + 1 - i))
          (p + 1 - 1 - s) := by
    intro s hs
    have hs' := Finset.mem_range.mp hs
    have e1 : p + 1 - 1 - s = p - s := by omega
    have e2 : p + 1 - (p - s) = s + 1 := by omega
    have e3 : (p + 1).choose (p - s) = (p + 1).choose (s + 1) := by
      exact Nat.choose_symm_of_eq_add (by omega)
    simp only [e1, e2, e3]
    rw [hval (p - s) (by omega)]
    split_ifs with h
    · rfl
    · rw [bernoulli_odd_eq_zero (p - s) (by omega) (by omega)]
      simp
  rw [Finset.sum_congr rfl hterm, Finset.sum_range_reflect
    (fun i => bernoulli i * (((p + 1).choose i : ℕ) : ℚ) * ((n : ℚ) + 1) ^ (p + 1 - i)) (p + 1)]
  have hF := sum_range_pow (n + 1) p
  have hne : ((p : ℚ) + 1) ≠ 0 := by positivity
  have hq : (∑ i ∈ range (p + 1),
      bernoulli i * (((p + 1).choose i : ℕ) : ℚ) * ((n : ℚ) + 1) ^ (p + 1 - i))
        / ((((p : ℤ) + 1 : ℤ)) : ℚ)
      = ((∑ x ∈ range (n + 1), (x : ℤ) ^ p : ℤ) : ℚ) := by
    push_cast at hF ⊢
    rw [hF, Finset.sum_div]
  rw [hq, Rat.num_intCast]

/-! ## The binomial utility -/

/-- The loop of `nCr`: after `T` passes (`i = 2, .., T + 1`) the state is
`(n - T, C(n, T + 1))`. -/
theorem nCr_loop (n T : ℕ) (hT : T + 1 ≤ n) :
    (List.range' 2 T).foldl nCrStep ((n : ℤ), (n : ℤ))
      = ((n : ℤ) - (T : ℤ), ((n.choose (T + 1) : ℕ) : ℤ)) := by
  refine foldl_range'_inv
    (fun t s => t + 1 ≤ n → s = ((n : ℤ) - (t : ℤ), ((n.choose (t + 1) : ℕ) : ℤ)))
    nCrStep _ 2 T ?_ ?_ hT
  · intro _
    simp
  · intro t s ht hs h
    rw [hs (by omega)]
    simp only [nCrStep]
    have hu := choose_update n (t + 1) (by omega)
    push_cast at hu ⊢
    rw [← hu]
    congr 1
    · ring
    · congr 1
      · ring
      · ring

/-- `nCr` computes the binomial coefficient. -/
theorem nCr_eq_choose (n r : ℕ) : nCr n r = ((n.choose r : ℕ) : ℤ) := by
  simp only [nCr]
  by_cases h : r > n
  · simp [h, Nat.choose_eq_zero_of_lt h]
  · rw [if_neg h]
    have hsym : n.choose (if r > n / 2 then n - r else r) = n.choose r := by
      split_ifs
      · exact Nat.choose_symm (by omega)
      · rfl
    have hle : (if r > n / 2 then n - r else r) ≤ n := by
      split_ifs <;> omega
    generalize (if r > n / 2 then n - r else r) = r' at hsym hle
    by_cases h0 : r' = 0
    · rw [if_pos h0, ← hsym, h0]
      simp
    · rw [if_neg h0, nCr_loop n _ (by omega), ← hsym]
      simp only
      congr 3
      omega

/-! ## Euler numbers of the first kind -/

theorem euler1_zero_right (i : ℕ) : euler1 i 0 = 1 := by
  cases i <;> rfl

theorem euler1_eq_zero : ∀ (i j : ℕ), i ≤ j → 1 ≤ j → euler1 i j = 0
  | 0, 0, _, h => by omega
  | 0, _ + 1, _, _ => rfl
  | _ + 1, 0, _, h => by omega
  | i + 1, j + 1, h1, _ => by
    rw [euler1, euler1_eq_zero i (j + 1) (by omega) (by omega)]
    rcases Nat.eq_or_lt_of_le (show i ≤ j by omega) with h | h
    · subst h
      ring
    · rw [euler1_eq_zero i j (by omega) (by omega)]
      ring

/-- The rows are palindromic: `E(i, a) = E(i, b)` when `a + b = i - 1`. -/
theorem euler1_symm : ∀ (i a b : ℕ), a + b + 1 = i → euler1 i a = euler1 i b
  | 0, _, _, h => by omega
  | i + 1, 0, 0, _ => rfl
  | i + 1, 0, b + 1, h => by
    have hi : i = b + 1 := by omega
    subst hi
    rw [euler1_zero_right, euler1, euler1_eq_zero (b + 1) (b + 1) le_rfl (by omega),
      ← euler1_symm (b + 1) 0 b (by omega), euler1_zero_right]
    push_cast
    ring
  | i + 1, a + 1, 0, h => by
    have hi : i = a + 1 := by omega
    subst hi
    rw [euler1_zero_right, euler1, euler1_eq_zero (a + 1) (a + 1) le_rfl (by omega),
      euler1_symm (a + 1) a 0 (by omega), euler1_zero_right]
    push_cast
    ring
  | i + 1, a + 1, b + 1, h => by
    rw [euler1, euler1, euler1_symm i (a + 1) b (by omega), euler1_symm i a (b + 1) (by omega)]
    have hi : (i : ℤ) = (a : ℤ) + (b : ℤ) + 2 := by omega
    rw [hi]
    ring

/-- `(p + 1) * C(y, p + 1) = (y - p) * C(y, p)` over the integers. -/
theorem succ_mul_choose_int (y p : ℕ) :
    ((p : ℤ) + 1) * ((y.choose (p + 1) : ℕ) : ℤ) = ((y : ℤ) - (p : ℤ)) * ((y.choose p : ℕ) : ℤ) := by
  by_cases h : p ≤ y
  · have h1 := Nat.choose_succ_right_eq y p
    have h2 : ((y.choose (p + 1) * (p + 1) : ℕ) : ℤ) = ((y.choose p * (y - p) : ℕ) : ℤ) := by
      rw [h1]
    push_cast [Nat.cast_sub h] at h2
    linarith
  · rw [Nat.choose_eq_zero_of_lt (show y < p + 1 by omega),
      Nat.choose_eq_zero_of_lt (show y < p by omega)]
    simp

/-- The step of Worpitzky's identity. -/
theorem mul_choose_shift (x j p : ℕ) :
    (x : ℤ) * (((x + j).choose p : ℕ) : ℤ)
      = ((j : ℤ) + 1) * (((x + j).choose (p + 1) : ℕ) : ℤ)
        + ((p : ℤ) - (j : ℤ)) * (((x + j + 1).choose (p + 1) : ℕ) : ℤ) := by
  have h1 := succ_mul_choose_int (x + j) p
  rw [Nat.choose_succ_succ (x + j) p]
  push_cast at h1 ⊢
  linear_combination (-1 : ℤ) * h1

/-- Worpitzky's identity. -/
theorem pow_eq_sum_euler1 (x : ℕ) : ∀ p : ℕ,
    (x : ℤ) ^ p = ∑ j ∈ range (p + 1), euler1 p j * (((x + j).choose p : ℕ) : ℤ)
  | 0 => by simp [euler1]
  | p + 1 => by
    rw [pow_succ, pow_eq_sum_euler1 x p, Finset.sum_mul]
    have h1 : ∀ j ∈ range (p + 1), euler1 p j * (((x + j).choose p : ℕ) : ℤ) * (x : ℤ)
        = ((j : ℤ) + 1) * euler1 p j * (((x + j).choose (p + 1) : ℕ) : ℤ)
          + ((p : ℤ) - (j : ℤ)) * euler1 p j * (((x + j + 1).choose (p + 1) : ℕ) : ℤ) := by
      intro j _
      have := mul_choose_shift x j p
      linear_combination euler1 p j * this
    rw [Finset.sum_congr rfl h1, Finset.sum_add_distrib]
    have h2 : ∑ j ∈ range (p + 1),
          ((j : ℤ) + 1) * euler1 p j * (((x + j).choose (p + 1) : ℕ) : ℤ)
        = ((x.choose (p + 1) : ℕ) : ℤ) + ∑ j ∈ range (p + 1),
            ((j : ℤ) + 1 + 1) * euler1 p (j + 1) * (((x + j + 1).choose (p + 1) : ℕ) : ℤ) := by
      rw [Finset.sum_range_succ', Finset.sum_range_succ _ p,
        euler1_eq_zero p (p + 1) (by omega) (by omega), euler1_zero_right]
      push_cast
      simp only [add_zero, zero_add, one_mul, mul_zero, zero_mul, add_assoc]
      ring
    rw [h2, Finset.sum_range_succ' _ (p + 1), euler1_zero_right]
    simp only [add_zero, one_mul]
    rw [add_assoc, ← Finset.sum_add_distrib, add_comm]
    congr 1
    refine Finset.sum_congr rfl (fun j _ => ?_)
    rw [euler1]
    ring_nf

/-- The hockey-stick identity along a shifted column. -/
theorem sum_range_choose_shift (j p : ℕ) (hj : j ≤ p) : ∀ n : ℕ,
    ∑ x ∈ range (n + 1), (x + j).choose p = (n + j + 1).choose (p + 1)
  | 0 => by
    simp [Nat.choose_succ_succ, Nat.choose_eq_zero_of_lt (show j < p + 1 by omega)]
  | n + 1 => by
    rw [Finset.sum_range_succ, sum_range_choose_shift j p hj n,
      Nat.choose_succ_succ (n + 1 + j) p]
    have : n + j + 1 = n + 1 + j := by omega
    rw [this]
    ring

/-- The Euler closed form of the power sum. -/
theorem sum_pow_eq_euler1 (p n : ℕ) :
    ∑ x ∈ range (n + 1), (x : ℤ) ^ p
      = ∑ j ∈ range (p + 1), euler1 p j * (((n + j + 1).choose (p + 1) : ℕ) : ℤ) := by
  simp_rw [pow_eq_sum_euler1 _ p]
  rw [Finset.sum_comm]
  refine Finset.sum_congr rfl (fun j hj => ?_)
  rw [← Finset.mul_sum, ← sum_range_choose_shift j p (by
    have := Finset.mem_range.mp hj
    omega) n]
  push_cast
  rfl

/-! ## The Euler generator -/

/-- The recurrence loop of `_getEulerCoefficients` in the row `i + 1`, run up to the index
`L`: the entries `0..L` become the new row, the later ones are untouched. -/
theorem euler_inner_loop (i N len L : ℕ) (st : List ℤ × ℤ)
    (hlen : st.1.length = len) (hL : L ≤ N) (hLl : L < len)
    (hprev : ∀ j, j ≤ N → j < len → st.1.getD j 0 = euler1 i j) :
    ((List.range (L + 1)).foldl (eulerTermStep (i + 1)) st).1.length = len ∧
    (∀ j, j ≤ L →
      ((List.range (L + 1)).foldl (eulerTermStep (i + 1)) st).1.getD j 0
        = euler1 (i + 1) j) ∧
    (∀ j, L < j →
      ((List.range (L + 1)).foldl (eulerTermStep (i + 1)) st).1.getD j 0
        = st.1.getD j 0) := by
  have main := foldl_range_inv
    (fun J (s : List ℤ × ℤ) => J ≤ L + 1 → (s.1.length = len ∧
      (∀ j, j < J → s.1.getD j 0 = euler1 (i + 1) j) ∧
      (∀ j, J ≤ j → s.1.getD j 0 = st.1.getD j 0) ∧
      (∀ J', J = J' + 1 → s.2 = st.1.getD J' 0)))
    (eulerTermStep (i + 1)) st (L + 1)
    (fun _ => ⟨hlen, fun j h => absurd h (Nat.not_lt_zero j), fun j _ => rfl,
      fun J' h => by omega⟩)
    (fun J s hJ hs _ => by
      obtain ⟨hl, hnew, hold, hcar⟩ := hs (by omega)
      rcases Nat.eq_zero_or_pos J with h0 | h0
      · subst h0
        refine ⟨?_, ?_, ?_, ?_⟩
        · simp [eulerTermStep, hl]
        · intro j hj
          have : j = 0 := by omega
          subst this
          simp only [eulerTermStep, if_true]
          rw [getD_set_eq, if_pos ⟨rfl, by omega⟩, euler1_zero_right]
        · intro j hj
          simp only [eulerTermStep, if_true]
          rw [getD_set_eq, if_neg (fun h => by omega)]
          exact hold j (by omega)
        · intro J' hJ'
          have : J' = 0 := by omega
          subst this
          simp only [eulerTermStep, if_true]
          exact hold 0 le_rfl
      · obtain ⟨J', rfl⟩ : ∃ J', J = J' + 1 := ⟨J - 1, by omega⟩
        have hne : ¬ (J' + 1 = 0) := by omega
        have hcur : s.1.getD (J' + 1) 0 = euler1 i (J' + 1) := by
          rw [hold (J' + 1) le_rfl]
          exact hprev (J' + 1) (by omega) (by omega)
        have hc : s.2 = euler1 i J' := by
          rw [hcar J' rfl]
          exact hprev J' (by omega) (by omega)
        refine ⟨?_, ?_, ?_, ?_⟩
        · simp [eulerTermStep, hl]
        · intro j hj
          simp only [eulerTermStep, if_neg hne]
          rw [getD_set_eq]
          by_cases hjj : J' + 1 = j
          · rw [if_pos ⟨hjj, by omega⟩, ← hjj, hcur, hc, euler1]
            push_cast
            ring
          · rw [if_neg (fun h => hjj h.1)]
            exact hnew j (by omega)
        · intro j hj
          simp only [eulerTermStep, if_neg hne]
          rw [getD_set_eq, if_neg (fun h => by omega)]
          exact hold j (by omega)
        · intro J'' hJ''
          have : J'' = J' + 1 := by omega
          subst this
          simp only [eulerTermStep, if_neg hne]
          exact hold (J' + 1) le_rfl)
    le_rfl
  exact ⟨main.1, fun j hj => main.2.1 j (by omega), fun j hj => main.2.2.1 j (by omega)⟩

/-- The mirrored copy of `_getEulerCoefficients`: the entry `j` with `h < j < i` receives
the entry `i - 1 - j`; nothing else changes. -/
theorem euler_mirror_loop (i h : ℕ) (odd : Bool) (c1 : List ℤ) (hlen : i ≤ c1.length)
    (hh : h < i) (hi : i ≤ 2 * h + 2)
    (hsrc : ∀ k, 1 ≤ k → h + k < i → (if odd then h - k else h + 1 - k) = i - 1 - (h + k)) :
    (eulerMirror i h odd c1).length = c1.length ∧
    (∀ j, j ≤ h → (eulerMirror i h odd c1).getD j 0 = c1.getD j 0) ∧
    (∀ j, h < j → j < i → (eulerMirror i h odd c1).getD j 0 = c1.getD (i - 1 - j) 0) ∧
    (∀ j, i ≤ j → (eulerMirror i h odd c1).getD j 0 = c1.getD j 0) := by
  have main := foldl_range'_inv
    (fun K (s : List ℤ) => K ≤ i - 1 - h → (s.length = c1.length ∧
      (∀ j, j ≤ h → s.getD j 0 = c1.getD j 0) ∧
      (∀ j, h < j → j ≤ h + K → s.getD j 0 = c1.getD (i - 1 - j) 0) ∧
      (∀ j, h + K < j → s.getD j 0 = c1.getD j 0)))
    (fun coeffs k =>
      coeffs.set (h + k) (coeffs.getD (if odd then h - k else h + 1 - k) 0))
    c1 1 (i - 1 - h)
    (fun _ => ⟨rfl, fun j _ => rfl, fun j h1 h2 => by omega, fun j _ => rfl⟩)
    (fun K s hK hs _ => by
      obtain ⟨hl, hlow, hmid, hhigh⟩ := hs (by omega)
      have hs1 := hsrc (1 + K) (by omega) (by omega)
      simp only [hs1]
      refine ⟨by simp [hl], ?_, ?_, ?_⟩
      · intro j hj
        rw [getD_set_eq, if_neg (fun h => by omega)]
        exact hlow j hj
      · intro j hj1 hj2
        rw [getD_set_eq]
        by_cases hjj : h + (1 + K) = j
        · rw [if_pos ⟨hjj, by omega⟩, ← hjj]
          exact hlow _ (by omega)
        · rw [if_neg (fun h => hjj h.1)]
          exact hmid j hj1 (by omega)
      · intro j hj
        rw [getD_set_eq, if_neg (fun h => by omega)]
        exact hhigh j (by omega))
    le_rfl
  refine ⟨main.1, main.2.1, fun j h1 h2 => main.2.2.1 j h1 (by omega),
    fun j hj => main.2.2.2 j (by omega)⟩

/-- One row of `_getEulerCoefficients` with the truncation `maxN = N`: the entries that are
within `N` of either end of the row are Euler numbers before and after the pass. -/
theorem euler_row_step (N len i : ℕ) (hi : i + 1 < len) (st : List ℤ × ℤ)
    (hlen : st.1.length = len)
    (hprev : ∀ j, j < len → (j ≤ N ∨ i ≤ j + N + 1) → st.1.getD j 0 = euler1 i j) :
    (eulerRowStep (N : ℤ) st (i + 1)).1.length = len ∧
    ∀ j, j < len → (j ≤ N ∨ i + 1 ≤ j + N + 1) →
      (eulerRowStep (N : ℤ) st (i + 1)).1.getD j 0 = euler1 (i + 1) j := by
  have hdec : decide ((i + 1) % 2 = 1) = true ↔ (i + 1) % 2 = 1 := decide_eq_true_iff
  obtain ⟨h, hh⟩ : ∃ h : ℕ,
      h = (if decide ((i + 1) % 2 = 1) = true then (i + 1) / 2 else (i + 1) / 2 - 1) :=
    ⟨_, rfl⟩
  have hodd : decide ((i + 1) % 2 = 1) = true → i + 1 = 2 * h + 1 := by
    intro hc
    have h1 := hdec.mp hc
    rw [if_pos hc] at hh
    omega
  have heven : ¬ (decide ((i + 1) % 2 = 1) = true) → i + 1 = 2 * h + 2 := by
    intro hc
    have h1 : ¬ ((i + 1) % 2 = 1) := fun h2 => hc (hdec.mpr h2)
    rw [if_neg hc] at hh
    omega
  have hh1 : 2 * h + 1 ≤ i + 1 := by
    by_cases hc : decide ((i + 1) % 2 = 1) = true
    · have := hodd hc
      omega
    · have := heven hc
      omega
  have hh2 : i + 1 ≤ 2 * h + 2 := by
    by_cases hc : decide ((i + 1) % 2 = 1) = true
    · have := hodd hc
      omega
    · have := heven hc
      omega
  obtain ⟨L, hLdef⟩ : ∃ L : ℕ, L = min h N := ⟨_, rfl⟩
  have hL : ((if (h : ℤ) > (N : ℤ) then (N : ℤ) else (h : ℤ)) + 1).toNat = L + 1 := by
    split_ifs with hc <;> omega
  simp only [eulerRowStep, ← hh, hL]
  clear hL hh
  have hLh : L ≤ h := by omega
  have hLN : L ≤ N := by omega
  have hLmin : h ≤ L ∨ N ≤ L := by omega
  clear hLdef
  obtain ⟨a1, a2, a3⟩ := euler_inner_loop i N len L st hlen hLN (by omega)
    (fun j h1 h2 => hprev j h2 (Or.inl h1))
  obtain ⟨b1, b2, b3, b4⟩ := euler_mirror_loop (i + 1) h (decide ((i + 1) % 2 = 1))
    ((List.range (L + 1)).foldl (eulerTermStep (i + 1)) st).1 (by omega) (by omega) hh2
    (fun k hk1 hk2 => by
      split_ifs with hc
      · have := hodd hc
        omega
      · have := heven hc
        omega)
  refine ⟨by simp [b1, a1], fun j hj hcase => ?_⟩
  rw [getD_set_eq]
  by_cases hji : i + 1 = j
  · rw [if_pos ⟨hji, by omega⟩, ← hji, euler1_eq_zero (i + 1) (i + 1) le_rfl (by omega)]
  · rw [if_neg (fun h => hji h.1)]
    rcases Nat.lt_or_ge j (i + 1) with hlt | hge
    · by_cases hjh : j ≤ h
      · rw [b2 j hjh]
        exact a2 j (by omega)
      · rw [b3 j (by omega) hlt, a2 (i + 1 - 1 - j) (by omega)]
        exact euler1_symm (i + 1) _ _ (by omega)
    · rw [b4 j hge, a3 j (by omega), hprev j hj (Or.inr (by omega)),
        euler1_eq_zero i j (by omega) (by omega),
        euler1_eq_zero (i + 1) j (by omega) (by omega)]

/-- The truncated Euler generator: with `maxN = N` the list has `p + 1` entries, and the
entry `j` is the Euler number `E(p, j)` whenever `j ≤ N` or `p - 1 - j ≤ N`. -/
theorem getEulerCoefficients_spec (p N : ℕ) :
    (_getEulerCoefficients (p : ℤ) (N : ℤ)).length = p + 1 ∧
    ∀ j, j ≤ p → (j ≤ N ∨ p ≤ j + N + 1) →
      (_getEulerCoefficients (p : ℤ) (N : ℤ)).getD j 0 = euler1 p j := by
  have hg : ¬ ((p : ℤ) < 0) := by omega
  simp only [_getEulerCoefficients, hg, if_false, Int.toNat_ofNat]
  have main := foldl_range'_inv
    (fun t (s : List ℤ × ℤ) => t ≤ p → (s.1.length = p + 1 ∧
      ∀ j, j < p + 1 → (j ≤ N ∨ t ≤ j + N + 1) → s.1.getD j 0 = euler1 t j))
    (eulerRowStep (N : ℤ)) ((1 : ℤ) :: List.replicate p (0 : ℤ), (0 : ℤ)) 1 p
    (fun _ => ⟨by simp, fun j hj _ => by
      cases j with
      | zero => simp [euler1]
      | succ k =>
        simp [euler1]⟩)
    (fun t s ht hs _ => by
      obtain ⟨a, b⟩ := hs (by omega)
      rw [Nat.add_comm 1 t]
      exact euler_row_step N (p + 1) t (by omega) s a b)
    le_rfl
  exact ⟨main.1, fun j hj hc => main.2 j (by omega) hc⟩

/-- The incremental update of the summation loop of `computeEulerSumWithTimeStat`:
`C(y, p + 1) * (y + 1) / (y - p) = C(y + 1, p + 1)` when `p < y`. -/
theorem choose_shift_update (y p : ℕ) (h : p < y) :
    ((y.choose (p + 1) : ℕ) : ℤ) * ((y : ℤ) + 1) / ((y : ℤ) - (p : ℤ))
      = (((y + 1).choose (p + 1) : ℕ) : ℤ) := by
  have h1 := Nat.choose_mul_succ_eq y (p + 1)
  have h2 : ((y.choose (p + 1) * (y + 1) : ℕ) : ℤ)
      = (((y + 1).choose (p + 1) * (y + 1 - (p + 1)) : ℕ) : ℤ) := by rw [h1]
  have h3 : y + 1 - (p + 1) = y - p := by omega
  rw [h3] at h2
  push_cast [Nat.cast_sub (le_of_lt h)] at h2
  rw [h2, Int.mul_ediv_cancel _ (by omega)]

/-- A value in the range of `long` is not changed by the wrap. -/
theorem wrapLong_eq (z : ℤ) (h1 : -9223372036854775808 ≤ z) (h2 : z < 9223372036854775808) :
    wrapLong z = z := by
  unfold wrapLong
  omega

/-- The wrap never increases a non-negative value. -/
theorem wrapLong_le (z : ℤ) (h : 0 ≤ z) : wrapLong z ≤ z := by
  unfold wrapLong
  omega

theorem toUnsignedLong_eq (z : ℤ) (h1 : 0 ≤ z) (h2 : z < 18446744073709551616) :
    toUnsignedLong z = z := by
  unfold toUnsignedLong
  omega

/-- While `n + j + 1` fits a `long`, a pass of the summation loop is the pass in exact
arithmetic: the guard is `n + j ≥ power`, the first contributing index calls
`nCr(n + j + 1, power + 1)` and the later ones multiply by `n + j + 1` and divide by
`n + j - power`. -/
theorem eulerSumStep_exact (coeffs : List ℤ) (p n : ℕ) (st : EulerSumState) (j : ℕ)
    (hb : n + j + 1 < 9223372036854775808) :
    eulerSumStep coeffs p n st j
      = if n + j ≥ p then
          { result := st.result + coeffs.getD j 0 *
              (if st.firstTime = true then nCr (n + j + 1) (p + 1)
               else st.temp * ((n : ℤ) + (j : ℤ) + 1) / ((n : ℤ) + (j : ℤ) - (p : ℤ))),
            temp := (if st.firstTime = true then nCr (n + j + 1) (p + 1)
               else st.temp * ((n : ℤ) + (j : ℤ) + 1) / ((n : ℤ) + (j : ℤ) - (p : ℤ))),
            firstTime := false }
        else st := by
  have w1 : wrapLong ((n : ℤ) + (j : ℤ)) = (n : ℤ) + (j : ℤ) := wrapLong_eq _ (by omega) (by omega)
  by_cases hc : n + j ≥ p
  · have hc' : (n : ℤ) + (j : ℤ) ≥ (p : ℤ) := by omega
    have w2 : wrapLong ((n : ℤ) + (j : ℤ) + 1) = (n : ℤ) + (j : ℤ) + 1 :=
      wrapLong_eq _ (by omega) (by omega)
    have w3 : wrapLong ((n : ℤ) + (j : ℤ) - (p : ℤ)) = (n : ℤ) + (j : ℤ) - (p : ℤ) :=
      wrapLong_eq _ (by omega) (by omega)
    have u2 : toUnsignedLong ((n : ℤ) + (j : ℤ) + 1) = (n : ℤ) + (j : ℤ) + 1 :=
      toUnsignedLong_eq _ (by omega) (by omega)
    have u3 : toUnsignedLong ((n : ℤ) + (j : ℤ) - (p : ℤ)) = (n : ℤ) + (j : ℤ) - (p : ℤ) :=
      toUnsignedLong_eq _ (by omega) (by omega)
    have hn : nCrLong ((n : ℤ) + (j : ℤ) + 1) ((p : ℤ) + 1) = nCr (n + j + 1) (p + 1) := by
      have e1 : ((n : ℤ) + (j : ℤ) + 1).toNat = n + j + 1 := by omega
      have e2 : ((p : ℤ) + 1).toNat = p + 1 := by omega
      rw [nCrLong, if_neg (by omega), e1, e2]
    simp only [eulerSumStep, w1, w2, w3, u2, u3, hn, if_pos hc, if_pos hc']
  · have hc' : ¬ (n : ℤ) + (j : ℤ) ≥ (p : ℤ) := by omega
    simp only [eulerSumStep, w1, if_neg hc, if_neg hc']

/-- The summation loop of `computeEulerSumWithTimeStat`, while `n + j + 1` fits a `long` for
every index met: after `J` passes `result` is the partial sum over the contributing indices;
once an index has contributed, `temp` is the binomial `C(n + J, p + 1)`. -/
theorem euler_sum_loop (coeffs : List ℤ) (p n Jmax : ℕ)
    (hb : n + Jmax < 9223372036854775808) :
    ((List.range Jmax).foldl (eulerSumStep coeffs p n)
        { result := 0, temp := 0, firstTime := true }).result
      = ∑ j ∈ range Jmax, if n + j ≥ p
          then coeffs.getD j 0 * (((n + j + 1).choose (p + 1) : ℕ) : ℤ) else 0 := by
  have main := foldl_range_inv
    (fun J (s : EulerSumState) =>
      s.result = (∑ j ∈ range J, if n + j ≥ p
          then coeffs.getD j 0 * (((n + j + 1).choose (p + 1) : ℕ) : ℤ) else 0) ∧
      (s.firstTime = true ↔ (J = 0 ∨ n + J ≤ p)) ∧
      (s.firstTime = false → s.temp = (((n + J).choose (p + 1) : ℕ) : ℤ)))
    (eulerSumStep coeffs p n) { result := 0, temp := 0, firstTime := true } Jmax
    ⟨by simp, by simp, by simp⟩
    (fun J s hJ hs => by
      obtain ⟨h1, h2, h3⟩ := hs
      rw [eulerSumStep_exact coeffs p n s J (by omega)]
      by_cases hc : n + J ≥ p
      · have htemp : (if s.firstTime = true then nCr (n + J + 1) (p + 1)
            else s.temp * ((n : ℤ) + (J : ℤ) + 1) / ((n : ℤ) + (J : ℤ) - (p : ℤ)))
            = (((n + J + 1).choose (p + 1) : ℕ) : ℤ) := by
          by_cases hf : s.firstTime = true
          · rw [if_pos hf, nCr_eq_choose]
          · rw [if_neg hf]
            have hf' : s.firstTime = false := by simpa using hf
            have hlt : p < n + J := by
              by_contra hle
              exact hf (h2.mpr (Or.inr (by omega)))
            have hu := choose_shift_update (n + J) p hlt
            push_cast at hu
            rw [h3 hf', hu]
        simp only [if_pos hc, htemp]
        refine ⟨?_, ?_, ?_⟩
        · rw [Finset.sum_range_succ, if_pos hc, h1]
        · constructor
          · intro h
            exact absurd h (by simp)
          · intro h
            omega
        · intro _
          rfl
      · simp only [if_neg hc]
        refine ⟨?_, ?_, ?_⟩
        · rw [Finset.sum_range_succ, if_neg hc, h1, add_zero]
        · constructor
          · intro _
            exact Or.inr (by omega)
          · intro _
            exact h2.mpr (Or.inr (by omega))
        · intro hf
          have : s.firstTime = true := h2.mpr (Or.inr (by omega))
          rw [this] at hf
          exact absurd hf (by simp))
  exact main.1

/-- The Euler evaluator computes the power sum while `n + p + 1` fits a `long`
(`n + p + 1 ≤ LONG_MAX`). -/
theorem computeEulerSum_eq_sum (p n : ℕ) (r : ℤ) (hb : n + p + 1 < 9223372036854775808) :
    computeEulerSum (p : ℤ) (n : ℤ) r = ∑ x ∈ range (n + 1), (x : ℤ) ^ p := by
  have hg : ¬ ((p : ℤ) < 0 ∨ (n : ℤ) < 0) := by omega
  obtain ⟨hlen, hval⟩ := getEulerCoefficients_spec p n
  simp only [computeEulerSum, computeEulerSumWithTimeStat, hg, if_false, hlen,
    Int.toNat_ofNat]
  rw [euler_sum_loop _ _ _ _ (by omega), sum_pow_eq_euler1]
  refine Finset.sum_congr rfl (fun j hj => ?_)
  have hj' := Finset.mem_range.mp hj
  split_ifs with hc
  · rw [hval j (by omega) (Or.inr (by omega))]
  · rw [Nat.choose_eq_zero_of_lt (by omega)]
    simp

/-- The Euler evaluator ignores the value `result` held before the call. -/
theorem computeEulerSum_result (power n r r' : ℤ) :
    computeEulerSum power n r = computeEulerSum power n r' := rfl

/-- A pass whose coefficient is `0` leaves a zero `result` at zero. -/
theorem eulerSumStep_result_zero (coeffs : List ℤ) (p n : ℕ) (st : EulerSumState) (j : ℕ)
    (h0 : st.result = 0) (hc : coeffs.getD j 0 = 0) :
    (eulerSumStep coeffs p n st j).result = 0 := by
  simp only [eulerSumStep]
  split_ifs
  · simp only [h0, hc, zero_mul, add_zero]
  · simp only [h0, hc, zero_mul, add_zero]
  · exact h0

/-- With `n = 0` only the index `j = p` can pass the guard of the summation loop, and its
coefficient `E(p, p)` is `0` for `p ≥ 1`: the Euler evaluator returns `0^p` for every `p`. -/
theorem computeEulerSum_zero_terms (p : ℕ) (r : ℤ) :
    computeEulerSum (p : ℤ) 0 r = if p = 0 then 1 else 0 := by
  rcases Nat.eq_zero_or_pos p with h0 | hpos
  · subst h0
    rw [computeEulerSum_result _ _ r 0]
    decide
  · rw [if_neg (by omega)]
    have hg : ¬ ((p : ℤ) < 0 ∨ (0 : ℤ) < 0) := by omega
    obtain ⟨hlen, hval⟩ := getEulerCoefficients_spec p 0
    have hlen' : (_getEulerCoefficients (p : ℤ) 0).length = p + 1 := hlen
    have hlast : (_getEulerCoefficients (p : ℤ) 0).getD p 0 = 0 := by
      have := hval p le_rfl (Or.inr (by omega))
      rw [euler1_eq_zero p p le_rfl hpos] at this
      exact this
    simp only [computeEulerSum, computeEulerSumWithTimeStat, hg, if_false, hlen',
      Int.toNat_ofNat, Int.toNat_zero]
    rw [List.range_succ, List.foldl_append]
    have hpre : (List.range p).foldl (eulerSumStep (_getEulerCoefficients (p : ℤ) 0) p 0)
        { result := 0, temp := 0, firstTime := true }
        = { result := 0, temp := 0, firstTime := true } :=
      foldl_range_inv
        (fun _ (s : EulerSumState) => s = { result := 0, temp := 0, firstTime := true })
        (eulerSumStep (_getEulerCoefficients (p : ℤ) 0) p 0)
        { result := 0, temp := 0, firstTime := true } p rfl
        (fun t s ht hs => by
          subst hs
          have hw := wrapLong_le (((0 : ℕ) : ℤ) + (t : ℤ)) (by omega)
          have hc : ¬ wrapLong (((0 : ℕ) : ℤ) + (t : ℤ)) ≥ (p : ℤ) := by omega
          simp only [eulerSumStep, if_neg hc])
    rw [hpre, List.foldl_cons, List.foldl_nil]
    exact eulerSumStep_result_zero _ p 0 _ p rfl hlast

/-! ## Central factorial numbers -/

theorem centralT_eq_zero_of_lt : ∀ (i k : ℕ), i < k → centralT i k = 0
  | 0, 0, h => absurd h (lt_irrefl 0)
  | 0, _ + 1, _ => rfl
  | _ + 1, 0, h => by omega
  | i + 1, k + 1, h => by
    rw [centralT, centralT_eq_zero_of_lt i (k + 1) (by omega),
      centralT_eq_zero_of_lt i k (by omega)]
    ring

theorem centralT_self : ∀ i : ℕ, centralT i i = 1
  | 0 => rfl
  | i + 1 => by
    rw [centralT, centralT_eq_zero_of_lt i (i + 1) (by omega), centralT_self i]
    ring

theorem centralT_succ_zero (i : ℕ) : centralT (i + 1) 0 = 0 := rfl

theorem centralPow_succ (x : ℤ) (k : ℕ) :
    centralPow x (k + 1) = centralPow x k * (x ^ 2 - (k : ℤ) ^ 2) := by
  simp only [centralPow, Finset.prod_range_succ]

theorem centralPow_succ_eq (x : ℤ) (k : ℕ) : centralPow x (k + 1) = x * centralOdd x k := by
  simp only [centralPow, centralOdd, Finset.prod_range_succ']
  push_cast
  ring

theorem centralOdd_succ (x : ℤ) (k : ℕ) :
    centralOdd x (k + 1) = centralOdd x k * (x ^ 2 - ((k : ℤ) + 1) ^ 2) := by
  simp only [centralOdd, Finset.prod_range_succ]
  ring

theorem centralProd_succ (n : ℤ) (k : ℕ) :
    centralProd n (k + 1)
      = centralProd n k * ((n + ((k : ℤ) + 1)) * (n - ((k : ℤ) + 1) + 1)) := by
  simp only [centralProd, Finset.prod_range_succ]

/-- Even powers in the central-factorial basis. -/
theorem pow_eq_sum_centralT (x : ℤ) : ∀ m : ℕ,
    x ^ (2 * m) = ∑ k ∈ range (m + 1), centralT m k * centralPow x k
  | 0 => by simp [centralT, centralPow]
  | m + 1 => by
    have hx : x ^ (2 * (m + 1)) = x ^ (2 * m) * x ^ 2 := by ring
    rw [hx, pow_eq_sum_centralT x m, Finset.sum_mul]
    have h1 : ∀ k ∈ range (m + 1), centralT m k * centralPow x k * x ^ 2
        = centralT m k * centralPow x (k + 1)
          + (k : ℤ) * (k : ℤ) * centralT m k * centralPow x k := by
      intro k _
      rw [centralPow_succ]
      ring
    rw [Finset.sum_congr rfl h1, Finset.sum_add_distrib]
    have h2 : ∑ k ∈ range (m + 1), (k : ℤ) * (k : ℤ) * centralT m k * centralPow x k
        = ∑ k ∈ range (m + 1),
            ((k : ℤ) + 1) * ((k : ℤ) + 1) * centralT m (k + 1) * centralPow x (k + 1) := by
      rw [Finset.sum_range_succ', Finset.sum_range_succ _ m,
        centralT_eq_zero_of_lt m (m + 1) (by omega)]
      simp
    rw [h2, Finset.sum_range_succ' _ (m + 1), ← Finset.sum_add_distrib]
    simp only [centralT_succ_zero, zero_mul, add_zero]
    refine Finset.sum_congr rfl (fun k _ => ?_)
    rw [centralT]
    ring

/-- The two neighbours of the odd central factorial: `centralProd x (k + 1)` and
`centralProd (x - 1) (k + 1)`. -/
theorem centralProd_eq (x : ℤ) : ∀ k : ℕ,
    centralProd x (k + 1) = centralOdd x k * (x + (k : ℤ) + 1) ∧
    centralProd (x - 1) (k + 1) = centralOdd x k * (x - (k : ℤ) - 1)
  | 0 => by
    simp only [centralProd, centralOdd, Finset.prod_range_succ, Finset.prod_range_zero]
    push_cast
    constructor <;> ring
  | k + 1 => by
    obtain ⟨h1, h2⟩ := centralProd_eq x k
    rw [centralProd_succ x (k + 1), centralProd_succ (x - 1) (k + 1), h1, h2, centralOdd_succ]
    push_cast
    constructor <;> ring

theorem centralProd_zero_left (k : ℕ) : centralProd 0 (k + 1) = 0 := by
  rw [(centralProd_eq 0 k).1]
  simp [centralOdd]

theorem centralProd_eq_zero (n k : ℕ) (h : n < k) : centralProd (n : ℤ) k = 0 := by
  refine Finset.prod_eq_zero (Finset.mem_range.mpr h) ?_
  ring

/-- Summation of the odd central factorials. -/
theorem sum_centralOdd (k : ℕ) : ∀ n : ℕ,
    2 * ((k : ℤ) + 1) * ∑ x ∈ range (n + 1), centralOdd (x : ℤ) k = centralProd (n : ℤ) (k + 1)
  | 0 => by
    simp [centralProd_zero_left, centralOdd]
  | n + 1 => by
    have ih := sum_centralOdd k n
    obtain ⟨h1, h2⟩ := centralProd_eq ((n : ℤ) + 1) k
    rw [add_sub_cancel_right] at h2
    rw [Finset.sum_range_succ, mul_add, ih]
    push_cast
    rw [h1, h2]
    ring

/-- Summation of `x` times the odd central factorials. -/
theorem sum_mul_centralOdd (k : ℕ) : ∀ n : ℕ,
    2 * (2 * ((k : ℤ) + 1) + 1) * ∑ x ∈ range (n + 1), (x : ℤ) * centralOdd (x : ℤ) k
      = (2 * (n : ℤ) + 1) * centralProd (n : ℤ) (k + 1)
  | 0 => by
    simp [centralProd_zero_left]
  | n + 1 => by
    have ih := sum_mul_centralOdd k n
    obtain ⟨h1, h2⟩ := centralProd_eq ((n : ℤ) + 1) k
    rw [add_sub_cancel_right] at h2
    rw [Finset.sum_range_succ, mul_add, ih]
    push_cast
    rw [h1, h2]
    ring

/-- Even powers, for `m ≥ 1`, as `x` times odd central factorials. -/
theorem pow_even_eq (x : ℤ) (m : ℕ) :
    x ^ (2 * (m + 1)) = ∑ k ∈ range (m + 1), centralT (m + 1) (k + 1) * (x * centralOdd x k) := by
  rw [pow_eq_sum_centralT x (m + 1), Finset.sum_range_succ', centralT_succ_zero]
  simp only [zero_mul, add_zero, centralPow_succ_eq]

/-- Odd powers as odd central factorials. -/
theorem pow_odd_eq (x : ℤ) (m : ℕ) :
    x ^ (2 * m + 1) = ∑ k ∈ range (m + 1), centralT (m + 1) (k + 1) * centralOdd x k := by
  by_cases hx : x = 0
  · subst hx
    simp [centralOdd]
  · have h := pow_even_eq x m
    have h2 : x ^ (2 * (m + 1)) = x * x ^ (2 * m + 1) := by ring
    rw [h2] at h
    have h3 : ∑ k ∈ range (m + 1), centralT (m + 1) (k + 1) * (x * centralOdd x k)
        = x * ∑ k ∈ range (m + 1), centralT (m + 1) (k + 1) * centralOdd x k := by
      rw [Finset.mul_sum]
      exact Finset.sum_congr rfl (fun k _ => by ring)
    rw [h3] at h
    exact mul_left_cancel₀ hx h

/-! ## The Central-Factorial generator -/

/-- The inner loop of `_getCentralFactorialCoefficients` in the row `0`. -/
theorem central_row_zero (size : ℕ) (st : List ℤ × ℤ) (hlen : st.1.length = size) :
    ((List.range size).foldl (centralTermStep 0) st).1.length = size ∧
    (0 < size → ((List.range size).foldl (centralTermStep 0) st).1.getD 0 0 = 1) := by
  have main := foldl_range_inv
    (fun K (s : List ℤ × ℤ) => K ≤ size → (s.1.length = size ∧ (0 < K → s.1.getD 0 0 = 1)))
    (centralTermStep 0) st size
    (fun _ => ⟨hlen, fun h => absurd h (lt_irrefl 0)⟩)
    (fun K s hK hs _ => by
      obtain ⟨hl, hv⟩ := hs (by omega)
      rcases Nat.eq_zero_or_pos K with h0 | h0
      · subst h0
        refine ⟨by simp [centralTermStep, hl], fun _ => ?_⟩
        simp only [centralTermStep, if_true]
        rw [getD_set_eq, if_pos ⟨rfl, by omega⟩]
      · have hne : ¬ (0 = K) := by omega
        have hne2 : ¬ (0 > 0 ∧ K > 0) := by omega
        refine ⟨by simp [centralTermStep, hne, hl], fun _ => ?_⟩
        simp only [centralTermStep, if_neg hne, if_neg hne2]
        rw [getD_set_eq, if_neg (fun h => by omega)]
        exact hv h0)
    le_rfl
  exact main

/-- The inner loop of `_getCentralFactorialCoefficients` in the row `i + 1`: the entries up
to the diagonal become `T(2i + 2, 2k)`. The entries beyond the diagonal are not claimed. -/
theorem central_inner_loop (i size : ℕ) (st : List ℤ × ℤ) (hlen : st.1.length = size)
    (hcar : st.2 = st.1.getD 0 0)
    (hprev : ∀ k, k < size → k ≤ i → st.1.getD k 0 = centralT i k) :
    ((List.range size).foldl (centralTermStep (i + 1)) st).1.length = size ∧
    ∀ k, k < size → k ≤ i + 1 →
      ((List.range size).foldl (centralTermStep (i + 1)) st).1.getD k 0
        = centralT (i + 1) k := by
  have main := foldl_range_inv
    (fun K (s : List ℤ × ℤ) => K ≤ size → (s.1.length = size ∧
      (∀ k, k < K → k ≤ i + 1 → s.1.getD k 0 = centralT (i + 1) k) ∧
      (∀ k, K ≤ k → s.1.getD k 0 = st.1.getD k 0) ∧
      (K ≤ i + 1 → s.2 = st.1.getD (K - 1) 0)))
    (centralTermStep (i + 1)) st size
    (fun _ => ⟨hlen, fun k h => absurd h (Nat.not_lt_zero k), fun k _ => rfl, fun _ => hcar⟩)
    (fun K s hK hs _ => by
      obtain ⟨hl, hnew, hold, hc⟩ := hs (by omega)
      by_cases hd : i + 1 = K
      · -- the diagonal entry
        simp only [centralTermStep, if_pos hd]
        refine ⟨by simp [hl], ?_, ?_, fun h => by omega⟩
        · intro k hk1 hk2
          rw [getD_set_eq]
          by_cases hkk : K = k
          · rw [if_pos ⟨hkk, by omega⟩, ← hkk, ← hd, centralT_self]
          · rw [if_neg (fun h => hkk h.1)]
            exact hnew k (by omega) hk2
        · intro k hk
          rw [getD_set_eq, if_neg (fun h => by omega)]
          exact hold k (by omega)
      · rcases Nat.eq_zero_or_pos K with h0 | h0
        · subst h0
          have hne2 : ¬ (i + 1 > 0 ∧ 0 > 0) := by omega
          simp only [centralTermStep, if_neg hd, if_neg hne2]
          refine ⟨by simp [hl], ?_, ?_, fun _ => ?_⟩
          · intro k hk1 hk2
            have : k = 0 := by omega
            subst this
            rw [getD_set_eq, if_pos ⟨rfl, by omega⟩, centralT_succ_zero]
          · intro k hk
            rw [getD_set_eq, if_neg (fun h => by omega)]
            exact hold k (by omega)
          · exact hc (by omega)
        · have hpos : i + 1 > 0 ∧ K > 0 := ⟨by omega, h0⟩
          simp only [centralTermStep, if_neg hd, if_pos hpos]
          refine ⟨by simp [hl], ?_, ?_, fun hK1 => ?_⟩
          · intro k hk1 hk2
            rw [getD_set_eq]
            by_cases hkk : K = k
            · obtain ⟨K', rfl⟩ : ∃ K', K = K' + 1 := ⟨K - 1, by omega⟩
              rw [if_pos ⟨hkk, by omega⟩, ← hkk, hold (K' + 1) le_rfl, hc (by omega),
                hprev (K' + 1) (by omega) (by omega), centralT]
              have : K' + 1 - 1 = K' := by omega
              rw [this, hprev K' (by omega) (by omega)]
              push_cast
              ring
            · rw [if_neg (fun h => hkk h.1)]
              exact hnew k (by omega) hk2
          · intro k hk
            rw [getD_set_eq, if_neg (fun h => by omega)]
            exact hold k (by omega)
          · have : K + 1 - 1 = K := by omega
            rw [this]
            exact hold K le_rfl)
    le_rfl
  exact ⟨main.1, fun k hk1 hk2 => main.2.1 k hk1 hk2⟩

/-- The truncated Central-Factorial generator: with `m = ceil(p / 2)` and `maxN = N` the
list has `min m N + 1` entries and the entry `k` is `T(2m, 2k)`. -/
theorem getCentralFactorialCoefficients_spec (p N : ℕ) :
    (_getCentralFactorialCoefficients (p : ℤ) (N : ℤ)).length = min (p / 2 + p % 2) N + 1 ∧
    ∀ k, k ≤ min (p / 2 + p % 2) N →
      (_getCentralFactorialCoefficients (p : ℤ) (N : ℤ)).getD k 0
        = centralT (p / 2 + p % 2) k := by
  have hg : ¬ ((p : ℤ) < 0) := by omega
  obtain ⟨m, hm⟩ : ∃ m, m = p / 2 + p % 2 := ⟨_, rfl⟩
  obtain ⟨size, hsize⟩ : ∃ size, size = min m N + 1 := ⟨_, rfl⟩
  have hsz : (if (N : ℤ) < ((m : ℕ) : ℤ) + 1 then (N : ℤ) + 1 else ((m : ℕ) : ℤ) + 1).toNat
      = size := by
    split_ifs with hc <;> omega
  simp only [_getCentralFactorialCoefficients, hg, if_false, Int.toNat_ofNat, ← hm, hsz]
  have main := foldl_range_inv
    (fun t (s : List ℤ × ℤ) => t ≤ m + 1 → (s.1.length = size ∧
      ∀ i, t = i + 1 → (s.2 = s.1.getD 0 0 ∧
        ∀ k, k < size → k ≤ i → s.1.getD k 0 = centralT i k)))
    (centralRowStep size) (List.replicate size (0 : ℤ), (0 : ℤ)) (m + 1)
    (fun _ => ⟨by simp, fun i h => by omega⟩)
    (fun t s ht hs _ => by
      obtain ⟨hl, hv⟩ := hs (by omega)
      rcases Nat.eq_zero_or_pos t with h0 | h0
      · subst h0
        obtain ⟨a, b⟩ := central_row_zero size s hl
        refine ⟨by simpa [centralRowStep] using a, fun i hi => ⟨rfl, fun k hk1 hk2 => ?_⟩⟩
        have hi0 : i = 0 := by omega
        have hk0 : k = 0 := by omega
        subst hi0 hk0
        simp only [centralRowStep]
        rw [b hk1]
        rfl
      · obtain ⟨i, rfl⟩ : ∃ i, t = i + 1 := ⟨t - 1, by omega⟩
        obtain ⟨hc, hp⟩ := hv i rfl
        obtain ⟨a, b⟩ := central_inner_loop i size s hl hc hp
        refine ⟨by simpa [centralRowStep] using a, fun i' hi' => ⟨rfl, fun k hk1 hk2 => ?_⟩⟩
        have : i' = i + 1 := by omega
        subst this
        simp only [centralRowStep]
        exact b k hk1 hk2)
    le_rfl
  obtain ⟨a, b⟩ := main
  refine ⟨by rw [a, hsize], fun k hk => ?_⟩
  exact (b m rfl).2 k (by omega) (by omega)

/-- The summation loop of `computeCentralFactorialSumWithTimeStat`: after `T` passes the
running `fallingFactorial` is `centralProd n T`, and every term has been divided exactly. -/
theorem central_sum_loop (coeffs : List ℤ) (evenPower : Bool) (n T : ℕ) :
    (List.range' 1 T).foldl (centralSumStep coeffs evenPower (n : ℤ)) ((0 : ℤ), (1 : ℤ))
      = (∑ k ∈ range T, coeffs.getD (k + 1) 0 *
            (if evenPower then ∑ x ∈ range (n + 1), (x : ℤ) * centralOdd (x : ℤ) k
             else ∑ x ∈ range (n + 1), centralOdd (x : ℤ) k),
         centralProd (n : ℤ) T) := by
  refine foldl_range'_inv
    (fun t s => s = (∑ k ∈ range t, coeffs.getD (k + 1) 0 *
            (if evenPower then ∑ x ∈ range (n + 1), (x : ℤ) * centralOdd (x : ℤ) k
             else ∑ x ∈ range (n + 1), centralOdd (x : ℤ) k),
         centralProd (n : ℤ) t))
    _ _ 1 T ?_ ?_
  · simp [centralProd]
  · intro t s _ hs
    rw [hs]
    have hff : centralProd (n : ℤ) t * ((n : ℤ) + ((1 + t : ℕ) : ℤ))
        * ((n : ℤ) - ((1 + t : ℕ) : ℤ) + 1) = centralProd (n : ℤ) (t + 1) := by
      rw [centralProd_succ]
      push_cast
      ring
    simp only [centralSumStep, hff]
    rw [Finset.sum_range_succ, Nat.add_comm 1 t]
    congr 1
    congr 1
    cases evenPower with
    | true =>
      simp only [if_true]
      have h := sum_mul_centralOdd t n
      have hne : (2 * (2 * (((t + 1 : ℕ) : ℤ)) + 1)) ≠ 0 := by omega
      have : coeffs.getD (t + 1) 0 * centralProd (n : ℤ) (t + 1) * (2 * (n : ℤ) + 1)
          = (2 * (2 * (((t + 1 : ℕ) : ℤ)) + 1))
            * (coeffs.getD (t + 1) 0 * ∑ x ∈ range (n + 1), (x : ℤ) * centralOdd (x : ℤ) t) := by
        push_cast
        linear_combination (-(coeffs.getD (t + 1) 0)) * h
      rw [this, Int.mul_ediv_cancel_left _ hne]
    | false =>
      simp only [Bool.false_eq_true, if_false]
      have h := sum_centralOdd t n
      have hne : (2 * (((t + 1 : ℕ) : ℤ))) ≠ 0 := by omega
      have : coeffs.getD (t + 1) 0 * centralProd (n : ℤ) (t + 1)
          = (2 * (((t + 1 : ℕ) : ℤ)))
            * (coeffs.getD (t + 1) 0 * ∑ x ∈ range (n + 1), centralOdd (x : ℤ) t) := by
        push_cast
        linear_combination (-(coeffs.getD (t + 1) 0)) * h
      rw [this, Int.mul_ediv_cancel_left _ hne]

/-- Beyond `n` the summed central factorials vanish, so the truncation to
`min(ceil(p / 2), n) + 1` coefficients loses nothing. -/
theorem sum_centralOdd_eq_zero (n k : ℕ) (h : n ≤ k) :
    ∑ x ∈ range (n + 1), centralOdd (x : ℤ) k = 0 ∧
    ∑ x ∈ range (n + 1), (x : ℤ) * centralOdd (x : ℤ) k = 0 := by
  have h1 := sum_centralOdd k n
  have h2 := sum_mul_centralOdd k n
  rw [centralProd_eq_zero n (k + 1) (by omega)] at h1 h2
  constructor
  · rcases mul_eq_zero.mp h1 with h | h
    · omega
    · exact h
  · rw [mul_zero] at h2
    rcases mul_eq_zero.mp h2 with h | h
    · omega
    · exact h

/-- The Central-Factorial evaluator computes the power sum. -/
theorem computeCentralFactorialSum_eq_sum (p n : ℕ) (r : ℤ) :
    computeCentralFactorialSum (p : ℤ) (n : ℤ) r = ∑ x ∈ range (n + 1), (x : ℤ) ^ p := by
  have hg : ¬ ((p : ℤ) < 0 ∨ (n : ℤ) < 0) := by omega
  obtain ⟨hlen, hval⟩ := getCentralFactorialCoefficients_spec p n
  simp only [computeCentralFactorialSum, computeCentralFactorialSumWithTimeStat, hg, if_false,
    hlen]
  rcases Nat.eq_zero_or_pos p with hp | hp
  · subst hp
    simp
  · have hp' : (p : ℤ) > 0 := by omega
    simp only [hp', if_true, Nat.add_sub_cancel]
    rw [central_sum_loop]
    simp only
    obtain ⟨m, hm⟩ : ∃ m, m + 1 = p / 2 + p % 2 := ⟨p / 2 + p % 2 - 1, by omega⟩
    rw [← hm] at hval ⊢
    have hsub : range (min (m + 1) n) ⊆ range (m + 1) :=
      Finset.range_subset.mpr (by omega)
    rcases Nat.mod_two_eq_zero_or_one p with hpar | hpar
    · -- even power
      have hpe : p = 2 * (m + 1) := by omega
      have hdec : decide ((p : ℤ) % 2 = 0) = true := by
        rw [decide_eq_true_iff]
        omega
      simp only [hdec, if_true]
      subst hpe
      simp_rw [pow_even_eq _ m]
      rw [Finset.sum_comm, ← Finset.sum_subset hsub]
      · refine Finset.sum_congr rfl (fun k hk => ?_)
        have hk' := Finset.mem_range.mp hk
        rw [hval (k + 1) (by omega), Finset.mul_sum]
      · intro k hk hk'
        have hk1 := Finset.mem_range.mp hk
        have hk2 : ¬ k < min (m + 1) n := fun h => hk' (Finset.mem_range.mpr h)
        rw [← Finset.mul_sum, (sum_centralOdd_eq_zero n k (by omega)).2, mul_zero]
    · -- odd power
      have hpo : p = 2 * m + 1 := by omega
      have hdec : decide ((p : ℤ) % 2 = 0) = false := by
        rw [decide_eq_false_iff_not]
        omega
      simp only [hdec, Bool.false_eq_true, if_false]
      subst hpo
      simp_rw [pow_odd_eq _ m]
      rw [Finset.sum_comm, ← Finset.sum_subset hsub]
      · refine Finset.sum_congr rfl (fun k hk => ?_)
        have hk' := Finset.mem_range.mp hk
        rw [hval (k + 1) (by omega), Finset.mul_sum]
      · intro k hk hk'
        have hk1 := Finset.mem_range.mp hk
        have hk2 : ¬ k < min (m + 1) n := fun h => hk' (Finset.mem_range.mpr h)
        rw [← Finset.mul_sum, (sum_centralOdd_eq_zero n k (by omega)).1, mul_zero]

/-! ## The power 0 and the term count 0 -/

theorem sum_pow_zero (n : ℕ) : ∑ x ∈ range (n + 1), (x : ℤ) ^ 0 = (n : ℤ) + 1 := by
  simp

theorem sum_range_one_pow (p : ℕ) :
    ∑ x ∈ range (0 + 1), (x : ℤ) ^ p = if p = 0 then 1 else 0 := by
  by_cases h : p = 0
  · simp [h]
  · simp [h]

/-- The Faulhaber evaluator on the power `0`: the special case `n + 1`. -/
theorem computeFaulhaberSum_zero_left (n : ℕ) (r : ℤ) :
    computeFaulhaberSum 0 (n : ℤ) r = (n : ℤ) + 1 := by
  have hg : ¬ ((0 : ℤ) < 0 ∨ (n : ℤ) < 0) := by omega
  simp [computeFaulhaberSum, computeFaulhaberSumWithTimeStat, hg]

/-- The Faulhaber evaluator on the term count `0`: for a positive power the summation is
skipped (`n > 0` fails) and `result` keeps the `0` it was set to. -/
theorem computeFaulhaberSum_zero_right (p : ℕ) (r : ℤ) :
    computeFaulhaberSum (p : ℤ) 0 r = if p = 0 then 1 else 0 := by
  have hg : ¬ ((p : ℤ) < 0 ∨ (0 : ℤ) < 0) := by omega
  by_cases h : p = 0
  · subst h
    simp [computeFaulhaberSum, computeFaulhaberSumWithTimeStat]
  · have hp : (p : ℤ) > 0 := by omega
    simp [computeFaulhaberSum, computeFaulhaberSumWithTimeStat, hg, hp, h]

/-- The evaluators overwrite `result` before they read it: the value it held before the
call does not matter on the non-negative domain (and for four of them, anywhere). -/
theorem computeFaulhaberSum_result (power n r r' : ℤ) :
    computeFaulhaberSum power n r = computeFaulhaberSum power n r' := rfl

theorem computeSumUsingSeries_result (power n r r' : ℤ) :
    computeSumUsingSeries power n r = computeSumUsingSeries power n r' := rfl

/-! ## The Faulhaber evaluator on small inputs -/

/-- For the power `1` the elimination yields the single coefficient `1`, the coefficient
of `N^1` in `S(1, n) = N / 2`. -/
theorem getFaulhaberCoefficients_one : getFaulhaberCoefficients 1 = [1] := by decide!

/-- On the power `1` the Faulhaber evaluator returns `N^2 / 2` with `N = n (n + 1)`. -/
theorem computeFaulhaberSum_one (n : ℕ) (hn : 0 < n) (r : ℤ) :
    computeFaulhaberSum 1 (n : ℤ) r = ((n : ℤ) * ((n : ℤ) + 1)) * ((n : ℤ) * ((n : ℤ) + 1)) / 2 := by
  have hg : ¬ ((1 : ℤ) < 0 ∨ (n : ℤ) < 0) := by omega
  have hn' : (n : ℤ) > 0 := by omega
  simp only [computeFaulhaberSum, computeFaulhaberSumWithTimeStat, hg, if_false,
    getFaulhaberCoefficients_one, hn', if_true]
  have hr : (List.range ([1] : List ℚ).length).reverse = [0] := by decide
  have h1 : ((1 : ℤ) % 2 = 1) := by decide
  have h2 : ¬ ((1 : ℤ) % 2 = 0) := by decide
  rw [hr]
  simp only [List.foldl_cons, List.foldl_nil, faulhaberSumStep, h1, h2, if_true, if_false,
    List.getD_cons_zero, mul_one, zero_add, Rat.num_intCast, gt_iff_lt, zero_lt_one,
    one_ne_zero]

/-- Apart from the power `1`, the Faulhaber evaluator agrees with the reference series on
every `p, n ≤ 12`. -/
theorem faulhaber_small_powers :
    ∀ p ∈ List.range 13, p ≠ 1 → ∀ n ∈ List.range 13,
      computeFaulhaberSum (p : ℤ) (n : ℤ) 0 = computeSumUsingSeries (p : ℤ) (n : ℤ) 0 := by
  decide!

/-! ## The claims -/

/-- C1 (refuted on the code): `computeFaulhaberSum(1, 1)` returns `2`, while the reference
series `computeSumUsingSeries(1, 1)` is `0^1 + 1^1 = 1`. For the power `1` the single
coefficient `1` belongs to `N^1`, but the summation starts at `N^2` for every odd power. -/
theorem C1_faulhaber_power_one (r r' : ℤ) :
    getFaulhaberCoefficients 1 = [1] ∧
    computeFaulhaberSum 1 1 r = 2 ∧
    computeSumUsingSeries 1 1 r' = 1 ∧
    computeFaulhaberSum 1 1 r ≠ computeSumUsingSeries 1 1 r' := by
  rw [computeFaulhaberSum_result 1 1 r 0, computeSumUsingSeries_result 1 1 r' 0]
  refine ⟨by decide!, by decide!, by decide!, by decide!⟩

/-- C2: for all `p, n ≥ 0` the Bernoulli evaluator returns the reference series sum, which
is `0^p + 1^p + .. + n^p`. -/
theorem C2_bernoulli_eq_series (power n : ℤ) (hp : 0 ≤ power) (hn : 0 ≤ n) (r r' : ℤ) :
    computeBernoulliSum power n r = computeSumUsingSeries power n r' ∧
    computeBernoulliSum power n r = ∑ k ∈ range (n.toNat + 1), (k : ℤ) ^ power.toNat := by
  lift power to ℕ using hp
  lift n to ℕ using hn
  rw [computeBernoulliSum_eq_sum, computeSumUsingSeries_eq_sum]
  simp

/-- C2 at `p = 2`, `n = 3`. -/
theorem C2_bernoulli_eq_series_witness :
    (0 : ℤ) ≤ 2 ∧ (0 : ℤ) ≤ 3 ∧
    computeBernoulliSum 2 3 0 = computeSumUsingSeries 2 3 0 ∧
    computeBernoulliSum 2 3 0 = ∑ k ∈ range ((3 : ℤ).toNat + 1), (k : ℤ) ^ (2 : ℤ).toNat :=
  ⟨by decide, by decide, C2_bernoulli_eq_series 2 3 (by decide) (by decide) 0 0⟩

/-- C3: for all `p, n ≥ 0` the Stirling evaluator, which generates its coefficients
truncated to `n + 1` terms, returns the reference series sum `0^p + 1^p + .. + n^p`. -/
theorem C3_stirling_eq_series (power n : ℤ) (hp : 0 ≤ power) (hn : 0 ≤ n) (r r' : ℤ) :
    computeStirlingSum power n r = computeSumUsingSeries power n r' ∧
    computeStirlingSum power n r = ∑ k ∈ range (n.toNat + 1), (k : ℤ) ^ power.toNat := by
  lift power to ℕ using hp
  lift n to ℕ using hn
  rw [computeStirlingSum_eq_sum, computeSumUsingSeries_eq_sum]
  simp

/-- C3 at `p = 5`, `n = 2`, where the truncation is active. -/
theorem C3_stirling_eq_series_witness :
    (0 : ℤ) ≤ 5 ∧ (0 : ℤ) ≤ 2 ∧
    computeStirlingSum 5 2 0 = computeSumUsingSeries 5 2 0 ∧
    computeStirlingSum 5 2 0 = ∑ k ∈ range ((2 : ℤ).toNat + 1), (k : ℤ) ^ (5 : ℤ).toNat :=
  ⟨by decide, by decide, C3_stirling_eq_series 5 2 (by decide) (by decide) 0 0⟩

/-- Gauss' sum, in the form the reference series takes for the power `1`. -/
theorem two_mul_sum_range_pow_one : ∀ n : ℕ,
    2 * ∑ x ∈ range (n + 1), (x : ℤ) ^ 1 = (n : ℤ) * ((n : ℤ) + 1)
  | 0 => by simp
  | n + 1 => by
    rw [Finset.sum_range_succ, mul_add, two_mul_sum_range_pow_one n]
    push_cast
    ring

/-- C4 (refuted on the code): `computeEulerSum(1, LONG_MAX)` returns `0`, while the reference
series `computeSumUsingSeries(1, LONG_MAX)` and the Stirling evaluator give
`1 + 2 + .. + LONG_MAX = 2^62 (2^63 - 1)`. The summation loop computes `n + j + 1` and
`n + j` as signed 64-bit `long`: at `j = 0` the argument `n + 1` of `nCr` wraps to
`LONG_MIN`, so `nCr` returns `0`; at `j = 1` the guard `n + j >= power` sees a negative sum
and drops the term. -/
theorem C4_euler_overflow (r r' : ℤ) :
    computeEulerSum 1 9223372036854775807 r = 0 ∧
    computeSumUsingSeries 1 9223372036854775807 r'
      = 42535295865117307928310139910543638528 ∧
    computeStirlingSum 1 9223372036854775807 r
      = 42535295865117307928310139910543638528 ∧
    computeEulerSum 1 9223372036854775807 r
      ≠ computeSumUsingSeries 1 9223372036854775807 r' := by
  have he : computeEulerSum 1 9223372036854775807 r = 0 := by
    rw [computeEulerSum_result _ _ r 0]
    decide
  have hs := computeSumUsingSeries_eq_sum 1 9223372036854775807 r'
  have ht := computeStirlingSum_eq_sum 1 9223372036854775807 r
  have hg := two_mul_sum_range_pow_one 9223372036854775807
  generalize (∑ x ∈ range (9223372036854775807 + 1), (x : ℤ) ^ 1) = S at hs ht hg
  have hv : S = 42535295865117307928310139910543638528 := by
    push_cast at hg
    omega
  rw [hv] at hs ht
  have hs2 : computeSumUsingSeries 1 9223372036854775807 r'
      = 42535295865117307928310139910543638528 := by exact_mod_cast hs
  have ht2 : computeStirlingSum 1 9223372036854775807 r
      = 42535295865117307928310139910543638528 := by exact_mod_cast ht
  refine ⟨he, hs2, ht2, ?_⟩
  rw [he, hs2]
  decide

/-- C5: for all `p, n ≥ 0` the Central-Factorial evaluator, which generates its
coefficients with the truncation `maxN = n`, returns the reference series sum
`0^p + 1^p + .. + n^p`. -/
theorem C5_central_eq_series (power n : ℤ) (hp : 0 ≤ power) (hn : 0 ≤ n) (r r' : ℤ) :
    computeCentralFactorialSum power n r = computeSumUsingSeries power n r' ∧
    computeCentralFactorialSum power n r
      = ∑ k ∈ range (n.toNat + 1), (k : ℤ) ^ power.toNat := by
  lift power to ℕ using hp
  lift n to ℕ using hn
  rw [computeCentralFactorialSum_eq_sum, computeSumUsingSeries_eq_sum]
  simp

/-- C5 at `p = 6`, `n = 2`, where the truncation is active. -/
theorem C5_central_eq_series_witness :
    (0 : ℤ) ≤ 6 ∧ (0 : ℤ) ≤ 2 ∧
    computeCentralFactorialSum 6 2 0 = computeSumUsingSeries 6 2 0 ∧
    computeCentralFactorialSum 6 2 0
      = ∑ k ∈ range ((2 : ℤ).toNat + 1), (k : ℤ) ^ (6 : ℤ).toNat :=
  ⟨by decide, by decide, C5_central_eq_series 6 2 (by decide) (by decide) 0 0⟩

/-- The four evaluators proved correct agree with the reference series whatever `result`
held before either call, while `n + p + 1` fits a `long` (the bound the Euler evaluator
needs). -/
theorem four_methods_eq_series (p n : ℕ) (r : ℤ) (hb : n + p + 1 < 9223372036854775808) :
    computeBernoulliSum (p : ℤ) (n : ℤ) r = computeSumUsingSeries (p : ℤ) (n : ℤ) 0 ∧
    computeStirlingSum (p : ℤ) (n : ℤ) r = computeSumUsingSeries (p : ℤ) (n : ℤ) 0 ∧
    computeEulerSum (p : ℤ) (n : ℤ) r = computeSumUsingSeries (p : ℤ) (n : ℤ) 0 ∧
    computeCentralFactorialSum (p : ℤ) (n : ℤ) r
      = computeSumUsingSeries (p : ℤ) (n : ℤ) 0 := by
  rw [computeBernoulliSum_eq_sum, computeStirlingSum_eq_sum, computeEulerSum_eq_sum _ _ _ hb,
    computeCentralFactorialSum_eq_sum, computeSumUsingSeries_eq_sum]
  exact ⟨rfl, rfl, rfl, rfl⟩

/-- C7 (refuted on the code): `computeSum(1, 100)` is `5050` for the Bernoulli, Stirling,
Euler and Central-Factorial methods, but the Faulhaber method returns `51005000`, which is
`N^2 / 2` for `N = 100 * 101` instead of `N / 2`. -/
theorem C7_sum_1_100 (r : ℤ) :
    computeFaulhaberSum 1 100 r = 51005000 ∧
    computeBernoulliSum 1 100 r = 5050 ∧
    computeStirlingSum 1 100 r = 5050 ∧
    computeEulerSum 1 100 r = 5050 ∧
    computeCentralFactorialSum 1 100 r = 5050 := by
  have h := four_methods_eq_series 1 100 r (by norm_num)
  have hs : computeSumUsingSeries 1 100 0 = 5050 := by decide!
  push_cast at h
  rw [hs] at h
  rw [computeFaulhaberSum_result 1 100 r 0]
  exact ⟨by decide!, h⟩

/-- C8: `computeSum(2, 10) = 385` and `computeSum(3, 4) = 100` for each of the five
methods. -/
theorem C8_known_values (r : ℤ) :
    (computeFaulhaberSum 2 10 r = 385 ∧
     computeBernoulliSum 2 10 r = 385 ∧
     computeStirlingSum 2 10 r = 385 ∧
     computeEulerSum 2 10 r = 385 ∧
     computeCentralFactorialSum 2 10 r = 385) ∧
    (computeFaulhaberSum 3 4 r = 100 ∧
     computeBernoulliSum 3 4 r = 100 ∧
     computeStirlingSum 3 4 r = 100 ∧
     computeEulerSum 3 4 r = 100 ∧
     computeCentralFactorialSum 3 4 r = 100) := by
  have h1 := four_methods_eq_series 2 10 r (by norm_num)
  have h2 := four_methods_eq_series 3 4 r (by norm_num)
  have hs1 : computeSumUsingSeries 2 10 0 = 385 := by decide!
  have hs2 : computeSumUsingSeries 3 4 0 = 100 := by decide!
  push_cast at h1 h2
  rw [hs1] at h1
  rw [hs2] at h2
  rw [computeFaulhaberSum_result 2 10 r 0, computeFaulhaberSum_result 3 4 r 0]
  exact ⟨⟨by decide!, h1⟩, ⟨by decide!, h2⟩⟩

/-- On the power `0` every method returns `n + 1`: Faulhaber, Bernoulli, Stirling and
Central-Factorial for every `n ≥ 0`, Euler while `n + 1` fits a `long` (`n < LONG_MAX`). -/
theorem computeSum_power_zero (n : ℤ) (hn : 0 ≤ n) (r : ℤ) :
    computeFaulhaberSum 0 n r = n + 1 ∧
    computeBernoulliSum 0 n r = n + 1 ∧
    computeStirlingSum 0 n r = n + 1 ∧
    computeCentralFactorialSum 0 n r = n + 1 ∧
    (n < 9223372036854775807 → computeEulerSum 0 n r = n + 1) := by
  lift n to ℕ using hn
  have h1 := computeBernoulliSum_eq_sum 0 n r
  have h2 := computeStirlingSum_eq_sum 0 n r
  have h4 := computeCentralFactorialSum_eq_sum 0 n r
  rw [sum_pow_zero] at h1 h2 h4
  push_cast at h1 h2 h4
  refine ⟨computeFaulhaberSum_zero_left n r, h1, h2, h4, fun hb => ?_⟩
  have h3 := computeEulerSum_eq_sum 0 n r (by omega)
  rw [sum_pow_zero] at h3
  push_cast at h3
  exact h3

/-- C9 (refuted on the code): `computeSum(0, LONG_MAX)` is `LONG_MAX + 1 = 2^63` for the
Faulhaber, Bernoulli, Stirling and Central-Factorial methods, but the Euler method returns
`0`: its loop computes the argument `n + j + 1` of `nCr` as a signed 64-bit `long`, which
wraps to `LONG_MIN`, and `nCr` returns `0` for `r > n`. -/
theorem C9_power_zero_overflow (r : ℤ) :
    computeEulerSum 0 9223372036854775807 r = 0 ∧
    computeFaulhaberSum 0 9223372036854775807 r = 9223372036854775808 ∧
    computeBernoulliSum 0 9223372036854775807 r = 9223372036854775808 ∧
    computeStirlingSum 0 9223372036854775807 r = 9223372036854775808 ∧
    computeCentralFactorialSum 0 9223372036854775807 r = 9223372036854775808 := by
  have he : computeEulerSum 0 9223372036854775807 r = 0 := by
    rw [computeEulerSum_result _ _ r 0]
    decide
  obtain ⟨h0, h1, h2, h4, _⟩ := computeSum_power_zero 9223372036854775807 (by norm_num) r
  norm_num at h0 h1 h2 h4
  exact ⟨he, h0, h1, h2, h4⟩

/-- C10: for every `p ≥ 0`, `computeSum(p, 0) = 0^p` for each of the five methods, that
is `1` when `p = 0` and `0` when `p > 0`. -/
theorem C10_zero_terms (power : ℤ) (hp : 0 ≤ power) (r : ℤ) :
    computeFaulhaberSum power 0 r = (if power = 0 then 1 else 0) ∧
    computeBernoulliSum power 0 r = (if power = 0 then 1 else 0) ∧
    computeStirlingSum power 0 r = (if power = 0 then 1 else 0) ∧
    computeEulerSum power 0 r = (if power = 0 then 1 else 0) ∧
    computeCentralFactorialSum power 0 r = (if power = 0 then 1 else 0) ∧
    (if power = 0 then (1 : ℤ) else 0) = (0 : ℤ) ^ power.toNat := by
  lift power to ℕ using hp
  have h0 := computeFaulhaberSum_zero_right power r
  have h1 := computeBernoulliSum_eq_sum power 0 r
  have h2 := computeStirlingSum_eq_sum power 0 r
  have h3 := computeEulerSum_zero_terms power r
  have h4 := computeCentralFactorialSum_eq_sum power 0 r
  rw [sum_range_one_pow] at h1 h2 h4
  have hc : ((power : ℤ) = 0) ↔ (power = 0) := Int.natCast_eq_zero
  simp only [hc, Int.toNat_ofNat]
  push_cast at h1 h2 h4
  refine ⟨h0, h1, h2, h3, h4, ?_⟩
  by_cases h : power = 0
  · simp [h]
  · simp [h]

/-- C10 at `p = 3`. -/
theorem C10_zero_terms_witness :
    (0 : ℤ) ≤ 3 ∧
    computeFaulhaberSum 3 0 0 = (if (3 : ℤ) = 0 then 1 else 0) ∧
    computeBernoulliSum 3 0 0 = (if (3 : ℤ) = 0 then 1 else 0) ∧
    computeStirlingSum 3 0 0 = (if (3 : ℤ) = 0 then 1 else 0) ∧
    computeEulerSum 3 0 0 = (if (3 : ℤ) = 0 then 1 else 0) ∧
    computeCentralFactorialSum 3 0 0 = (if (3 : ℤ) = 0 then 1 else 0) ∧
    (if (3 : ℤ) = 0 then (1 : ℤ) else 0) = (0 : ℤ) ^ (3 : ℤ).toNat :=
  ⟨by decide, C10_zero_terms 3 (by decide) 0⟩

/-! ## The negative domain -/

/-- On the negative domain the C function `computeCentralFactorialSumWithTimeStat` returns
before it writes `result`: the caller's value survives. -/
theorem computeCentralFactorialSum_neg (power n r : ℤ) (h : power < 0 ∨ n < 0) :
    computeCentralFactorialSum power n r = r := by
  simp [computeCentralFactorialSum, computeCentralFactorialSumWithTimeStat, h]

/-- On the negative domain the other four evaluators set `result` to `0`. -/
theorem four_methods_neg (power n r : ℤ) (h : power < 0 ∨ n < 0) :
    computeFaulhaberSum power n r = 0 ∧ computeBernoulliSum power n r = 0 ∧
    computeStirlingSum power n r = 0 ∧ computeEulerSum power n r = 0 := by
  simp [computeFaulhaberSum, computeFaulhaberSumWithTimeStat, computeBernoulliSum,
    computeBernoulliSumWithTimeStat, computeStirlingSum, computeStirlingSumWithTimeStat,
    computeEulerSum, computeEulerSumWithTimeStat, h]

/-! ## Lengths and rational views of the generated lists -/

theorem getD_map_intCast (l : List ℤ) (j : ℕ) :
    (l.map (fun (z : ℤ) => (z : ℚ))).getD j 0 = ((l.getD j 0 : ℤ) : ℚ) := by
  simp only [List.getD_eq_getElem?_getD, List.getElem?_map]
  cases l[j]? <;> simp

/-- Invariant rule for the descending loop `for (i = lo + n - 1; i >= lo; i--)`; `P t`
holds after `t` passes, and pass number `t` runs the body at index `lo + n - 1 - t`. -/
theorem foldl_range'_reverse_inv {σ : Type*} (P : ℕ → σ → Prop) (f : σ → ℕ → σ) (s0 : σ)
    (lo n : ℕ) (h0 : P 0 s0)
    (hstep : ∀ t s, t < n → P t s → P (t + 1) (f s (lo + n - 1 - t))) :
    P n ((List.range' lo n).reverse.foldl f s0) := by
  rw [List.reverse_range', List.foldl_map]
  exact foldl_range_inv P (fun s t => f s (lo + n - 1 - t)) s0 n h0 hstep

/-- The Stirling generator always returns `p + 1` entries, whatever the truncation. -/
theorem getStirlingCoefficients_length (p M : ℕ) :
    (_getStirlingCoefficients (p : ℤ) ((M : ℤ) + 1)).length = p + 1 := by
  rcases Nat.eq_zero_or_pos p with hp | hp
  · subst hp
    simp [_getStirlingCoefficients]
  · have hg : ¬ ((p : ℤ) < 0) := by omega
    have hp' : (p : ℤ) > 0 := by omega
    simp only [_getStirlingCoefficients, hg, if_false, hp', if_true, Int.toNat_ofNat,
      add_sub_cancel_right]
    have main := foldl_range'_inv
      (fun t (s : List ℤ × ℤ) => t ≤ p → (s.1.length = p + 1 ∧ s.2 = stirling2 t 0 ∧
        s.1.getD 0 0 = 0 ∧ ∀ j, 1 ≤ j → j ≤ M → s.1.getD j 0 = stirling2 t j))
      (stirlingRowStep (M : ℤ)) (List.replicate (p + 1) (0 : ℤ), (1 : ℤ)) 1 p
      (fun _ => ⟨by simp, rfl, getD_replicate_zero _ _, fun j h1 _ => by
        rw [getD_replicate_zero, stirling2_eq_zero_of_lt 0 j (by omega)]⟩)
      (fun t s ht hs _ => by
        obtain ⟨a, b, c, d⟩ := hs (by omega)
        rw [Nat.add_comm 1 t]
        exact stirling_row_step (p + 1) M t (by omega) s a b c d)
      le_rfl
    exact main.1

/-! ## The length of the Faulhaber coefficient list -/

/-- The elimination loop of `getFaulhaberCoefficients` keeps `coeffs.length = pivotIndex`
and adds at most one coefficient per pass. -/
theorem faulhaberRun_length (p : ℕ) :
    (faulhaberRun p).coeffs.length = (faulhaberRun p).pivotIndex ∧
    1 ≤ (faulhaberRun p).pivotIndex ∧
    (faulhaberRun p).pivotIndex ≤ 1 + (faulhaberLimit p - 1) := by
  simp only [faulhaberRun]
  exact foldl_range'_reverse_inv
    (fun t (s : FaulhaberState) =>
      s.coeffs.length = s.pivotIndex ∧ 1 ≤ s.pivotIndex ∧ s.pivotIndex ≤ 1 + t)
    _ _ 1 (faulhaberLimit p - 1) ⟨rfl, le_rfl, le_rfl⟩
    (fun t s _ hs => by
      obtain ⟨h1, h2, h3⟩ := hs
      simp only [faulhaberStep]
      split_ifs
      · exact ⟨h1, h2, by omega⟩
      · exact ⟨h1, h2, Nat.le_succ_of_le h3⟩
      · exact ⟨by simp [h1], Nat.le_succ_of_le h2, by
        show s.pivotIndex + 1 ≤ 1 + (t + 1)
        omega⟩)

/-- `getFaulhaberCoefficients` returns between `1` and `nLimit` coefficients. -/
theorem getFaulhaberCoefficients_length (p : ℕ) :
    1 ≤ (getFaulhaberCoefficients (p : ℤ)).length ∧
    (getFaulhaberCoefficients (p : ℤ)).length ≤ faulhaberLimit p := by
  have hg : ¬ ((p : ℤ) < 0) := by omega
  obtain ⟨h1, h2, h3⟩ := faulhaberRun_length p
  have hl : 1 ≤ faulhaberLimit p := by
    simp only [faulhaberLimit]
    split_ifs <;> omega
  simp only [getFaulhaberCoefficients, hg, if_false, Int.toNat_ofNat, List.length_take, h1,
    min_self]
  omega

/-! ## The claims on the negative domain and on the coefficient lists -/

/-- C11 (refuted on the code): on `power = -1`, `n = 5` with `result` holding `7`, the C
function `computeCentralFactorialSum` leaves `7` in `result`, while the other four
evaluators set it to `0`. -/
theorem C11_negative_domain :
    computeCentralFactorialSum (-1) 5 7 = 7 ∧
    computeCentralFactorialSum 5 (-1) 7 = 7 ∧
    computeFaulhaberSum (-1) 5 7 = 0 ∧
    computeBernoulliSum (-1) 5 7 = 0 ∧
    computeStirlingSum (-1) 5 7 = 0 ∧
    computeEulerSum (-1) 5 7 = 0 := by
  have h := four_methods_neg (-1) 5 7 (Or.inl (by decide))
  exact ⟨computeCentralFactorialSum_neg (-1) 5 7 (Or.inl (by decide)),
    computeCentralFactorialSum_neg 5 (-1) 7 (Or.inr (by decide)), h⟩

/-- C12: for every `p < 0` each of the five `getCoefficients` returns the empty list. -/
theorem C12_negative_power_empty (power : ℤ) (hp : power < 0) :
    getFaulhaberCoefficients power = [] ∧
    getBernoulliCoefficients power = [] ∧
    getStirlingCoefficients power = [] ∧
    getEulerCoefficients power = [] ∧
    getCentralFactorialCoefficients power = [] := by
  simp [getFaulhaberCoefficients, getBernoulliCoefficients, getStirlingCoefficients,
    _getStirlingCoefficients, getEulerCoefficients, _getEulerCoefficients,
    getCentralFactorialCoefficients, _getCentralFactorialCoefficients, hp]

/-- C12 at `p = -3`. -/
theorem C12_negative_power_empty_witness :
    (-3 : ℤ) < 0 ∧
    getFaulhaberCoefficients (-3) = [] ∧
    getBernoulliCoefficients (-3) = [] ∧
    getStirlingCoefficients (-3) = [] ∧
    getEulerCoefficients (-3) = [] ∧
    getCentralFactorialCoefficients (-3) = [] :=
  ⟨by decide, C12_negative_power_empty (-3) (by decide)⟩

/-- C13: the Bernoulli generator returns `[1, -1/2]` for the power `1` and
`[1, -1/2, 1/6]` for the power `2`; the entries are in lowest terms, with numerators and
denominators `1/1`, `-1/2`, `1/6`. -/
theorem C13_bernoulli_small :
    getBernoulliCoefficients 1 = [1, -1 / 2] ∧
    getBernoulliCoefficients 2 = [1, -1 / 2, 1 / 6] ∧
    (getBernoulliCoefficients 1).map (fun (q : ℚ) => (q.num, q.den)) = [(1, 1), (-1, 2)] ∧
    (getBernoulliCoefficients 2).map (fun (q : ℚ) => (q.num, q.den))
      = [(1, 1), (-1, 2), (1, 6)] ∧
    (∀ q ∈ getBernoulliCoefficients 2, Nat.Coprime q.num.natAbs q.den) := by
  refine ⟨by decide!, by decide!, by decide!, by decide!, fun q _ => q.reduced⟩

/-- C14: for every `p ≥ 0`, `getBernoulliCoefficients(p)` returns `p + 1` values that
satisfy the recurrence over all indices, `B(0) = 1` and
`C(m+1, 0) B(0) + .. + C(m+1, m) B(m) = 0` for `1 ≤ m ≤ p`; `B(1) = -1/2`, and `B(m) = 0`
for every odd `m ≥ 3`. They are the Bernoulli numbers of Mathlib. -/
theorem C14_bernoulli_recurrence (power : ℤ) (hp : 0 ≤ power) :
    (getBernoulliCoefficients power).length = power.toNat + 1 ∧
    (getBernoulliCoefficients power).getD 0 0 = 1 ∧
    (∀ m, 1 ≤ m → m ≤ power.toNat →
      ∑ k ∈ range (m + 1),
        (((m + 1).choose k : ℕ) : ℚ) * (getBernoulliCoefficients power).getD k 0 = 0) ∧
    (1 ≤ power → (getBernoulliCoefficients power).getD 1 0 = -1 / 2) ∧
    (∀ m, 3 ≤ m → m % 2 = 1 → m ≤ power.toNat →
      (getBernoulliCoefficients power).getD m 0 = 0) ∧
    (∀ k, k ≤ power.toNat → (getBernoulliCoefficients power).getD k 0 = bernoulli k) := by
  lift power to ℕ using hp
  obtain ⟨hlen, hval⟩ := getBernoulliCoefficients_spec power
  simp only [Int.toNat_ofNat]
  refine ⟨hlen, ?_, ?_, ?_, ?_, hval⟩
  · rw [hval 0 (Nat.zero_le _), bernoulli_zero]
  · intro m hm1 hm2
    have h := sum_bernoulli (m + 1)
    rw [if_neg (by omega)] at h
    refine Eq.trans ?_ h
    refine Finset.sum_congr rfl (fun k hk => ?_)
    rw [hval k (by
      have := Finset.mem_range.mp hk
      omega)]
  · intro h1
    rw [hval 1 (by omega), bernoulli_one]
  · intro m hm1 hm2 hm3
    rw [hval m hm3, bernoulli_odd_eq_zero m hm2 (by omega)]

/-- C14 at `p = 5`. -/
theorem C14_bernoulli_recurrence_witness :
    (0 : ℤ) ≤ 5 ∧
    (getBernoulliCoefficients 5).length = (5 : ℤ).toNat + 1 ∧
    (getBernoulliCoefficients 5).getD 0 0 = 1 ∧
    (∀ m, 1 ≤ m → m ≤ (5 : ℤ).toNat →
      ∑ k ∈ range (m + 1),
        (((m + 1).choose k : ℕ) : ℚ) * (getBernoulliCoefficients 5).getD k 0 = 0) ∧
    ((1 : ℤ) ≤ 5 → (getBernoulliCoefficients 5).getD 1 0 = -1 / 2) ∧
    (∀ m, 3 ≤ m → m % 2 = 1 → m ≤ (5 : ℤ).toNat →
      (getBernoulliCoefficients 5).getD m 0 = 0) ∧
    (∀ k, k ≤ (5 : ℤ).toNat → (getBernoulliCoefficients 5).getD k 0 = bernoulli k) :=
  ⟨by decide, C14_bernoulli_recurrence 5 (by decide)⟩

/-- C15: for every `p ≥ 0`, `getStirlingCoefficients(p)` returns `p + 1` values and the
entry `j ≤ p` is the Stirling number of the second kind `S(p, j)`, where `S(0, 0) = 1`,
`S(m, 0) = 0` for `m > 0`, `S(m, j) = 0` for `j > m` and
`S(m, j) = j S(m - 1, j) + S(m - 1, j - 1)`. -/
theorem C15_stirling_coefficients (power : ℤ) (hp : 0 ≤ power) :
    (getStirlingCoefficients power).length = power.toNat + 1 ∧
    (∀ j, j ≤ power.toNat →
      (getStirlingCoefficients power).getD j 0 = ((stirling2 power.toNat j : ℤ) : ℚ)) ∧
    stirling2 0 0 = 1 ∧
    (∀ m, stirling2 (m + 1) 0 = 0) ∧
    (∀ m j, m < j → stirling2 m j = 0) ∧
    (∀ m j, stirling2 (m + 1) (j + 1)
      = ((j + 1 : ℕ) : ℤ) * stirling2 m (j + 1) + stirling2 m j) := by
  lift power to ℕ using hp
  simp only [Int.toNat_ofNat, getStirlingCoefficients, List.length_map]
  refine ⟨getStirlingCoefficients_length power power, fun j hj => ?_, rfl, fun m => rfl,
    stirling2_eq_zero_of_lt, fun m j => ?_⟩
  · rw [getD_map_intCast, getStirlingCoefficients_getD power power j hj]
  · rw [stirling2]
    push_cast
    ring

/-- C15 at `p = 4`. -/
theorem C15_stirling_coefficients_witness :
    (0 : ℤ) ≤ 4 ∧
    (getStirlingCoefficients 4).length = (4 : ℤ).toNat + 1 ∧
    (∀ j, j ≤ (4 : ℤ).toNat →
      (getStirlingCoefficients 4).getD j 0 = ((stirling2 (4 : ℤ).toNat j : ℤ) : ℚ)) ∧
    stirling2 0 0 = 1 ∧
    (∀ m, stirling2 (m + 1) 0 = 0) ∧
    (∀ m j, m < j → stirling2 m j = 0) ∧
    (∀ m j, stirling2 (m + 1) (j + 1)
      = ((j + 1 : ℕ) : ℤ) * stirling2 m (j + 1) + stirling2 m j) :=
  ⟨by decide, C15_stirling_coefficients 4 (by decide)⟩

/-- C16: for every `p ≥ 0`, `getEulerCoefficients(p)` returns `p + 1` values and the entry
`j ≤ p` is the Euler number of the first kind `E(p, j)`, where `E(0, 0) = 1`,
`E(0, j) = 0` for `j > 0`, `E(i, 0) = 1` and
`E(i, j) = (j + 1) E(i - 1, j) + (i - j) E(i - 1, j - 1)` for `j > 0`; the last entry is
`0` whenever `p ≥ 1`. -/
theorem C16_euler_coefficients (power : ℤ) (hp : 0 ≤ power) :
    (getEulerCoefficients power).length = power.toNat + 1 ∧
    (∀ j, j ≤ power.toNat →
      (getEulerCoefficients power).getD j 0 = ((euler1 power.toNat j : ℤ) : ℚ)) ∧
    (1 ≤ power → (getEulerCoefficients power).getD power.toNat 0 = 0) ∧
    euler1 0 0 = 1 ∧
    (∀ j, euler1 0 (j + 1) = 0) ∧
    (∀ i, euler1 i 0 = 1) ∧
    (∀ i j, euler1 (i + 1) (j + 1)
      = (((j + 1 : ℕ) : ℤ) + 1) * euler1 i (j + 1)
        + (((i + 1 : ℕ) : ℤ) - ((j + 1 : ℕ) : ℤ)) * euler1 i j) := by
  lift power to ℕ using hp
  obtain ⟨hlen, hval⟩ := getEulerCoefficients_spec power power
  simp only [Int.toNat_ofNat, getEulerCoefficients, List.length_map]
  refine ⟨hlen, fun j hj => ?_, fun h1 => ?_, rfl, fun j => rfl, euler1_zero_right,
    fun i j => ?_⟩
  · rw [getD_map_intCast, hval j hj (Or.inl hj)]
  · rw [getD_map_intCast, hval power le_rfl (Or.inl le_rfl),
      euler1_eq_zero power power le_rfl (by omega)]
    simp
  · rw [euler1]
    push_cast
    ring

/-- C16 at `p = 5`. -/
theorem C16_euler_coefficients_witness :
    (0 : ℤ) ≤ 5 ∧
    (getEulerCoefficients 5).length = (5 : ℤ).toNat + 1 ∧
    (∀ j, j ≤ (5 : ℤ).toNat →
      (getEulerCoefficients 5).getD j 0 = ((euler1 (5 : ℤ).toNat j : ℤ) : ℚ)) ∧
    ((1 : ℤ) ≤ 5 → (getEulerCoefficients 5).getD (5 : ℤ).toNat 0 = 0) ∧
    euler1 0 0 = 1 ∧
    (∀ j, euler1 0 (j + 1) = 0) ∧
    (∀ i, euler1 i 0 = 1) ∧
    (∀ i j, euler1 (i + 1) (j + 1)
      = (((j + 1 : ℕ) : ℤ) + 1) * euler1 i (j + 1)
        + (((i + 1 : ℕ) : ℤ) - ((j + 1 : ℕ) : ℤ)) * euler1 i j) :=
  ⟨by decide, C16_euler_coefficients 5 (by decide)⟩

/-- C17: for every `p ≥ 0`, with `m = ceil(p / 2)`, `getCentralFactorialCoefficients(p)`
returns `m + 1` values and the entry `k ≤ m` is the central factorial number `T(2m, 2k)`
(`centralT m k`), where `T(0, 0) = 1`, `T(2i, 0) = 0` for `i > 0`, `T(2i, 2i) = 1`,
`T(2i, 2k) = 0` for `k > i` and `T(2i, 2k) = k k T(2i - 2, 2k) + T(2i - 2, 2k - 2)`; the
entry `0` is `0` whenever `p ≥ 1`. -/
theorem C17_central_coefficients (power : ℤ) (hp : 0 ≤ power) :
    (getCentralFactorialCoefficients power).length
      = (power.toNat / 2 + power.toNat % 2) + 1 ∧
    (∀ k, k ≤ power.toNat / 2 + power.toNat % 2 →
      (getCentralFactorialCoefficients power).getD k 0
        = ((centralT (power.toNat / 2 + power.toNat % 2) k : ℤ) : ℚ)) ∧
    (1 ≤ power → (getCentralFactorialCoefficients power).getD 0 0 = 0) ∧
    centralT 0 0 = 1 ∧
    (∀ i, centralT (i + 1) 0 = 0) ∧
    (∀ i, centralT i i = 1) ∧
    (∀ i k, i < k → centralT i k = 0) ∧
    (∀ i k, centralT (i + 1) (k + 1)
      = ((k + 1 : ℕ) : ℤ) * ((k + 1 : ℕ) : ℤ) * centralT i (k + 1) + centralT i k) := by
  lift power to ℕ using hp
  obtain ⟨hlen, hval⟩ := getCentralFactorialCoefficients_spec power power
  have hmin : min (power / 2 + power % 2) power = power / 2 + power % 2 := by
    rw [Nat.min_def]
    split_ifs <;> omega
  rw [hmin] at hlen hval
  simp only [Int.toNat_ofNat, getCentralFactorialCoefficients, List.length_map]
  refine ⟨hlen, fun k hk => ?_, fun h1 => ?_, rfl, fun i => rfl, centralT_self,
    centralT_eq_zero_of_lt, fun i k => ?_⟩
  · rw [getD_map_intCast, hval k hk]
  · rw [getD_map_intCast, hval 0 (Nat.zero_le _)]
    obtain ⟨q, hq⟩ : ∃ q, power / 2 + power % 2 = q + 1 :=
      ⟨power / 2 + power % 2 - 1, by omega⟩
    rw [hq, centralT_succ_zero]
    simp
  · rw [centralT]
    push_cast
    ring

/-- C17 at `p = 5`. -/
theorem C17_central_coefficients_witness :
    (0 : ℤ) ≤ 5 ∧
    (getCentralFactorialCoefficients 5).length
      = ((5 : ℤ).toNat / 2 + (5 : ℤ).toNat % 2) + 1 ∧
    (∀ k, k ≤ (5 : ℤ).toNat / 2 + (5 : ℤ).toNat % 2 →
      (getCentralFactorialCoefficients 5).getD k 0
        = ((centralT ((5 : ℤ).toNat / 2 + (5 : ℤ).toNat % 2) k : ℤ) : ℚ)) ∧
    ((1 : ℤ) ≤ 5 → (getCentralFactorialCoefficients 5).getD 0 0 = 0) ∧
    centralT 0 0 = 1 ∧
    (∀ i, centralT (i + 1) 0 = 0) ∧
    (∀ i, centralT i i = 1) ∧
    (∀ i k, i < k → centralT i k = 0) ∧
    (∀ i k, centralT (i + 1) (k + 1)
      = ((k + 1 : ℕ) : ℤ) * ((k + 1 : ℕ) : ℤ) * centralT i (k + 1) + centralT i k) :=
  ⟨by decide, C17_central_coefficients 5 (by decide)⟩

/-- C19: for all `n, r ≥ 0`, `nCr(n, r)` is the binomial coefficient `C(n, r)`; it is `0`
when `r > n` and `1` when `r = 0` or `r = n`. -/
theorem C19_nCr_binomial (n r d : ℕ) :
    nCr n r = ((n.choose r : ℕ) : ℤ) ∧
    nCr n (n + 1 + d) = 0 ∧
    nCr n 0 = 1 ∧
    nCr n n = 1 := by
  refine ⟨nCr_eq_choose n r, ?_, ?_, ?_⟩
  · rw [nCr_eq_choose, Nat.choose_eq_zero_of_lt (by omega)]
    rfl
  · rw [nCr_eq_choose, Nat.choose_zero_right]
    rfl
  · rw [nCr_eq_choose, Nat.choose_self]
    rfl

/-- C20: for every `p ≥ 0`, `getFaulhaberCoefficients(p)` returns at least `1` and at most
`nLimit` coefficients, `nLimit` being `(p + 1) / 2` for odd `p` and `p / 2 + 1` for even
`p`; for the power `3` the early termination leaves the single coefficient `1/2`, although
`nLimit = 2`. -/
theorem C20_faulhaber_length (power : ℤ) (hp : 0 ≤ power) :
    1 ≤ (getFaulhaberCoefficients power).length ∧
    ((getFaulhaberCoefficients power).length : ℤ)
      ≤ (if power % 2 = 1 then (power + 1) / 2 else power / 2 + 1) ∧
    getFaulhaberCoefficients 3 = [1 / 2] ∧
    faulhaberLimit 3 = 2 := by
  lift power to ℕ using hp
  obtain ⟨h1, h2⟩ := getFaulhaberCoefficients_length power
  refine ⟨h1, ?_, by decide!, by decide⟩
  have h3 : ((faulhaberLimit power : ℕ) : ℤ)
      = (if (power : ℤ) % 2 = 1 then ((power : ℤ) + 1) / 2 else (power : ℤ) / 2 + 1) := by
    simp only [faulhaberLimit]
    split_ifs <;> omega
  rw [← h3]
  exact_mod_cast h2

/-- C20 at `p = 8`. -/
theorem C20_faulhaber_length_witness :
    (0 : ℤ) ≤ 8 ∧
    1 ≤ (getFaulhaberCoefficients 8).length ∧
    ((getFaulhaberCoefficients 8).length : ℤ)
      ≤ (if (8 : ℤ) % 2 = 1 then ((8 : ℤ) + 1) / 2 else (8 : ℤ) / 2 + 1) ∧
    getFaulhaberCoefficients 3 = [1 / 2] ∧
    faulhaberLimit 3 = 2 :=
  ⟨by decide, C20_faulhaber_length 8 (by decide)⟩

/-! ## The rows of the Faulhaber system -/

/-- The exact division of the incremental update of the row builders:
from `C(top, i + 2)` to `C(top, i)`. -/
theorem ncrUpdate_choose (top i : ℕ) (h : i + 2 ≤ top) :
    ncrUpdate ((top.choose (i + 2) : ℕ) : ℤ) (top : ℤ) (i : ℤ) = ((top.choose i : ℕ) : ℤ) := by
  have h1 := Nat.choose_succ_right_eq top (i + 1)
  have h2 := Nat.choose_succ_right_eq top i
  have e1 : ((top.choose (i + 2) : ℕ) : ℤ) * ((i : ℤ) + 2)
      = ((top.choose (i + 1) : ℕ) : ℤ) * ((top : ℤ) - (i : ℤ) - 1) := by
    have : ((top.choose (i + 1 + 1) * (i + 1 + 1) : ℕ) : ℤ)
        = ((top.choose (i + 1) * (top - (i + 1)) : ℕ) : ℤ) := by rw [h1]
    push_cast [Nat.cast_sub (show i + 1 ≤ top by omega)] at this
    linarith
  have e2 : ((top.choose (i + 1) : ℕ) : ℤ) * ((i : ℤ) + 1)
      = ((top.choose i : ℕ) : ℤ) * ((top : ℤ) - (i : ℤ)) := by
    have : ((top.choose (i + 1) * (i + 1) : ℕ) : ℤ)
        = ((top.choose i * (top - i) : ℕ) : ℤ) := by rw [h2]
    push_cast [Nat.cast_sub (show i ≤ top by omega)] at this
    linarith
  have e3 : ((top.choose (i + 2) : ℕ) : ℤ) * (((i : ℤ) + 2) * ((i : ℤ) + 1))
      = ((top.choose i : ℕ) : ℤ) * (((top : ℤ) - (i : ℤ) - 1) * ((top : ℤ) - (i : ℤ))) := by
    calc ((top.choose (i + 2) : ℕ) : ℤ) * (((i : ℤ) + 2) * ((i : ℤ) + 1))
        = (((top.choose (i + 2) : ℕ) : ℤ) * ((i : ℤ) + 2)) * ((i : ℤ) + 1) := by ring
      _ = (((top.choose (i + 1) : ℕ) : ℤ) * ((i : ℤ) + 1)) * ((top : ℤ) - (i : ℤ) - 1) := by
          rw [e1]; ring
      _ = ((top.choose i : ℕ) : ℤ) * (((top : ℤ) - (i : ℤ) - 1) * ((top : ℤ) - (i : ℤ))) := by
          rw [e2]; ring
  have hne : ((top : ℤ) - (i : ℤ) - 1) * ((top : ℤ) - (i : ℤ)) ≠ 0 := by
    apply mul_ne_zero <;> omega
  simp only [ncrUpdate]
  rw [e3, Int.mul_ediv_cancel _ hne]

/-- The binomial carried by a row builder: `prev` is `0` (nothing computed yet, or a
vanishing binomial) or `C(top, i + 2)`; the next value is `C(top, i)` either way. -/
theorem ncr_next (top i : ℕ) (prev : ℤ)
    (h : prev = 0 ∨ prev = ((top.choose (i + 2) : ℕ) : ℤ)) :
    (if prev = 0 then nCr top i else ncrUpdate prev (top : ℤ) (i : ℤ))
      = ((top.choose i : ℕ) : ℤ) := by
  by_cases h0 : prev = 0
  · rw [if_pos h0, nCr_eq_choose]
  · rw [if_neg h0]
    rcases h with h | h
    · exact absurd h h0
    · have hle : i + 2 ≤ top := by
        by_contra hlt
        rw [Nat.choose_eq_zero_of_lt (by omega)] at h
        exact h0 (by simpa using h)
      rw [h]
      exact ncrUpdate_choose top i hle

/-- The first loop of `createRowForOddPower`: after `T` passes the row holds
`C(k, 2k - 1), C(k, 2k - 3), ..` (zero while the lower index exceeds `k`) and `ncr` is the
last of them. -/
theorem oddRow_loop (k T : ℕ) (hT : T ≤ k) :
    (List.range T).foldl (fun st t => oddRowStep k st (2 * k - 1 - 2 * t))
        (([] : List ℤ), (0 : ℤ))
      = ((List.range T).map (fun t => ((k.choose (2 * k - 1 - 2 * t) : ℕ) : ℤ)),
         if T = 0 then 0 else ((k.choose (2 * k + 1 - 2 * T) : ℕ) : ℤ)) := by
  refine foldl_range_inv
    (fun T st => T ≤ k → st =
      ((List.range T).map (fun t => ((k.choose (2 * k - 1 - 2 * t) : ℕ) : ℤ)),
         if T = 0 then 0 else ((k.choose (2 * k + 1 - 2 * T) : ℕ) : ℤ)))
    _ _ T ?_ ?_ hT
  · intro _
    simp
  · intro T st hT' hs hT''
    rw [hs (by omega)]
    have hprev : (if T = 0 then (0 : ℤ) else ((k.choose (2 * k + 1 - 2 * T) : ℕ) : ℤ)) = 0 ∨
        (if T = 0 then (0 : ℤ) else ((k.choose (2 * k + 1 - 2 * T) : ℕ) : ℤ))
          = ((k.choose (2 * k - 1 - 2 * T + 2) : ℕ) : ℤ) := by
      split_ifs with h0
      · exact Or.inl rfl
      · right
        congr 2
        omega
    have hidx : 2 * k + 1 - 2 * (T + 1) = 2 * k - 1 - 2 * T := by omega
    simp only [oddRowStep, List.range_succ, List.map_append, List.map_cons, List.map_nil,
      Nat.succ_ne_zero, if_false, hidx]
    by_cases hi : 2 * k - 1 - 2 * T > k
    · rw [if_pos hi]
      have hz : k.choose (2 * k - 1 - 2 * T) = 0 := Nat.choose_eq_zero_of_lt hi
      rw [hz]
      congr 1
      rcases hprev with h | h
      · rw [h]; rfl
      · rw [h, Nat.choose_eq_zero_of_lt (by omega)]
    · rw [if_neg hi]
      simp only [ncr_next k (2 * k - 1 - 2 * T) _ hprev]

/-- The first loop of `createRowForEvenPower`: as for odd powers, with the two binomials
`C(k, i)` and `C(k - 1, i)` carried side by side. -/
theorem evenRow_loop (k T : ℕ) (hT : T ≤ k) :
    (List.range T).foldl (fun st t => evenRowStep k st (2 * k - 1 - 2 * t))
        (([] : List ℤ), (0 : ℤ), (0 : ℤ))
      = ((List.range T).map (fun t => ((k.choose (2 * k - 1 - 2 * t) : ℕ) : ℤ)
            + (((k - 1).choose (2 * k - 1 - 2 * t) : ℕ) : ℤ)),
         (if T = 0 then 0 else ((k.choose (2 * k + 1 - 2 * T) : ℕ) : ℤ)),
         (if T = 0 then 0 else (((k - 1).choose (2 * k + 1 - 2 * T) : ℕ) : ℤ))) := by
  refine foldl_range_inv
    (fun T st => T ≤ k → st =
      ((List.range T).map (fun t => ((k.choose (2 * k - 1 - 2 * t) : ℕ) : ℤ)
            + (((k - 1).choose (2 * k - 1 - 2 * t) : ℕ) : ℤ)),
         (if T = 0 then 0 else ((k.choose (2 * k + 1 - 2 * T) : ℕ) : ℤ)),
         (if T = 0 then 0 else (((k - 1).choose (2 * k + 1 - 2 * T) : ℕ) : ℤ))))
    _ _ T ?_ ?_ hT
  · intro _
    simp
  · intro T st hT' hs hT''
    rw [hs (by omega)]
    have hprev1 : (if T = 0 then (0 : ℤ) else ((k.choose (2 * k + 1 - 2 * T) : ℕ) : ℤ)) = 0 ∨
        (if T = 0 then (0 : ℤ) else ((k.choose (2 * k + 1 - 2 * T) : ℕ) : ℤ))
          = ((k.choose (2 * k - 1 - 2 * T + 2) : ℕ) : ℤ) := by
      split_ifs with h0
      · exact Or.inl rfl
      · right
        congr 2
        omega
    have hprev2 :
        (if T = 0 then (0 : ℤ) else (((k - 1).choose (2 * k + 1 - 2 * T) : ℕ) : ℤ)) = 0 ∨
        (if T = 0 then (0 : ℤ) else (((k - 1).choose (2 * k + 1 - 2 * T) : ℕ) : ℤ))
          = (((k - 1).choose (2 * k - 1 - 2 * T + 2) : ℕ) : ℤ) := by
      split_ifs with h0
      · exact Or.inl rfl
      · right
        congr 2
        omega
    have hidx : 2 * k + 1 - 2 * (T + 1) = 2 * k - 1 - 2 * T := by omega
    have hk1 : ((k : ℤ) - 1) = (((k - 1 : ℕ)) : ℤ) := by omega
    simp only [evenRowStep, List.range_succ, List.map_append, List.map_cons, List.map_nil,
      Nat.succ_ne_zero, if_false, hidx, hk1]
    by_cases hi : 2 * k - 1 - 2 * T > k
    · rw [if_pos hi]
      have hz1 : k.choose (2 * k - 1 - 2 * T) = 0 := Nat.choose_eq_zero_of_lt hi
      have hz2 : (k - 1).choose (2 * k - 1 - 2 * T) = 0 :=
        Nat.choose_eq_zero_of_lt (by omega)
      rw [hz1, hz2]
      have e1 : (if T = 0 then (0 : ℤ) else ((k.choose (2 * k + 1 - 2 * T) : ℕ) : ℤ)) = 0 := by
        rcases hprev1 with h | h
        · exact h
        · rw [h, Nat.choose_eq_zero_of_lt (by omega)]; rfl
      have e2 :
          (if T = 0 then (0 : ℤ) else (((k - 1).choose (2 * k + 1 - 2 * T) : ℕ) : ℤ)) = 0 := by
        rcases hprev2 with h | h
        · exact h
        · rw [h, Nat.choose_eq_zero_of_lt (by omega)]; rfl
      rw [e1, e2]
      simp
    · rw [if_neg hi]
      simp only [ncr_next k (2 * k - 1 - 2 * T) _ hprev1,
        ncr_next (k - 1) (2 * k - 1 - 2 * T) _ hprev2]

theorem find_first_nonzero : ∀ (l : List ℤ) (j : ℕ), j < l.length →
    (∀ i, i < j → l.getD i 0 = 0) → l.getD j 0 ≠ 0 →
    l.find? (fun x => decide (x ≠ 0)) = some (l.getD j 0)
  | [], j, h, _, _ => absurd h (Nat.not_lt_zero j)
  | a :: l, 0, _, _, hnz => by
    have : a ≠ 0 := by simpa using hnz
    simp [List.find?, this]
  | a :: l, j + 1, h, hz, hnz => by
    have ha : a = 0 := by simpa using hz 0 (Nat.succ_pos j)
    have ih := find_first_nonzero l j (by simpa using h)
      (fun i hi => by simpa using hz (i + 1) (by omega)) (by simpa using hnz)
    simp only [List.find?, ha]
    simpa using ih

/-- The common tail of both row builders: pad with zeros up to `nLimit` entries, reverse,
append the augmented `1`, take the first non-zero entry as `scaleBy`. -/
theorem postProcessRow_spec (f : ℕ → ℤ) (nLimit k : ℕ) (hk1 : 1 ≤ k) (hk : k ≤ nLimit)
    (hlead : f (k - 1) ≠ 0) :
    (postProcessRow ((List.range k).map f ++ List.replicate (nLimit - k) 0)).1.length
      = nLimit + 1 ∧
    (∀ j, j < nLimit →
      (postProcessRow ((List.range k).map f ++ List.replicate (nLimit - k) 0)).1.getD j 0
        = if nLimit ≤ j + k then f (nLimit - 1 - j) else 0) ∧
    (postProcessRow ((List.range k).map f ++ List.replicate (nLimit - k) 0)).1.getD nLimit 0
      = 1 ∧
    (postProcessRow ((List.range k).map f ++ List.replicate (nLimit - k) 0)).2
      = f (k - 1) := by
  obtain ⟨l, hl⟩ : ∃ l, l = (List.range k).map f ++ List.replicate (nLimit - k) 0 := ⟨_, rfl⟩
  have hlen : l.length = nLimit := by
    rw [hl]; simp; omega
  have hget : ∀ t, t < nLimit → l.getD t 0 = if t < k then f t else 0 := by
    intro t ht
    rw [hl]
    simp only [List.getD_eq_getElem?_getD]
    by_cases htk : t < k
    · rw [List.getElem?_append_left (by simpa using htk), if_pos htk]
      simp [htk]
    · rw [List.getElem?_append_right (by simpa using htk), if_neg htk]
      simp only [List.length_map, List.length_range, List.getElem?_replicate]
      split_ifs <;> rfl
  have hrev : ∀ j, j < nLimit → (l.reverse ++ [1]).getD j 0
      = if nLimit ≤ j + k then f (nLimit - 1 - j) else 0 := by
    intro j hj
    simp only [List.getD_eq_getElem?_getD]
    rw [List.getElem?_append_left (by simpa [hlen] using hj),
      List.getElem?_reverse (by simpa [hlen] using hj), hlen]
    have := hget (nLimit - 1 - j) (by omega)
    simp only [List.getD_eq_getElem?_getD] at this
    rw [this]
    by_cases hc : nLimit ≤ j + k
    · rw [if_pos hc, if_pos (by omega)]
    · rw [if_neg hc, if_neg (by omega)]
  rw [← hl]
  simp only [postProcessRow]
  refine ⟨by simp [hlen], hrev, ?_, ?_⟩
  · simp only [List.getD_eq_getElem?_getD]
    rw [List.getElem?_append_right (by simp [hlen])]
    simp [hlen]
  · have hj : nLimit - k < (l.reverse ++ [1]).length := by simp [hlen]; omega
    have hval : (l.reverse ++ [1]).getD (nLimit - k) 0 = f (k - 1) := by
      rw [hrev (nLimit - k) (by omega), if_pos (by omega)]
      congr 1
      omega
    have h := find_first_nonzero (l.reverse ++ [1]) (nLimit - k) hj
      (fun i hi => by
        rw [hrev i (by omega), if_neg (by omega)])
      (by rw [hval]; exact hlead)
    rw [h, hval]
    rfl

theorem rowEntry_zero (oddPower : Bool) (k : ℕ) (hk1 : 1 ≤ k) :
    rowEntry oddPower k 0 = (if oddPower then (k : ℤ) else 2 * (k : ℤ) - 1) ∧
    rowEntry oddPower k 0 ≠ 0 := by
  cases oddPower with
  | true =>
    simp only [rowEntry, if_true, Nat.mul_zero, Nat.zero_add, Nat.choose_one_right]
    exact ⟨trivial, by omega⟩
  | false =>
    simp only [rowEntry, Bool.false_eq_true, if_false, Nat.mul_zero, Nat.zero_add,
      Nat.choose_one_right]
    exact ⟨by omega, by omega⟩

/-- The row built for `rowNum = k` (`1 ≤ k ≤ nLimit`): `nLimit + 1` entries, the matrix part
`rowMatrix`, the augmented column `1`, and `scaleBy` the leading entry (`k` for odd powers,
`2k - 1` for even powers), which is not zero. -/
theorem createRow_spec (oddPower : Bool) (nLimit k : ℕ) (hk1 : 1 ≤ k) (hk : k ≤ nLimit) :
    (createRow oddPower nLimit k).1.length = nLimit + 1 ∧
    (∀ j, j < nLimit → (createRow oddPower nLimit k).1.getD j 0 = rowMatrix oddPower nLimit k j) ∧
    (createRow oddPower nLimit k).1.getD nLimit 0 = 1 ∧
    (createRow oddPower nLimit k).2 = rowEntry oddPower k 0 := by
  have hlead := (rowEntry_zero oddPower k hk1).2
  cases oddPower with
  | true =>
    have hloop := oddRow_loop k k le_rfl
    simp only [createRow, if_true, createRowForOddPower, rowLoopIndices, List.foldl_map, hloop,
      List.length_map, List.length_range]
    have hf : (fun t => ((k.choose (2 * k - 1 - 2 * t) : ℕ) : ℤ)) (k - 1) = rowEntry true k 0 := by
      simp only [rowEntry, if_true]
      congr 2
      omega
    obtain ⟨a, b, c, d⟩ := postProcessRow_spec
      (fun t => ((k.choose (2 * k - 1 - 2 * t) : ℕ) : ℤ)) nLimit k hk1 hk (by rw [hf]; exact hlead)
    refine ⟨a, fun j hj => ?_, c, d.trans hf⟩
    rw [b j hj]
    simp only [rowMatrix, rowEntry, if_true]
    split_ifs with hc
    · congr 2
      omega
    · rfl
  | false =>
    have hloop := evenRow_loop k k le_rfl
    simp only [createRow, Bool.false_eq_true, if_false, createRowForEvenPower, rowLoopIndices,
      List.foldl_map, hloop, List.length_map, List.length_range]
    have hf : (fun t => ((k.choose (2 * k - 1 - 2 * t) : ℕ) : ℤ)
        + (((k - 1).choose (2 * k - 1 - 2 * t) : ℕ) : ℤ)) (k - 1) = rowEntry false k 0 := by
      simp only [rowEntry, Bool.false_eq_true, if_false]
      have : 2 * k - 1 - 2 * (k - 1) = 2 * 0 + 1 := by omega
      rw [this]
    obtain ⟨a, b, c, d⟩ := postProcessRow_spec
      (fun t => ((k.choose (2 * k - 1 - 2 * t) : ℕ) : ℤ)
        + (((k - 1).choose (2 * k - 1 - 2 * t) : ℕ) : ℤ)) nLimit k hk1 hk
      (by rw [hf]; exact hlead)
    refine ⟨a, fun j hj => ?_, c, d.trans hf⟩
    rw [b j hj]
    simp only [rowMatrix, rowEntry, Bool.false_eq_true, if_false]
    split_ifs with hc
    · have : 2 * k - 1 - 2 * (nLimit - 1 - j) = 2 * (j + k - nLimit) + 1 := by omega
      rw [this]
    · rfl

/-! ## Faulhaber's coefficients -/

theorem choose_absorb (k j : ℕ) :
    ((k : ℚ) + 1) * ((k.choose j : ℕ) : ℚ)
      = ((k : ℚ) + 1 - (j : ℚ)) * (((k + 1).choose j : ℕ) : ℚ) := by
  by_cases h : j ≤ k + 1
  · have h1 := Nat.choose_mul_succ_eq k j
    have h2 : ((k.choose j * (k + 1) : ℕ) : ℚ) = (((k + 1).choose j * (k + 1 - j) : ℕ) : ℚ) := by
      rw [h1]
    push_cast [Nat.cast_sub h] at h2
    linarith
  · rw [Nat.choose_eq_zero_of_lt (show k < j by omega),
      Nat.choose_eq_zero_of_lt (show k + 1 < j by omega)]
    simp

theorem choose_absorb_two (k j : ℕ) :
    ((k : ℚ) + 2) * ((k : ℚ) + 1) * ((k.choose j : ℕ) : ℚ)
      = ((j : ℚ) + 2) * ((j : ℚ) + 1) * (((k + 2).choose (j + 2) : ℕ) : ℚ) := by
  have h1 := Nat.succ_mul_choose_eq k j
  have h2 := Nat.succ_mul_choose_eq (k + 1) (j + 1)
  have e1 : ((k : ℚ) + 1) * ((k.choose j : ℕ) : ℚ)
      = (((k + 1).choose (j + 1) : ℕ) : ℚ) * ((j : ℚ) + 1) := by
    have : ((k.succ * k.choose j : ℕ) : ℚ) = ((k.succ.choose j.succ * j.succ : ℕ) : ℚ) := by
      rw [h1]
    push_cast at this
    linarith
  have e2 : ((k : ℚ) + 2) * (((k + 1).choose (j + 1) : ℕ) : ℚ)
      = (((k + 2).choose (j + 2) : ℕ) : ℚ) * ((j : ℚ) + 2) := by
    have : (((k + 1).succ * (k + 1).choose (j + 1) : ℕ) : ℚ)
        = (((k + 1).succ.choose (j + 1).succ * (j + 1).succ : ℕ) : ℚ) := by
      rw [h2]
    push_cast at this
    linarith
  linear_combination ((k : ℚ) + 2) * e1 + ((j : ℚ) + 1) * e2

/-- The second-difference relation between the Edwards coefficients of `N^(k+2)`, `N^(k+1)`
and `N^k`. -/
theorem edwardsOdd_rec (k e : ℕ) :
    ((e : ℚ) + 2) * ((e : ℚ) + 1) * edwardsOdd (k + 2) (e + 2)
      = 2 * ((k : ℚ) + 2) * (2 * (k : ℚ) + 3) * edwardsOdd (k + 1) e
        + ((k : ℚ) + 2) * ((k : ℚ) + 1) * edwardsOdd k e := by
  simp only [edwardsOdd]
  by_cases h : e ≤ 2 * k + 2
  · rw [if_pos (by omega), if_pos (by omega)]
    have hidx : 2 * (k + 2) - (e + 2) = 2 * (k + 1) - e := by omega
    rw [hidx]
    by_cases h2 : e ≤ 2 * k
    · rw [if_pos h2]
      obtain ⟨j, hj⟩ : ∃ j, e + j = 2 * k := ⟨2 * k - e, by omega⟩
      have hj1 : 2 * k - e = j := by omega
      have hj2 : 2 * (k + 1) - e = j + 2 := by omega
      have he : (e : ℚ) = 2 * (k : ℚ) - (j : ℚ) := by
        have : ((e + j : ℕ) : ℚ) = ((2 * k : ℕ) : ℚ) := by rw [hj]
        push_cast at this
        linarith
      rw [hj1, hj2, he]
      have hA := choose_absorb (k + 1) (j + 2)
      have hB := choose_absorb_two k j
      push_cast at hA
      linear_combination (-2 * (2 * (k : ℚ) + 3)) * hA - hB
    · rw [if_neg h2]
      have hcase : e = 2 * k + 1 ∨ e = 2 * k + 2 := by omega
      rcases hcase with he | he
      · subst he
        have : 2 * (k + 1) - (2 * k + 1) = 1 := by omega
        rw [this]
        simp only [Nat.choose_one_right]
        push_cast
        ring
      · subst he
        have : 2 * (k + 1) - (2 * k + 2) = 0 := by omega
        rw [this]
        simp only [Nat.choose_zero_right]
        push_cast
        ring
  · rw [if_neg (by omega), if_neg (by omega), if_neg (by omega)]
    ring

/-- The first-difference relation between the two families of Edwards coefficients. -/
theorem edwardsEven_eq (k e : ℕ) :
    (k : ℚ) * edwardsEven k e = ((e : ℚ) + 1) * edwardsOdd k (e + 1) := by
  simp only [edwardsEven, edwardsOdd]
  by_cases h : e + 1 ≤ 2 * k
  · rw [if_pos h, if_pos h]
    obtain ⟨k', rfl⟩ : ∃ k', k = k' + 1 := ⟨k - 1, by omega⟩
    have hidx : 2 * (k' + 1) - (e + 1) = 2 * (k' + 1) - 1 - e := by omega
    rw [hidx]
    obtain ⟨j, hj⟩ : ∃ j, 2 * (k' + 1) - 1 - e = j := ⟨_, rfl⟩
    rw [hj]
    have hA := choose_absorb k' j
    have he : (e : ℚ) = 2 * (k' : ℚ) + 1 - (j : ℚ) := by
      have : e + j = 2 * k' + 1 := by omega
      have : ((e + j : ℕ) : ℚ) = ((2 * k' + 1 : ℕ) : ℚ) := by rw [this]
      push_cast at this
      linarith
    simp only [Nat.add_sub_cancel]
    push_cast
    rw [he]
    linear_combination hA
  · rw [if_neg h, if_neg h]
    ring

theorem faulY_one (k : ℕ) : faulY 1 k = if k = 1 then 1 else 0 := rfl

theorem faulY_succ_succ (m k : ℕ) :
    faulY (m + 2) k
      = if 2 ≤ k ∧ k ≤ m + 2 then faulU (m + 1) (faulY (m + 1)) (m + 2 - k) else 0 := rfl

/-- The defining recurrence of `faulU`, read at the coefficient index `k = m - t`. -/
theorem faulU_rec (m : ℕ) (b : ℕ → ℚ) (k : ℕ) (hk1 : 1 ≤ k) (hk : k ≤ m) :
    2 * ((k : ℚ) + 1) * (2 * (k : ℚ) + 1) * faulU m b (m - k)
      + ((k : ℚ) + 2) * ((k : ℚ) + 1) * (if k + 1 ≤ m then faulU m b (m - k - 1) else 0)
      = (2 * (m : ℚ) + 1) * (2 * (m : ℚ)) * b k := by
  have hne : (2 * ((k : ℚ) + 1) * (2 * (k : ℚ) + 1)) ≠ 0 := by positivity
  by_cases hkm : k + 1 ≤ m
  · rw [if_pos hkm]
    obtain ⟨t, ht⟩ : ∃ t, m - k = t + 1 := ⟨m - k - 1, by omega⟩
    have ht' : m - k - 1 = t := by omega
    have hk' : m - (t + 1) = k := by omega
    rw [ht, Nat.add_sub_cancel, faulU, hk']
    field_simp
  · rw [if_neg hkm]
    have : k = m := by omega
    subst this
    rw [Nat.sub_self, faulU]
    field_simp

/-- Signs along `faulU`: they alternate, starting positive at the top coefficient. -/
theorem faulU_sign (m : ℕ) (b : ℕ → ℚ) (hb : 0 < b m)
    (hs : ∀ k, 1 ≤ k → k ≤ m → 0 ≤ (-1 : ℚ) ^ (m + k) * b k) :
    ∀ t, t + 1 ≤ m → 0 < (-1 : ℚ) ^ t * faulU m b t
  | 0, _ => by
    rw [faulU, pow_zero, one_mul]
    have : 0 < (m : ℚ) := by
      have : 0 < m := by omega
      exact_mod_cast this
    positivity
  | t + 1, h => by
    have ih := faulU_sign m b hb hs t (by omega)
    obtain ⟨k, hk⟩ : ∃ k, m - (t + 1) = k := ⟨_, rfl⟩
    have hk1 : 1 ≤ k := by omega
    have hsk := hs k hk1 (by omega)
    have hpar : (-1 : ℚ) ^ (m + k) = (-1 : ℚ) ^ (t + 1) := by
      have : m + k = (t + 1) + 2 * k := by omega
      rw [this, pow_add, pow_mul]
      norm_num
    rw [hpar] at hsk
    rw [faulU, hk]
    have hden : (0 : ℚ) < 2 * ((k : ℚ) + 1) * (2 * (k : ℚ) + 1) := by positivity
    rw [mul_div_assoc', lt_div_iff₀ hden, zero_mul]
    have hm : (0 : ℚ) ≤ (2 * (m : ℚ) + 1) * (2 * (m : ℚ)) := by positivity
    have hc : (0 : ℚ) < ((k : ℚ) + 2) * ((k : ℚ) + 1) := by positivity
    have e : (-1 : ℚ) ^ (t + 1) * ((2 * (m : ℚ) + 1) * (2 * (m : ℚ)) * b k
          - ((k : ℚ) + 2) * ((k : ℚ) + 1) * faulU m b t)
        = (2 * (m : ℚ) + 1) * (2 * (m : ℚ)) * ((-1 : ℚ) ^ (t + 1) * b k)
          + ((k : ℚ) + 2) * ((k : ℚ) + 1) * ((-1 : ℚ) ^ t * faulU m b t) := by
      rw [pow_succ]
      ring
    rw [e]
    have h1 := mul_nonneg hm hsk
    have h2 := mul_pos hc ih
    linarith

/-- The shape of Faulhaber's coefficients at the level `m ≥ 1`: alternating non-zero signs
from `N^m` down to `N^2`, nothing at `N^1` unless `m = 1`, nothing outside `1..m`. -/
theorem faulY_shape : ∀ m, 1 ≤ m →
    (∀ k, 2 ≤ k → k ≤ m → 0 < (-1 : ℚ) ^ (m + k) * faulY m k) ∧
    faulY m 1 = (if m = 1 then 1 else 0) ∧
    faulY m 0 = 0 ∧
    (∀ k, m < k → faulY m k = 0)
  | 0, h => by omega
  | 1, _ => by
    refine ⟨fun k h1 h2 => by omega, rfl, rfl, fun k hk => ?_⟩
    rw [faulY_one, if_neg (by omega)]
  | m + 2, _ => by
    obtain ⟨a, b, c, d⟩ := faulY_shape (m + 1) (by omega)
    have hb : 0 < faulY (m + 1) (m + 1) := by
      rcases Nat.eq_zero_or_pos m with h0 | h0
      · subst h0
        rw [b]
        simp
      · have := a (m + 1) (by omega) le_rfl
        have hp : (-1 : ℚ) ^ (m + 1 + (m + 1)) = 1 := by
          rw [← two_mul, pow_mul]
          norm_num
        rwa [hp, one_mul] at this
    have hs : ∀ k, 1 ≤ k → k ≤ m + 1 → 0 ≤ (-1 : ℚ) ^ (m + 1 + k) * faulY (m + 1) k := by
      intro k hk1 hk2
      rcases Nat.eq_or_lt_of_le hk1 with h1 | h1
      · subst h1
        rw [b]
        split_ifs with hm
        · have : m = 0 := by omega
          subst this
          norm_num
        · simp
      · exact le_of_lt (a k (by omega) hk2)
    have hsign := faulU_sign (m + 1) (faulY (m + 1)) hb hs
    refine ⟨fun k h1 h2 => ?_, ?_, ?_, fun k hk => ?_⟩
    · rw [faulY_succ_succ, if_pos ⟨h1, h2⟩]
      have hpar : (-1 : ℚ) ^ (m + 2 + k) = (-1 : ℚ) ^ (m + 2 - k) := by
        have : m + 2 + k = (m + 2 - k) + 2 * k := by omega
        rw [this, pow_add, pow_mul]
        norm_num
      rw [hpar]
      exact hsign (m + 2 - k) (by omega)
    · rw [faulY_succ_succ, if_neg (by omega), if_neg (by omega)]
    · rw [faulY_succ_succ, if_neg (by omega)]
    · rw [faulY_succ_succ, if_neg (by omega)]

/-- The recurrence between two consecutive levels of Faulhaber's coefficients. -/
theorem faulY_rec (m : ℕ) (hm : 1 ≤ m) (k : ℕ) (hk1 : 1 ≤ k) :
    2 * ((k : ℚ) + 1) * (2 * (k : ℚ) + 1) * faulY (m + 1) (k + 1)
      + ((k : ℚ) + 2) * ((k : ℚ) + 1) * faulY (m + 1) (k + 2)
      = (2 * (m : ℚ) + 1) * (2 * (m : ℚ)) * faulY m k := by
  obtain ⟨m', rfl⟩ : ∃ m', m = m' + 1 := ⟨m - 1, by omega⟩
  by_cases hk : k ≤ m' + 1
  · have h := faulU_rec (m' + 1) (faulY (m' + 1)) k hk1 hk
    rw [faulY_succ_succ, faulY_succ_succ, if_pos ⟨by omega, by omega⟩]
    have e1 : m' + 2 - (k + 1) = m' + 1 - k := by omega
    rw [e1]
    by_cases hk2 : k + 1 ≤ m' + 1
    · rw [if_pos hk2] at h
      rw [if_pos ⟨by omega, by omega⟩]
      have e2 : m' + 2 - (k + 2) = m' + 1 - k - 1 := by omega
      rw [e2]
      exact_mod_cast h
    · rw [if_neg hk2] at h
      rw [if_neg (by omega)]
      exact_mod_cast h
  · rw [faulY_succ_succ, faulY_succ_succ, if_neg (by omega), if_neg (by omega),
      (faulY_shape (m' + 1) (by omega)).2.2.2 k (by omega)]
    ring

theorem edwardsOdd_zero_left (e : ℕ) (he : 1 ≤ e) : edwardsOdd 0 e = 0 := by
  rw [edwardsOdd, if_neg (by omega)]

theorem edwardsOdd_eq_zero (k e : ℕ) (h : e < k) : edwardsOdd k e = 0 := by
  rw [edwardsOdd]
  split_ifs with h1
  · rw [Nat.choose_eq_zero_of_lt (by omega)]
    simp
  · rfl

theorem edwardsOdd_eq_zero_of_lt (k e : ℕ) (h : 2 * k < e) : edwardsOdd k e = 0 := by
  rw [edwardsOdd, if_neg (by omega)]

/-- Faulhaber's coefficients at the level `m` solve the triangular system read off the
odd-power identities: `∑ k, faulY m k * edwardsOdd k e` is `1` at `e = 2 m - 1` and `0` at
every other odd `e`. -/
theorem faulY_odd_system : ∀ m, 1 ≤ m → ∀ e, e % 2 = 1 →
    ∑ k in range (m + 1), faulY m k * edwardsOdd k e = if e + 1 = 2 * m then 1 else 0
  | 0, h, _, _ => by omega
  | 1, _, e, he => by
    rw [sum_range_succ, sum_range_succ, sum_range_zero, faulY_one, faulY_one]
    simp only [if_neg (show ¬ (0 = 1) by omega), if_true, zero_mul, zero_add, one_mul]
    by_cases h1 : e = 1
    · subst h1
      rw [edwardsOdd]
      simp
    · rw [edwardsOdd_eq_zero_of_lt 1 e (by omega), if_neg (by omega)]
  | m + 2, _, e, he => by
    obtain ⟨ha, ha1, ha0, hahi⟩ := faulY_shape (m + 2) (by omega)
    rw [if_neg (by omega)] at ha1
    rcases Nat.lt_or_ge e 2 with h2 | h2
    · have e1 : e = 1 := by omega
      subst e1
      rw [if_neg (by omega)]
      refine sum_eq_zero fun k _ => ?_
      rcases Nat.lt_or_ge k 2 with hk | hk
      · interval_cases k
        · rw [ha0, zero_mul]
        · rw [ha1, zero_mul]
      · rw [edwardsOdd_eq_zero k 1 (by omega), mul_zero]
    · obtain ⟨e, rfl⟩ : ∃ e', e = e' + 2 := ⟨e - 2, by omega⟩
      have he' : e % 2 = 1 := by omega
      have ih := faulY_odd_system (m + 1) (by omega) e he'
      have hrec := faulY_rec (m + 1) (by omega)
      have hne : ((e : ℚ) + 2) * ((e : ℚ) + 1) ≠ 0 := by positivity
      have key : (((e : ℚ) + 2) * ((e : ℚ) + 1)) *
            ∑ k in range (m + 2 + 1), faulY (m + 2) k * edwardsOdd k (e + 2)
          = (2 * ((m + 1 : ℕ) : ℚ) + 1) * (2 * ((m + 1 : ℕ) : ℚ)) *
            ∑ k in range (m + 1 + 1), faulY (m + 1) k * edwardsOdd k e := by
        rw [sum_range_succ', sum_range_succ', ha0, ha1, zero_mul, zero_mul, add_zero, add_zero]
        rw [mul_sum, mul_sum]
        have s1 : ∑ k in range (m + 1 + 1),
              (2 * ((m + 1 : ℕ) : ℚ) + 1) * (2 * ((m + 1 : ℕ) : ℚ)) * (faulY (m + 1) k * edwardsOdd k e)
            = ∑ k in range (m + 1 + 1),
                (2 * ((k : ℚ) + 1) * (2 * (k : ℚ) + 1) * faulY (m + 2) (k + 1) * edwardsOdd k e)
              + ∑ k in range (m + 1 + 1),
                (((k : ℚ) + 2) * ((k : ℚ) + 1) * faulY (m + 2) (k + 2) * edwardsOdd k e) := by
          rw [← sum_add_distrib]
          refine sum_congr rfl fun k _ => ?_
          rcases Nat.eq_zero_or_pos k with h0 | h0
          · subst h0
            rw [edwardsOdd_zero_left e (by omega)]
            ring
          · rw [← mul_assoc, ← hrec k h0]
            ring
        rw [s1]
        rw [sum_range_succ' (fun k => 2 * ((k : ℚ) + 1) * (2 * (k : ℚ) + 1)
              * faulY (m + 2) (k + 1) * edwardsOdd k e),
          edwardsOdd_zero_left e (by omega), mul_zero, add_zero]
        rw [sum_range_succ (fun k => ((k : ℚ) + 2) * ((k : ℚ) + 1)
              * faulY (m + 2) (k + 2) * edwardsOdd k e),
          hahi (m + 1 + 2) (by omega), mul_zero, zero_mul, add_zero]
        rw [← sum_add_distrib]
        refine sum_congr rfl fun k _ => ?_
        have h := edwardsOdd_rec k e
        push_cast
        rw [show faulY (m + 2) (k + 1 + 1) = faulY (m + 2) (k + 2) from rfl,
          show edwardsOdd (k + 1 + 1) (e + 2) = edwardsOdd (k + 2) (e + 2) from rfl]
        linear_combination (faulY (m + 2) (k + 2)) * h
      rw [ih] at key
      by_cases hem : e + 1 = 2 * (m + 1)
      · rw [if_pos hem, mul_one] at key
        rw [if_pos (by omega)]
        have hq : (e : ℚ) + 1 = 2 * ((m + 1 : ℕ) : ℚ) := by exact_mod_cast hem
        have hq2 : ((e : ℚ) + 2) * ((e : ℚ) + 1)
            = (2 * ((m + 1 : ℕ) : ℚ) + 1) * (2 * ((m + 1 : ℕ) : ℚ)) := by
          rw [← hq]
          ring
        rw [← hq2] at key
        exact mul_left_cancel₀ hne (by rw [key, mul_one])
      · rw [if_neg hem, mul_zero] at key
        rw [if_neg (by omega)]
        rcases mul_eq_zero.mp key with h | h
        · exact absurd h hne
        · exact h

/-- The even-power analogue: `k * faulY (m+1) k / (2 m + 1)` solves the triangular system
read off the even-power identities. -/
theorem faulY_even_system (m : ℕ) (e : ℕ) (he : e % 2 = 0) :
    ∑ k in range (m + 2), ((k : ℚ) * faulY (m + 1) k / (2 * (m : ℚ) + 1)) * edwardsEven k e
      = if e = 2 * m then 1 else 0 := by
  have hO := faulY_odd_system (m + 1) (by omega) (e + 1) (by omega)
  have hd : (2 * (m : ℚ) + 1) ≠ 0 := by positivity
  have : ∑ k in range (m + 2), ((k : ℚ) * faulY (m + 1) k / (2 * (m : ℚ) + 1)) * edwardsEven k e
      = (((e : ℚ) + 1) / (2 * (m : ℚ) + 1)) *
        ∑ k in range (m + 1 + 1), faulY (m + 1) k * edwardsOdd k (e + 1) := by
    rw [mul_sum]
    refine sum_congr rfl fun k _ => ?_
    have h := edwardsEven_eq k e
    field_simp
    linear_combination (faulY (m + 1) k) * h
  rw [this, hO]
  by_cases hem : e = 2 * m
  · rw [if_pos (by omega), if_pos hem, mul_one]
    have : (e : ℚ) = 2 * (m : ℚ) := by exact_mod_cast hem
    rw [this]
    exact div_self hd
  · rw [if_neg (by omega), if_neg hem, mul_zero]

theorem sum_parity_odd (g : ℕ → ℚ) : ∀ K : ℕ,
    ∑ e in range (2 * K), (1 - (-1 : ℚ) ^ e) * g e = 2 * ∑ j in range K, g (2 * j + 1)
  | 0 => by simp
  | K + 1 => by
    rw [show 2 * (K + 1) = 2 * K + 1 + 1 from by ring, sum_range_succ, sum_range_succ,
      sum_parity_odd g K, sum_range_succ]
    have h1 : (-1 : ℚ) ^ (2 * K) = 1 := by rw [pow_mul]; norm_num
    rw [pow_succ, h1]
    ring

theorem sum_parity_even (g : ℕ → ℚ) : ∀ K : ℕ,
    ∑ e in range (2 * K), (1 + (-1 : ℚ) ^ e) * g e = 2 * ∑ j in range K, g (2 * j)
  | 0 => by simp
  | K + 1 => by
    rw [show 2 * (K + 1) = 2 * K + 1 + 1 from by ring, sum_range_succ, sum_range_succ,
      sum_parity_even g K, sum_range_succ]
    have h1 : (-1 : ℚ) ^ (2 * K) = 1 := by rw [pow_mul]; norm_num
    rw [pow_succ, h1]
    ring

/-- Binomial expansion of `x^a * ((x+1)^k - (x-1)^k)` by powers of `x`. -/
theorem pow_diff_expand (k a : ℕ) (x : ℚ) :
    x ^ a * ((x + 1) ^ k - (x - 1) ^ k)
      = ∑ e in range (a + (k + 1)),
          (1 - (-1 : ℚ) ^ (a + k + e)) * (((k.choose (a + k - e) : ℕ) : ℚ) * x ^ e) := by
  rw [sum_range_add]
  have hz : ∑ e in range a,
      (1 - (-1 : ℚ) ^ (a + k + e)) * (((k.choose (a + k - e) : ℕ) : ℚ) * x ^ e) = 0 := by
    refine sum_eq_zero fun e he => ?_
    rw [mem_range] at he
    rw [Nat.choose_eq_zero_of_lt (by omega)]
    simp
  rw [hz, zero_add, sub_eq_add_neg x 1, add_pow, add_pow, ← sum_sub_distrib, mul_sum]
  refine sum_congr rfl fun i hi => ?_
  rw [mem_range] at hi
  have hc : k.choose (a + k - (a + i)) = k.choose i := by
    rw [show a + k - (a + i) = k - i from by omega]
    exact Nat.choose_symm (by omega)
  have hs : (-1 : ℚ) ^ (a + k + (a + i)) = (-1 : ℚ) ^ (k - i) := by
    rw [show a + k + (a + i) = (k - i) + 2 * (a + i) from by omega, pow_add, pow_mul]
    norm_num
  rw [hc, hs, one_pow, pow_add]
  ring

/-- Telescoping `N^k` along `n`, with `N = n (n + 1)`. -/
theorem sum_pow_telescope_odd (k : ℕ) (hk : 1 ≤ k) : ∀ n : ℕ,
    ((n : ℚ) * ((n : ℚ) + 1)) ^ k
      = ∑ i in range (n + 1), (i : ℚ) ^ k * (((i : ℚ) + 1) ^ k - ((i : ℚ) - 1) ^ k)
  | 0 => by
    rw [sum_range_one]
    simp [zero_pow (show k ≠ 0 by omega)]
  | n + 1 => by
    rw [sum_range_succ, ← sum_pow_telescope_odd k hk n]
    push_cast
    rw [mul_pow, mul_pow]
    ring

theorem sum_pow_telescope_even (k : ℕ) (hk : 1 ≤ k) : ∀ n : ℕ,
    (2 * (n : ℚ) + 1) * ((n : ℚ) * ((n : ℚ) + 1)) ^ k
      = ∑ i in range (n + 1),
          ((i : ℚ) ^ k * (((i : ℚ) + 1) ^ (k + 1) - ((i : ℚ) - 1) ^ (k + 1))
            + (i : ℚ) ^ (k + 1) * (((i : ℚ) + 1) ^ k - ((i : ℚ) - 1) ^ k))
  | 0 => by
    rw [sum_range_one]
    simp [zero_pow (show k ≠ 0 by omega)]
  | n + 1 => by
    rw [sum_range_succ, ← sum_pow_telescope_even k hk n]
    push_cast
    rw [mul_pow, mul_pow]
    ring

theorem pow_diff_odd (k K : ℕ) (hK : k < K) (x : ℚ) :
    x ^ k * ((x + 1) ^ k - (x - 1) ^ k)
      = 2 * ∑ j in range K, edwardsOdd k (2 * j + 1) * x ^ (2 * j + 1) := by
  rw [pow_diff_expand, ← sum_parity_odd (fun e => edwardsOdd k e * x ^ e) K]
  have hsub : range (k + (k + 1)) ⊆ range (2 * K) := by
    intro e he
    rw [mem_range] at he ⊢
    omega
  rw [← sum_subset hsub]
  · refine sum_congr rfl fun e he => ?_
    rw [mem_range] at he
    have hs : (-1 : ℚ) ^ (k + k + e) = (-1 : ℚ) ^ e := by
      rw [show k + k + e = e + 2 * k from by omega, pow_add, pow_mul]
      norm_num
    rw [hs, edwardsOdd, if_pos (by omega), show k + k - e = 2 * k - e from by omega]
  · intro e _ he
    rw [mem_range] at he
    rw [edwardsOdd_eq_zero_of_lt k e (by omega)]
    ring

theorem pow_diff_even (k K : ℕ) (hk : 1 ≤ k) (hK : k < K) (x : ℚ) :
    x ^ (k - 1) * ((x + 1) ^ k - (x - 1) ^ k) + x ^ k * ((x + 1) ^ (k - 1) - (x - 1) ^ (k - 1))
      = 2 * ∑ j in range K, edwardsEven k (2 * j) * x ^ (2 * j) := by
  obtain ⟨k, rfl⟩ : ∃ k', k = k' + 1 := ⟨k - 1, by omega⟩
  rw [Nat.add_sub_cancel, pow_diff_expand, pow_diff_expand,
    show k + 1 + (k + 1) = k + (k + 1 + 1) from by omega, ← sum_add_distrib,
    ← sum_parity_even (fun e => edwardsEven (k + 1) e * x ^ e) K]
  have hsub : range (k + (k + 1 + 1)) ⊆ range (2 * K) := by
    intro e he
    rw [mem_range] at he ⊢
    omega
  rw [← sum_subset hsub]
  · refine sum_congr rfl fun e he => ?_
    rw [mem_range] at he
    have hs : (-1 : ℚ) ^ (k + (k + 1) + e) = - (-1 : ℚ) ^ e := by
      rw [show k + (k + 1) + e = e + 1 + 2 * k from by omega, pow_add, pow_mul, pow_succ]
      norm_num
    have hs2 : (-1 : ℚ) ^ (k + 1 + k + e) = - (-1 : ℚ) ^ e := by
      rw [show k + 1 + k + e = k + (k + 1) + e from by omega, hs]
    rw [hs, hs2, edwardsEven, if_pos (by omega), Nat.add_sub_cancel,
      show k + (k + 1) - e = 2 * (k + 1) - 1 - e from by omega,
      show k + 1 + k - e = 2 * (k + 1) - 1 - e from by omega]
    ring
  · intro e _ he
    rw [mem_range] at he
    rw [edwardsEven, if_neg (by omega)]
    ring

/-- Edwards' odd identity: `N^k` is twice a combination of odd power sums. -/
theorem edwards_odd (k K : ℕ) (hk : 1 ≤ k) (hK : k < K) (n : ℕ) :
    ((n : ℚ) * ((n : ℚ) + 1)) ^ k
      = 2 * ∑ j in range K, edwardsOdd k (2 * j + 1) * ∑ i in range (n + 1), (i : ℚ) ^ (2 * j + 1) := by
  rw [sum_pow_telescope_odd k hk n]
  simp only [pow_diff_odd k K hK, mul_sum]
  rw [sum_comm]

/-- Edwards' even identity: `(2n+1) N^(k-1)` is twice a combination of even power sums. -/
theorem edwards_even (k K : ℕ) (hk : 2 ≤ k) (hK : k < K) (n : ℕ) :
    (2 * (n : ℚ) + 1) * ((n : ℚ) * ((n : ℚ) + 1)) ^ (k - 1)
      = 2 * ∑ j in range K, edwardsEven k (2 * j) * ∑ i in range (n + 1), (i : ℚ) ^ (2 * j) := by
  have h := sum_pow_telescope_even (k - 1) (by omega) n
  rw [show k - 1 + 1 = k from by omega] at h
  rw [h]
  simp only [pow_diff_even k K (by omega) hK, mul_sum]
  rw [sum_comm]

theorem sum_reflect_zero (g : ℕ → ℚ) (h0 : g 0 = 0) (n : ℕ) :
    ∑ s in range n, g (n - s) = ∑ k in range (n + 1), g k := by
  rw [sum_range_succ', h0, add_zero, ← sum_range_reflect (fun k => g (k + 1)) n]
  refine sum_congr rfl fun s hs => ?_
  rw [mem_range] at hs
  rw [show n - 1 - s + 1 = n - s from by omega]

theorem rowMatrix_odd_eq (nL k j : ℕ) (hj : j < nL) :
    ((rowMatrix true nL k j : ℤ) : ℚ) = edwardsOdd k (2 * nL - 1 - 2 * j) := by
  rw [rowMatrix, edwardsOdd]
  by_cases h : nL ≤ j + k
  · rw [if_pos h, if_pos (by omega), rowEntry, if_pos rfl,
      show 2 * k - (2 * nL - 1 - 2 * j) = 2 * (j + k - nL) + 1 from by omega]
    push_cast
    rfl
  · rw [if_neg h, if_neg (by omega)]
    simp

theorem rowMatrix_even_eq (nL k j : ℕ) (hj : j < nL) :
    ((rowMatrix false nL k j : ℤ) : ℚ) = edwardsEven k (2 * nL - 2 - 2 * j) := by
  rw [rowMatrix, edwardsEven]
  by_cases h : nL ≤ j + k
  · rw [if_pos h, if_pos (by omega), rowEntry, if_neg (by simp),
      show 2 * k - 1 - (2 * nL - 2 - 2 * j) = 2 * (j + k - nL) + 1 from by omega]
    push_cast
    rfl
  · rw [if_neg h, if_neg (by omega)]
    simp

theorem faulhaberLimit_odd (p : ℕ) (h : p % 2 = 1) : 2 * faulhaberLimit p = p + 1 := by
  rw [faulhaberLimit, if_pos h]
  omega

theorem faulhaberLimit_even (p : ℕ) (h : p % 2 = 0) : 2 * faulhaberLimit p = p + 2 := by
  rw [faulhaberLimit, if_neg (by omega)]
  omega

/-- Faulhaber's coefficients solve the system whose rows the program builds: combined with
the coefficients, the rows add up to the unit vector of the first column. -/
theorem faulhaberCoeff_system (p : ℕ) (hp : 1 ≤ p) (j : ℕ) (hj : j < faulhaberLimit p) :
    ∑ s in range (faulhaberLimit p), faulhaberCoeff p s *
        ((rowMatrix (decide (p % 2 = 1)) (faulhaberLimit p) (faulhaberLimit p - s) j : ℤ) : ℚ)
      = if j = 0 then 1 else 0 := by
  by_cases hodd : p % 2 = 1
  · have hL := faulhaberLimit_odd p hodd
    have hd : decide (p % 2 = 1) = true := decide_eq_true hodd
    simp only [faulhaberCoeff, if_pos hodd, hd, rowMatrix_odd_eq _ _ _ hj]
    rw [sum_reflect_zero (fun k => faulY (faulhaberLimit p) k
        * edwardsOdd k (2 * faulhaberLimit p - 1 - 2 * j))
        (by simp only [(faulY_shape (faulhaberLimit p) (by omega)).2.2.1, zero_mul]),
      faulY_odd_system _ (by omega) _ (by omega)]
    by_cases h0 : j = 0
    · rw [if_pos h0, if_pos (by omega)]
    · rw [if_neg h0, if_neg (by omega)]
  · have hL := faulhaberLimit_even p (by omega)
    obtain ⟨m, hm⟩ : ∃ m, faulhaberLimit p = m + 1 := ⟨faulhaberLimit p - 1, by omega⟩
    have hpm : (p : ℚ) + 1 = 2 * (m : ℚ) + 1 := by
      have : p = 2 * m := by omega
      rw [this]
      push_cast
      ring
    have hd : decide (p % 2 = 1) = false := decide_eq_false hodd
    simp only [faulhaberCoeff, if_neg hodd, hd, rowMatrix_even_eq _ _ _ hj]
    rw [sum_reflect_zero (fun k => (k : ℚ) * faulY (faulhaberLimit p) k / ((p : ℚ) + 1)
        * edwardsEven k (2 * faulhaberLimit p - 2 - 2 * j)) (by simp), hm, hpm,
      faulY_even_system m _ (by omega)]
    by_cases h0 : j = 0
    · rw [if_pos h0, if_pos (by omega)]
    · rw [if_neg h0, if_neg (by omega)]

theorem faulhaberLength_bounds (p : ℕ) (hp : 1 ≤ p) :
    1 ≤ faulhaberLength p ∧ faulhaberLength p ≤ faulhaberLimit p := by
  rw [faulhaberLength, faulhaberLimit]
  split_ifs <;> omega

/-- The leading `faulhaberLength p` coefficients are non-zero, the later ones are zero. -/
theorem faulhaberCoeff_eq_zero_iff (p : ℕ) (hp : 1 ≤ p) (s : ℕ) (hs : s < faulhaberLimit p) :
    faulhaberCoeff p s = 0 ↔ faulhaberLength p ≤ s := by
  have hLpos : 1 ≤ faulhaberLimit p := by
    rw [faulhaberLimit]
    split_ifs <;> omega
  obtain ⟨hsign, h1, h0, hhi⟩ := faulY_shape (faulhaberLimit p) hLpos
  have hk : 1 ≤ faulhaberLimit p - s := by omega
  have hY : faulY (faulhaberLimit p) (faulhaberLimit p - s) = 0 ↔ faulhaberLength p ≤ s := by
    rcases Nat.eq_or_lt_of_le hk with hk1 | hk2
    · rw [← hk1, h1, faulhaberLength]
      by_cases hL1 : faulhaberLimit p = 1
      · have hp1 : p = 1 := by
          rw [faulhaberLimit] at hL1
          split_ifs at hL1 <;> omega
        rw [if_pos hL1, if_pos hp1]
        constructor
        · intro h
          exact absurd h one_ne_zero
        · intro h
          omega
      · have hp1 : p ≠ 1 := by
          intro h
          subst h
          exact hL1 rfl
        rw [if_neg hL1, if_neg hp1]
        constructor
        · intro _
          omega
        · intro _
          trivial
    · have hpos := hsign (faulhaberLimit p - s) hk2 (by omega)
      have hne : faulY (faulhaberLimit p) (faulhaberLimit p - s) ≠ 0 := by
        intro h
        rw [h, mul_zero] at hpos
        exact lt_irrefl _ hpos
      have hlen : ¬ faulhaberLength p ≤ s := by
        rw [faulhaberLength]
        split_ifs with hp1
        · subst hp1
          have : faulhaberLimit 1 = 1 := rfl
          omega
        · omega
      exact ⟨fun h => absurd h hne, fun h => absurd h hlen⟩
  rw [faulhaberCoeff]
  split_ifs with hodd
  · exact hY
  · rw [← hY]
    have hkq : ((faulhaberLimit p - s : ℕ) : ℚ) ≠ 0 := by
      have : faulhaberLimit p - s ≠ 0 := by omega
      exact_mod_cast this
    have hpq : ((p : ℚ) + 1) ≠ 0 := by positivity
    rw [div_eq_zero_iff, mul_eq_zero]
    constructor
    · rintro ((h | h) | h)
      · exact absurd h hkq
      · exact h
      · exact absurd h hpq
    · intro h
      exact Or.inl (Or.inr h)

/-- Faulhaber's formula for an odd power, over all `nLimit` positions. -/
theorem faulhaberCoeff_formula_odd (p : ℕ) (hodd : p % 2 = 1) (n : ℕ) :
    ∑ s in range (faulhaberLimit p),
        faulhaberCoeff p s * ((n : ℚ) * ((n : ℚ) + 1)) ^ (faulhaberLimit p - s)
      = 2 * ∑ i in range (n + 1), (i : ℚ) ^ p := by
  have hL := faulhaberLimit_odd p hodd
  obtain ⟨hsign, h1, h0, hhi⟩ := faulY_shape (faulhaberLimit p) (by omega)
  simp only [faulhaberCoeff, if_pos hodd]
  rw [sum_reflect_zero (fun k => faulY (faulhaberLimit p) k * ((n : ℚ) * ((n : ℚ) + 1)) ^ k)
    (by simp only [h0, zero_mul])]
  have e1 : ∀ k ∈ range (faulhaberLimit p + 1),
      faulY (faulhaberLimit p) k * ((n : ℚ) * ((n : ℚ) + 1)) ^ k
        = ∑ j in range (faulhaberLimit p + 1), 2 * (faulY (faulhaberLimit p) k
            * edwardsOdd k (2 * j + 1)) * ∑ i in range (n + 1), (i : ℚ) ^ (2 * j + 1) := by
    intro k hk
    rw [mem_range] at hk
    rcases Nat.eq_zero_or_pos k with hk0 | hk0
    · subst hk0
      simp [h0]
    · rw [edwards_odd k (faulhaberLimit p + 1) hk0 hk n, mul_sum, mul_sum]
      refine sum_congr rfl fun j _ => ?_
      ring
  have e2 : ∀ j ∈ range (faulhaberLimit p + 1),
      ∑ k in range (faulhaberLimit p + 1), 2 * (faulY (faulhaberLimit p) k
          * edwardsOdd k (2 * j + 1)) * ∑ i in range (n + 1), (i : ℚ) ^ (2 * j + 1)
        = 2 * (if 2 * j + 1 + 1 = 2 * faulhaberLimit p then 1 else 0)
          * ∑ i in range (n + 1), (i : ℚ) ^ (2 * j + 1) := by
    intro j _
    rw [← sum_mul, ← mul_sum, faulY_odd_system _ (by omega) _ (by omega)]
  rw [sum_congr rfl e1, sum_comm, sum_congr rfl e2, sum_eq_single (faulhaberLimit p - 1)]
  · rw [if_pos (by omega), mul_one, show 2 * (faulhaberLimit p - 1) + 1 = p from by omega]
  · intro j _ hj
    rw [if_neg (by omega)]
    ring
  · intro h
    rw [mem_range] at h
    omega

/-- Faulhaber's formula for an even power `p ≥ 2`, over all `nLimit` positions. -/
theorem faulhaberCoeff_formula_even (p : ℕ) (hp : 1 ≤ p) (heven : p % 2 = 0) (n : ℕ) :
    (2 * (n : ℚ) + 1) * ∑ s in range (faulhaberLimit p),
        faulhaberCoeff p s * ((n : ℚ) * ((n : ℚ) + 1)) ^ (faulhaberLimit p - 1 - s)
      = 2 * ∑ i in range (n + 1), (i : ℚ) ^ p := by
  have hL := faulhaberLimit_even p heven
  obtain ⟨m, hm⟩ : ∃ m, faulhaberLimit p = m + 1 := ⟨faulhaberLimit p - 1, by omega⟩
  have hpm : (p : ℚ) + 1 = 2 * (m : ℚ) + 1 := by
    have : p = 2 * m := by omega
    rw [this]
    push_cast
    ring
  obtain ⟨hsign, h1, h0, hhi⟩ := faulY_shape (m + 1) (by omega)
  rw [if_neg (by omega)] at h1
  simp only [faulhaberCoeff, if_neg (show ¬ p % 2 = 1 by omega), hm, hpm]
  have e0 : ∀ s ∈ range (m + 1),
      ((m + 1 - s : ℕ) : ℚ) * faulY (m + 1) (m + 1 - s) / (2 * (m : ℚ) + 1)
          * ((n : ℚ) * ((n : ℚ) + 1)) ^ (m + 1 - 1 - s)
        = (fun (k : ℕ) => (k : ℚ) * faulY (m + 1) k / (2 * (m : ℚ) + 1)
          * ((n : ℚ) * ((n : ℚ) + 1)) ^ (k - 1)) (m + 1 - s) := by
    intro s hs
    rw [mem_range] at hs
    simp only [show m + 1 - 1 - s = m + 1 - s - 1 from by omega]
  rw [sum_congr rfl e0, sum_reflect_zero (fun (k : ℕ) => (k : ℚ) * faulY (m + 1) k
    / (2 * (m : ℚ) + 1) * ((n : ℚ) * ((n : ℚ) + 1)) ^ (k - 1)) (by simp), mul_sum]
  have e1 : ∀ k ∈ range (m + 1 + 1),
      (2 * (n : ℚ) + 1) * ((k : ℚ) * faulY (m + 1) k / (2 * (m : ℚ) + 1)
          * ((n : ℚ) * ((n : ℚ) + 1)) ^ (k - 1))
        = ∑ j in range (m + 1 + 1), 2 * ((k : ℚ) * faulY (m + 1) k / (2 * (m : ℚ) + 1)
            * edwardsEven k (2 * j)) * ∑ i in range (n + 1), (i : ℚ) ^ (2 * j) := by
    intro k hk
    rw [mem_range] at hk
    rcases Nat.lt_or_ge k 2 with hk2 | hk2
    · interval_cases k
      · simp
      · simp [h1]
    · have h := edwards_even k (m + 1 + 1) hk2 hk n
      rw [mul_comm (2 * (n : ℚ) + 1), mul_assoc, mul_comm _ (2 * (n : ℚ) + 1), h, mul_sum,
        mul_sum]
      refine sum_congr rfl fun j _ => ?_
      ring
  have e2 : ∀ j ∈ range (m + 1 + 1),
      ∑ k in range (m + 1 + 1), 2 * ((k : ℚ) * faulY (m + 1) k / (2 * (m : ℚ) + 1)
          * edwardsEven k (2 * j)) * ∑ i in range (n + 1), (i : ℚ) ^ (2 * j)
        = 2 * (if 2 * j = 2 * m then 1 else 0) * ∑ i in range (n + 1), (i : ℚ) ^ (2 * j) := by
    intro j _
    rw [← sum_mul, ← mul_sum, faulY_even_system m _ (by omega)]
  rw [sum_congr rfl e1, sum_comm, sum_congr rfl e2, sum_eq_single m]
  · rw [if_pos rfl, mul_one, show 2 * m = p from by omega]
  · intro j _ hj
    rw [if_neg (by omega)]
    ring
  · intro h
    rw [mem_range] at h
    omega

/-- The inner elimination loop rewrites exactly the entries `pivotIndex < j ≤ nLimit`. -/
theorem eliminateRow_spec (nL π : ℕ) (pivot : ℤ) (next F : List ℤ) (hπ : π ≤ nL) :
    (eliminateRow nL π pivot next F).length = F.length ∧
    ∀ j, (eliminateRow nL π pivot next F).getD j 0
      = if π < j ∧ j ≤ nL ∧ j < F.length
        then F.getD j 0 * next.getD π 0 - pivot * next.getD j 0 else F.getD j 0 := by
  have h := foldl_range'_inv
    (fun t (G : List ℤ) => G.length = F.length ∧ ∀ j, G.getD j 0
      = if π < j ∧ j < π + 1 + t ∧ j < F.length
        then F.getD j 0 * next.getD π 0 - pivot * next.getD j 0 else F.getD j 0)
    (fun firstRow j =>
      firstRow.set j (firstRow.getD j 0 * next.getD π 0 - pivot * next.getD j 0))
    F (π + 1) (nL - π)
    ⟨rfl, fun j => by rw [if_neg (by omega)]⟩
    (fun t G ht hG => by
      obtain ⟨hlen, hG⟩ := hG
      refine ⟨by rw [List.length_set, hlen], fun j => ?_⟩
      have hv : G.getD (π + 1 + t) 0 = F.getD (π + 1 + t) 0 := by
        rw [hG, if_neg (by omega)]
      rw [getD_set_eq, hv, hG j, hlen]
      by_cases hj : π + 1 + t = j
      · subst hj
        by_cases hl : π + 1 + t < F.length
        · rw [if_pos ⟨rfl, hl⟩, if_pos ⟨by omega, by omega, hl⟩]
        · rw [if_neg (fun h => hl h.2), if_neg (fun h => hl h.2.2), if_neg (fun h => hl h.2.2)]
      · rw [if_neg (fun h => hj h.1)]
        by_cases hc : π < j ∧ j < π + 1 + t ∧ j < F.length
        · rw [if_pos hc, if_pos ⟨hc.1, by omega, hc.2.2⟩]
        · rw [if_neg hc, if_neg (fun h => hc ⟨h.1, by omega, h.2.2⟩)])
  refine ⟨h.1, fun j => ?_⟩
  have h2 := h.2 j
  simp only [eliminateRow]
  rw [h2]
  by_cases hc : π < j ∧ j ≤ nL ∧ j < F.length
  · rw [if_pos hc, if_pos ⟨hc.1, by omega, hc.2.2⟩]
  · rw [if_neg hc, if_neg (fun h => hc ⟨h.1, by omega, h.2.2⟩)]

theorem faulhaberStep_stopped (oddPower : Bool) (nL : ℕ) (st : FaulhaberState) (i : ℕ)
    (h : st.stopped = true) : faulhaberStep oddPower nL st i = st := by
  simp only [faulhaberStep, h, if_true]

theorem faulhaberStep_zero (oddPower : Bool) (nL : ℕ) (st : FaulhaberState) (i : ℕ)
    (h : st.stopped = false) (hp : (st.firstRow.set nL 0).getD st.pivotIndex 0 = 0) :
    faulhaberStep oddPower nL st i
      = { st with firstRow := st.firstRow.set nL 0, stopped := true } := by
  simp only [faulhaberStep, h, hp, if_true]
  rfl

theorem faulhaberStep_next (oddPower : Bool) (nL : ℕ) (st : FaulhaberState) (i : ℕ)
    (h : st.stopped = false) (hp : (st.firstRow.set nL 0).getD st.pivotIndex 0 ≠ 0) :
    faulhaberStep oddPower nL st i
      = { firstRow := eliminateRow nL st.pivotIndex ((st.firstRow.set nL 0).getD st.pivotIndex 0)
            (createRow oddPower nL i).1 (st.firstRow.set nL 0),
          scaleBy := st.scaleBy * (createRow oddPower nL i).2,
          coeffs := st.coeffs ++
            [(((eliminateRow nL st.pivotIndex ((st.firstRow.set nL 0).getD st.pivotIndex 0)
                (createRow oddPower nL i).1 (st.firstRow.set nL 0)).getD nL 0 : ℤ) : ℚ)
              / ((st.scaleBy * (createRow oddPower nL i).2 : ℤ) : ℚ)],
          pivotIndex := st.pivotIndex + 1, stopped := false } := by
  simp only [faulhaberStep, h, hp, if_false]
  rfl

theorem rowMatrix_eq_zero (oddPower : Bool) (nL s j : ℕ) (hs : s ≤ nL) (h : j < s) :
    rowMatrix oddPower nL (nL - s) j = 0 := by
  rw [rowMatrix, if_neg (by omega)]

theorem rowMatrix_diag (oddPower : Bool) (nL j : ℕ) (hj : j ≤ nL) :
    rowMatrix oddPower nL (nL - j) j = rowEntry oddPower (nL - j) 0 := by
  rw [rowMatrix, if_pos (by omega), show j + (nL - j) - nL = 0 from by omega]

/-- The system of `faulhaberCoeff_system`, cut at the diagonal. -/
theorem faulhaberCoeff_partial (p : ℕ) (hp : 1 ≤ p) (j : ℕ) (hj : j < faulhaberLimit p) :
    ∑ s in range j, faulhaberCoeff p s *
        ((rowMatrix (decide (p % 2 = 1)) (faulhaberLimit p) (faulhaberLimit p - s) j : ℤ) : ℚ)
      + faulhaberCoeff p j
        * ((rowEntry (decide (p % 2 = 1)) (faulhaberLimit p - j) 0 : ℤ) : ℚ)
      = if j = 0 then 1 else 0 := by
  rw [← faulhaberCoeff_system p hp j hj, ← rowMatrix_diag _ _ _ (le_of_lt hj),
    ← sum_range_succ (fun s => faulhaberCoeff p s *
        ((rowMatrix (decide (p % 2 = 1)) (faulhaberLimit p) (faulhaberLimit p - s) j : ℤ) : ℚ))]
  refine sum_subset ?_ ?_
  · intro s hs
    rw [mem_range] at hs ⊢
    omega
  · intro s hs hns
    rw [mem_range] at hs hns
    rw [rowMatrix_eq_zero _ _ _ _ (le_of_lt hs) (by omega)]
    simp

theorem faulhaberLimit_pos (p : ℕ) : 1 ≤ faulhaberLimit p := by
  rw [faulhaberLimit]
  split_ifs <;> omega

/-- The state before the first pass satisfies the invariant. -/
theorem faulhaberInv_init (p : ℕ) (hp : 1 ≤ p) :
    FaulhaberInv p
      { firstRow := (createRow (decide (p % 2 = 1)) (faulhaberLimit p) (faulhaberLimit p)).1,
        scaleBy := (createRow (decide (p % 2 = 1)) (faulhaberLimit p) (faulhaberLimit p)).2,
        coeffs := [(((createRow (decide (p % 2 = 1)) (faulhaberLimit p)
            (faulhaberLimit p)).1.getD (faulhaberLimit p) 0 : ℤ) : ℚ)
          / (((createRow (decide (p % 2 = 1)) (faulhaberLimit p) (faulhaberLimit p)).2 : ℤ) : ℚ)],
        pivotIndex := 1, stopped := false } := by
  have hL := faulhaberLimit_pos p
  obtain ⟨rlen, rent, raug, rscale⟩ :=
    createRow_spec (decide (p % 2 = 1)) (faulhaberLimit p) (faulhaberLimit p) hL le_rfl
  have hd := (rowEntry_zero (decide (p % 2 = 1)) (faulhaberLimit p) hL).2
  have hdq : ((rowEntry (decide (p % 2 = 1)) (faulhaberLimit p) 0 : ℤ) : ℚ) ≠ 0 := by
    exact_mod_cast hd
  have hpart := faulhaberCoeff_partial p hp 0 (by omega)
  rw [sum_range_zero, zero_add, if_pos rfl, Nat.sub_zero] at hpart
  unfold FaulhaberInv
  refine ⟨rlen, by rw [rscale]; exact hd, rfl, le_rfl, (faulhaberLength_bounds p hp).1, ?_, ?_⟩
  · intro s hs
    have hs1 : s < 1 := hs
    have : s = 0 := by omega
    subst this
    show _ / _ = _
    rw [raug, rscale, div_eq_iff hdq, hpart]
    simp
  · intro j hj1 hj2
    show ((((createRow (decide (p % 2 = 1)) (faulhaberLimit p) (faulhaberLimit p)).1.getD j 0 : ℤ)) : ℚ)
      = (((createRow (decide (p % 2 = 1)) (faulhaberLimit p) (faulhaberLimit p)).2 : ℤ) : ℚ)
        * ∑ s in range 1, faulhaberCoeff p s *
          ((rowMatrix (decide (p % 2 = 1)) (faulhaberLimit p) (faulhaberLimit p - s) j : ℤ) : ℚ)
    rw [rent j hj2, rscale, sum_range_one, Nat.sub_zero]
    linear_combination (-(rowMatrix (decide (p % 2 = 1)) (faulhaberLimit p) (faulhaberLimit p) j : ℚ)) * hpart

/-- One pass of the elimination loop keeps the invariant; it stops exactly when Faulhaber's
next coefficient is zero, and otherwise appends that coefficient. -/
theorem faulhaberInv_step (p : ℕ) (hp : 1 ≤ p) (st : FaulhaberState) (t : ℕ)
    (ht : t < faulhaberLimit p - 1) (hinv : FaulhaberInv p st)
    (hns : st.stopped = false → st.pivotIndex = t + 1)
    (hs : st.stopped = true → st.pivotIndex = faulhaberLength p) :
    FaulhaberInv p (faulhaberStep (decide (p % 2 = 1)) (faulhaberLimit p) st
        (1 + (faulhaberLimit p - 1) - 1 - t)) ∧
    ((faulhaberStep (decide (p % 2 = 1)) (faulhaberLimit p) st
        (1 + (faulhaberLimit p - 1) - 1 - t)).stopped = false →
      (faulhaberStep (decide (p % 2 = 1)) (faulhaberLimit p) st
        (1 + (faulhaberLimit p - 1) - 1 - t)).pivotIndex = t + 1 + 1) ∧
    ((faulhaberStep (decide (p % 2 = 1)) (faulhaberLimit p) st
        (1 + (faulhaberLimit p - 1) - 1 - t)).stopped = true →
      (faulhaberStep (decide (p % 2 = 1)) (faulhaberLimit p) st
        (1 + (faulhaberLimit p - 1) - 1 - t)).pivotIndex = faulhaberLength p) := by
  cases hst : st.stopped with
  | true =>
    rw [faulhaberStep_stopped _ _ _ _ hst]
    exact ⟨hinv, fun h => by rw [hst] at h; exact absurd h (by decide), fun _ => hs hst⟩
  | false =>
    have hπ := hns hst
    obtain ⟨hlen, hD, hcl, hπ1, hπL, hco, hF⟩ := hinv
    have hπlt : st.pivotIndex < faulhaberLimit p := by omega
    have hi : 1 + (faulhaberLimit p - 1) - 1 - t = faulhaberLimit p - st.pivotIndex := by omega
    rw [hi]
    have hset : ∀ j, j < faulhaberLimit p →
        (st.firstRow.set (faulhaberLimit p) 0).getD j 0 = st.firstRow.getD j 0 := by
      intro j hj
      rw [getD_set_eq, if_neg (fun h => by omega)]
    have hsetL : (st.firstRow.set (faulhaberLimit p) 0).getD (faulhaberLimit p) 0 = 0 := by
      rw [getD_set_eq, if_pos ⟨rfl, by omega⟩]
    have hpart := faulhaberCoeff_partial p hp st.pivotIndex hπlt
    rw [if_neg (by omega)] at hpart
    have hd := (rowEntry_zero (decide (p % 2 = 1)) (faulhaberLimit p - st.pivotIndex)
      (by omega)).2
    have hdq : ((rowEntry (decide (p % 2 = 1)) (faulhaberLimit p - st.pivotIndex) 0 : ℤ) : ℚ)
        ≠ 0 := by exact_mod_cast hd
    have hDq : ((st.scaleBy : ℤ) : ℚ) ≠ 0 := by exact_mod_cast hD
    have hpiv : (((st.firstRow.set (faulhaberLimit p) 0).getD st.pivotIndex 0 : ℤ) : ℚ)
        = - ((st.scaleBy : ℤ) : ℚ) * faulhaberCoeff p st.pivotIndex
          * ((rowEntry (decide (p % 2 = 1)) (faulhaberLimit p - st.pivotIndex) 0 : ℤ) : ℚ) := by
      rw [hset _ hπlt, hF _ le_rfl hπlt]
      linear_combination ((st.scaleBy : ℤ) : ℚ) * hpart
    by_cases hp0 : (st.firstRow.set (faulhaberLimit p) 0).getD st.pivotIndex 0 = 0
    · rw [faulhaberStep_zero _ _ _ _ hst hp0]
      have hz : faulhaberCoeff p st.pivotIndex = 0 := by
        rw [hp0, Int.cast_zero] at hpiv
        rcases mul_eq_zero.mp hpiv.symm with h | h
        · rcases mul_eq_zero.mp h with h | h
          · exact absurd (neg_eq_zero.mp h) hDq
          · exact h
        · exact absurd h hdq
      have hge := (faulhaberCoeff_eq_zero_iff p hp _ hπlt).mp hz
      refine ⟨⟨?_, hD, hcl, hπ1, hπL, hco, ?_⟩, ?_, ?_⟩
      · show (st.firstRow.set (faulhaberLimit p) 0).length = _
        rw [List.length_set, hlen]
      · intro j hj1 hj2
        show (((st.firstRow.set (faulhaberLimit p) 0).getD j 0 : ℤ) : ℚ) = _
        rw [hset j hj2]
        exact hF j hj1 hj2
      · intro h
        exact Bool.noConfusion h
      · intro _
        show st.pivotIndex = _
        omega
    · rw [faulhaberStep_next _ _ _ _ hst hp0]
      have hnz : faulhaberCoeff p st.pivotIndex ≠ 0 := by
        intro h
        rw [h, mul_zero, zero_mul] at hpiv
        exact hp0 (by exact_mod_cast hpiv)
      have hlt : st.pivotIndex < faulhaberLength p := by
        by_contra hc
        exact hnz ((faulhaberCoeff_eq_zero_iff p hp _ hπlt).mpr (by omega))
      obtain ⟨rlen, rent, raug, rscale⟩ :=
        createRow_spec (decide (p % 2 = 1)) (faulhaberLimit p)
          (faulhaberLimit p - st.pivotIndex) (by omega) (by omega)
      obtain ⟨elen, eent⟩ := eliminateRow_spec (faulhaberLimit p) st.pivotIndex
        ((st.firstRow.set (faulhaberLimit p) 0).getD st.pivotIndex 0)
        (createRow (decide (p % 2 = 1)) (faulhaberLimit p) (faulhaberLimit p - st.pivotIndex)).1
        (st.firstRow.set (faulhaberLimit p) 0) (le_of_lt hπlt)
      have hnp : (createRow (decide (p % 2 = 1)) (faulhaberLimit p)
            (faulhaberLimit p - st.pivotIndex)).1.getD st.pivotIndex 0
          = rowEntry (decide (p % 2 = 1)) (faulhaberLimit p - st.pivotIndex) 0 := by
        rw [rent _ hπlt, rowMatrix_diag _ _ _ (le_of_lt hπlt)]
      have hsl : (st.firstRow.set (faulhaberLimit p) 0).length = faulhaberLimit p + 1 := by
        rw [List.length_set, hlen]
      refine ⟨⟨?_, ?_, ?_, ?_, ?_, ?_, ?_⟩, ?_, ?_⟩
      · show (eliminateRow _ _ _ _ _).length = _
        rw [elen, hsl]
      · show st.scaleBy * _ ≠ 0
        rw [rscale]
        exact mul_ne_zero hD hd
      · show (st.coeffs ++ [_]).length = st.pivotIndex + 1
        rw [List.length_append, hcl]
        rfl
      · show 1 ≤ st.pivotIndex + 1
        omega
      · show st.pivotIndex + 1 ≤ _
        omega
      · intro s hs
        have hs : s < st.pivotIndex + 1 := hs
        show (st.coeffs ++ [_]).getD s 0 = _
        rcases Nat.lt_or_ge s st.pivotIndex with h1 | h1
        · rw [List.getD_append _ _ _ _ (by omega)]
          exact hco s h1
        · have hse : s = st.pivotIndex := by omega
          subst hse
          rw [List.getD_append_right _ _ _ _ (by omega), hcl, Nat.sub_self]
          show _ / _ = _
          rw [eent, if_pos ⟨hπlt, le_rfl, by omega⟩, hsetL, raug, rscale]
          have hden : (((st.scaleBy * rowEntry (decide (p % 2 = 1))
              (faulhaberLimit p - st.pivotIndex) 0 : ℤ)) : ℚ) ≠ 0 := by
            push_cast
            exact mul_ne_zero hDq hdq
          rw [div_eq_iff hden]
          push_cast
          linear_combination (-1 : ℚ) * hpiv
      · intro j hj1 hj2
        have hj1 : st.pivotIndex + 1 ≤ j := hj1
        show (((eliminateRow _ _ _ _ _).getD j 0 : ℤ) : ℚ)
          = ((st.scaleBy * _ : ℤ) : ℚ) * ∑ s in range (st.pivotIndex + 1), _
        rw [eent, if_pos ⟨by omega, by omega, by omega⟩, hset j hj2, hnp, rent j hj2, rscale,
          sum_range_succ]
        push_cast
        rw [hF j (by omega) hj2, hpiv]
        ring
      · intro _
        show st.pivotIndex + 1 = _
        omega
      · intro h
        exact Bool.noConfusion h

/-- The elimination of `getFaulhaberCoefficients` finds Faulhaber's coefficients: it stops
with `faulhaberLength p` of them, each equal to `faulhaberCoeff p`. -/
theorem faulhaberRun_spec (p : ℕ) (hp : 1 ≤ p) :
    (faulhaberRun p).pivotIndex = faulhaberLength p ∧
    (faulhaberRun p).coeffs.length = faulhaberLength p ∧
    ∀ s, s < faulhaberLength p → (faulhaberRun p).coeffs.getD s 0 = faulhaberCoeff p s := by
  have hL := faulhaberLimit_pos p
  have h : FaulhaberInv p (faulhaberRun p) ∧
      ((faulhaberRun p).stopped = false → (faulhaberRun p).pivotIndex = faulhaberLimit p - 1 + 1) ∧
      ((faulhaberRun p).stopped = true → (faulhaberRun p).pivotIndex = faulhaberLength p) :=
    foldl_range'_reverse_inv
      (fun t (st : FaulhaberState) => FaulhaberInv p st ∧
        (st.stopped = false → st.pivotIndex = t + 1) ∧
        (st.stopped = true → st.pivotIndex = faulhaberLength p))
      (faulhaberStep (decide (p % 2 = 1)) (faulhaberLimit p))
      _ 1 (faulhaberLimit p - 1)
      ⟨faulhaberInv_init p hp, fun _ => rfl, fun h => Bool.noConfusion h⟩
      (fun t st ht hP => faulhaberInv_step p hp st t ht hP.1 hP.2.1 hP.2.2)
  obtain ⟨⟨hlen, hD, hcl, hπ1, hπL, hco, hF⟩, hns, hs⟩ := h
  have hb := (faulhaberLength_bounds p hp).2
  have hπ : (faulhaberRun p).pivotIndex = faulhaberLength p := by
    cases hst : (faulhaberRun p).stopped with
    | true => exact hs hst
    | false =>
      have := hns hst
      omega
  refine ⟨hπ, by rw [hcl, hπ], fun s hs2 => hco s (by rw [hπ]; exact hs2)⟩

/-- For `p ≥ 1`, `getFaulhaberCoefficients p` is the list of the `faulhaberLength p` leading
coefficients of Faulhaber's formula. -/
theorem getFaulhaberCoefficients_spec (p : ℕ) (hp : 1 ≤ p) :
    (getFaulhaberCoefficients (p : ℤ)).length = faulhaberLength p ∧
    ∀ s, s < faulhaberLength p →
      (getFaulhaberCoefficients (p : ℤ)).getD s 0 = faulhaberCoeff p s := by
  obtain ⟨h1, h2, h3⟩ := faulhaberRun_spec p hp
  have hg : ¬ ((p : ℤ) < 0) := by omega
  have he : getFaulhaberCoefficients (p : ℤ) = (faulhaberRun p).coeffs := by
    simp only [getFaulhaberCoefficients, hg, if_false, Int.toNat_ofNat]
    rw [h1, ← h2, List.take_length]
  rw [he]
  exact ⟨h2, h3⟩

/-- A sum weighted by the returned coefficients equals the sum weighted by all of Faulhaber's
coefficients: the ones that are not returned are zero. -/
theorem getFaulhaberCoefficients_sum (p : ℕ) (hp : 1 ≤ p) (g : ℕ → ℚ) :
    ∑ i in range (getFaulhaberCoefficients (p : ℤ)).length,
        (getFaulhaberCoefficients (p : ℤ)).getD i 0 * g i
      = ∑ s in range (faulhaberLimit p), faulhaberCoeff p s * g s := by
  obtain ⟨hlen, hent⟩ := getFaulhaberCoefficients_spec p hp
  rw [hlen]
  have e : ∀ i ∈ range (faulhaberLength p),
      (getFaulhaberCoefficients (p : ℤ)).getD i 0 * g i = faulhaberCoeff p i * g i := by
    intro i hi
    rw [mem_range] at hi
    rw [hent i hi]
  rw [sum_congr rfl e]
  refine sum_subset ?_ ?_
  · intro s hs
    rw [mem_range] at hs ⊢
    exact lt_of_lt_of_le hs (faulhaberLength_bounds p hp).2
  · intro s hs hns
    rw [mem_range] at hs hns
    rw [(faulhaberCoeff_eq_zero_iff p hp s hs).mpr (by omega), zero_mul]

/-! ## The claim on Faulhaber's formula -/

/-- C18: for every `p ≥ 1` and `n ≥ 0`, with `c = getFaulhaberCoefficients(p)` of length `L`,
`N = n (n + 1)`, `m = (p + 1) / 2` and `P = ∑ i < L, c[i] * N^(m - i)`: twice the power sum
`0^p + 1^p + .. + n^p` is `P` when `p` is odd and `(2n + 1) * P` when `p` is even. -/
theorem C18_faulhaber_formula (power n : ℤ) (hp : 1 ≤ power) (hn : 0 ≤ n) :
    (power % 2 = 1 →
      2 * ∑ k in range (n.toNat + 1), (k : ℚ) ^ power.toNat
        = ∑ i in range (getFaulhaberCoefficients power).length,
            (getFaulhaberCoefficients power).getD i 0
              * ((n : ℚ) * ((n : ℚ) + 1)) ^ (((power + 1) / 2).toNat - i)) ∧
    (power % 2 = 0 →
      2 * ∑ k in range (n.toNat + 1), (k : ℚ) ^ power.toNat
        = (2 * (n : ℚ) + 1) * ∑ i in range (getFaulhaberCoefficients power).length,
            (getFaulhaberCoefficients power).getD i 0
              * ((n : ℚ) * ((n : ℚ) + 1)) ^ (((power + 1) / 2).toNat - i)) := by
  lift power to ℕ using (by omega : 0 ≤ power)
  lift n to ℕ using hn
  have hp1 : 1 ≤ power := by omega
  simp only [Int.toNat_ofNat, Int.cast_natCast]
  rw [getFaulhaberCoefficients_sum power hp1
    (fun i => ((n : ℚ) * ((n : ℚ) + 1)) ^ ((((power : ℤ) + 1) / 2).toNat - i))]
  constructor
  · intro hodd
    have hodd2 : power % 2 = 1 := by omega
    have hm : (((power : ℤ) + 1) / 2).toNat = faulhaberLimit power := by
      have := faulhaberLimit_odd power hodd2
      omega
    rw [hm]
    exact (faulhaberCoeff_formula_odd power hodd2 n).symm
  · intro heven
    have heven2 : power % 2 = 0 := by omega
    have hm : (((power : ℤ) + 1) / 2).toNat = faulhaberLimit power - 1 := by
      have := faulhaberLimit_even power heven2
      omega
    rw [hm]
    exact (faulhaberCoeff_formula_even power hp1 heven2 n).symm

/-- C18 at `p = 4`, `n = 3`. -/
theorem C18_faulhaber_formula_witness :
    (1 : ℤ) ≤ 4 ∧ (0 : ℤ) ≤ 3 ∧
    ((4 : ℤ) % 2 = 1 →
      2 * ∑ k in range ((3 : ℤ).toNat + 1), (k : ℚ) ^ (4 : ℤ).toNat
        = ∑ i in range (getFaulhaberCoefficients 4).length,
            (getFaulhaberCoefficients 4).getD i 0
              * (((3 : ℤ) : ℚ) * (((3 : ℤ) : ℚ) + 1)) ^ ((((4 : ℤ) + 1) / 2).toNat - i)) ∧
    ((4 : ℤ) % 2 = 0 →
      2 * ∑ k in range ((3 : ℤ).toNat + 1), (k : ℚ) ^ (4 : ℤ).toNat
        = (2 * ((3 : ℤ) : ℚ) + 1) * ∑ i in range (getFaulhaberCoefficients 4).length,
            (getFaulhaberCoefficients 4).getD i 0
              * (((3 : ℤ) : ℚ) * (((3 : ℤ) : ℚ) + 1)) ^ ((((4 : ℤ) + 1) / 2).toNat - i)) :=
  ⟨by decide, by decide, C18_faulhaber_formula 4 3 (by decide) (by decide)⟩

/-- The inner loop of `_getStirlingCoefficients` writes the entries `1..T` only. -/
theorem stirling_inner_frame (T : ℕ) (st : List ℤ × ℤ) (j : ℕ) (hj : T < j) :
    ((List.range' 1 T).foldl stirlingTermStep st).1.getD j 0 = st.1.getD j 0 :=
  foldl_range'_inv
    (fun t (s : List ℤ × ℤ) => t ≤ T → s.1.getD j 0 = st.1.getD j 0)
    stirlingTermStep st 1 T (fun _ => rfl)
    (fun t s ht hs _ => by
      simp only [stirlingTermStep]
      rw [getD_set_eq, if_neg (fun h => by omega)]
      exact hs (by omega))
    le_rfl

/-- Entries of index above the truncation `M` are never written by the truncated Stirling
generator: they keep the `0` they were initialised with. -/
theorem getStirlingCoefficients_tail (p M j : ℕ) (hp : 1 ≤ p) (hj : M < j) :
    (_getStirlingCoefficients (p : ℤ) ((M : ℤ) + 1)).getD j 0 = 0 := by
  have hg : ¬ ((p : ℤ) < 0) := by omega
  have hp' : (p : ℤ) > 0 := by omega
  simp only [_getStirlingCoefficients, hg, if_false, hp', if_true, Int.toNat_ofNat,
    add_sub_cancel_right]
  exact foldl_range'_inv
    (fun t (s : List ℤ × ℤ) => s.1.getD j 0 = 0)
    (stirlingRowStep (M : ℤ)) (List.replicate (p + 1) (0 : ℤ), (1 : ℤ)) 1 p
    (getD_replicate_zero _ _)
    (fun t s ht hs => by
      have hT : ∀ c : ℕ, (if (c : ℤ) > (M : ℤ) then (M : ℤ) else (c : ℤ)).toNat = min c M := by
        intro c
        split_ifs with h
        · rw [Int.toNat_ofNat]; omega
        · rw [Int.toNat_ofNat]; omega
      simp only [stirlingRowStep, hT]
      rw [stirling_inner_frame _ _ _ (by omega)]
      exact hs)

/-! ## The claims on truncation, symmetry and the Faulhaber rows -/

/-- C21: for every `p ≥ 1`, `n ≥ 0` and `j ≤ min(p, n)`, entry `j` of the truncated
`_getStirlingCoefficients(p, n + 1)` is `S(p, j)`, the value of the untruncated
`getStirlingCoefficients(p)` at `j`; the truncated array still has `p + 1` entries, and every
entry of index `n < j ≤ p` is `0`. -/
theorem C21_stirling_truncation (power n : ℤ) (hp : 1 ≤ power) (hn : 0 ≤ n) :
    (∀ j : ℕ, (j : ℤ) ≤ min power n →
      (_getStirlingCoefficients power (n + 1)).getD j 0 = stirling2 power.toNat j ∧
      (((_getStirlingCoefficients power (n + 1)).getD j 0 : ℤ) : ℚ)
        = (getStirlingCoefficients power).getD j 0) ∧
    (_getStirlingCoefficients power (n + 1)).length = power.toNat + 1 ∧
    (∀ j : ℕ, n < (j : ℤ) → (j : ℤ) ≤ power →
      (_getStirlingCoefficients power (n + 1))[j]? = some 0) := by
  lift power to ℕ using (by omega : 0 ≤ power)
  lift n to ℕ using hn
  have hp1 : 1 ≤ power := by omega
  have hlen := getStirlingCoefficients_length power n
  simp only [Int.toNat_ofNat]
  refine ⟨fun j hj => ?_, hlen, fun j h1 h2 => ?_⟩
  · have hjn : j ≤ n := by
      have := le_trans hj (min_le_right _ _)
      omega
    have hjp : j ≤ power := by
      have := le_trans hj (min_le_left _ _)
      omega
    refine ⟨getStirlingCoefficients_getD power n j hjn, ?_⟩
    rw [getStirlingCoefficients, getD_map_intCast, getStirlingCoefficients_getD power n j hjn,
      getStirlingCoefficients_getD power power j hjp]
  · have hj : j < (_getStirlingCoefficients (power : ℤ) ((n : ℤ) + 1)).length := by
      rw [hlen]
      omega
    have h := getStirlingCoefficients_tail power n j hp1 (by omega)
    rw [List.getD_eq_getElem?_getD, List.getElem?_eq_getElem hj] at h
    rw [List.getElem?_eq_getElem hj]
    simpa using h

/-- C21 at `p = 5`, `n = 2`: the entries `3, 4, 5` stay zero. -/
theorem C21_stirling_truncation_witness :
    (1 : ℤ) ≤ 5 ∧ (0 : ℤ) ≤ 2 ∧
    (∀ j : ℕ, (j : ℤ) ≤ min (5 : ℤ) 2 →
      (_getStirlingCoefficients 5 (2 + 1)).getD j 0 = stirling2 (5 : ℤ).toNat j ∧
      (((_getStirlingCoefficients 5 (2 + 1)).getD j 0 : ℤ) : ℚ)
        = (getStirlingCoefficients 5).getD j 0) ∧
    (_getStirlingCoefficients 5 (2 + 1)).length = (5 : ℤ).toNat + 1 ∧
    (∀ j : ℕ, (2 : ℤ) < (j : ℤ) → (j : ℤ) ≤ 5 →
      (_getStirlingCoefficients 5 (2 + 1))[j]? = some 0) :=
  ⟨by decide, by decide, C21_stirling_truncation 5 2 (by decide) (by decide)⟩

/-- C22: for every `p ≥ 0`, `n ≥ 0` and every index `j` with `max(0, p - n) ≤ j ≤ p` (the
indices the evaluator reads), entry `j` of the truncated `_getEulerCoefficients(p, n)` is
entry `j` of the untruncated `_getEulerCoefficients(p, p)`, namely `E(p, j)`. -/
theorem C22_euler_truncation (power n : ℤ) (hp : 0 ≤ power) (hn : 0 ≤ n) (j : ℕ)
    (hlo : max 0 (power - n) ≤ (j : ℤ)) (hhi : (j : ℤ) ≤ power) :
    (_getEulerCoefficients power n).getD j 0 = (_getEulerCoefficients power power).getD j 0 ∧
    (_getEulerCoefficients power n).getD j 0 = euler1 power.toNat j ∧
    (_getEulerCoefficients power n).length = power.toNat + 1 := by
  lift power to ℕ using hp
  lift n to ℕ using hn
  have hj : j ≤ power := by omega
  have hjn : power ≤ j + n + 1 := by
    have := le_trans (le_max_right 0 ((power : ℤ) - (n : ℤ))) hlo
    omega
  obtain ⟨hlen, h1⟩ := getEulerCoefficients_spec power n
  obtain ⟨_, h2⟩ := getEulerCoefficients_spec power power
  rw [h1 j hj (Or.inr hjn), h2 j hj (Or.inl hj)]
  exact ⟨rfl, rfl, hlen⟩

/-- C22 at `p = 6`, `n = 1`, `j = 5`: the truncated row keeps stale entries in the middle, but
entry `5` is `E(6, 5) = 1`. -/
theorem C22_euler_truncation_witness :
    (0 : ℤ) ≤ 6 ∧ (0 : ℤ) ≤ 1 ∧ max 0 ((6 : ℤ) - 1) ≤ ((5 : ℕ) : ℤ) ∧ ((5 : ℕ) : ℤ) ≤ 6 ∧
    ((_getEulerCoefficients 6 1).getD 5 0 = (_getEulerCoefficients 6 6).getD 5 0 ∧
     (_getEulerCoefficients 6 1).getD 5 0 = euler1 (6 : ℤ).toNat 5 ∧
     (_getEulerCoefficients 6 1).length = (6 : ℤ).toNat + 1) :=
  ⟨by decide, by decide, by decide, by decide,
    C22_euler_truncation 6 1 (by decide) (by decide) 5 (by decide) (by decide)⟩

/-- C23: for every `p ≥ 0` and `maxN ≥ 0`, with `m = ceil(p / 2)`,
`_getCentralFactorialCoefficients(p, maxN)` returns exactly `min(m, maxN) + 1` coefficients,
and each returned entry `k` is entry `k` of the untruncated sequence, `T(2m, 2k)`. -/
theorem C23_central_truncation (power maxN : ℤ) (hp : 0 ≤ power) (hn : 0 ≤ maxN) :
    ((_getCentralFactorialCoefficients power maxN).length : ℤ)
      = min ((power + 1) / 2) maxN + 1 ∧
    (∀ k : ℕ, (k : ℤ) ≤ min ((power + 1) / 2) maxN →
      (_getCentralFactorialCoefficients power maxN).getD k 0
        = (_getCentralFactorialCoefficients power power).getD k 0 ∧
      (((_getCentralFactorialCoefficients power maxN).getD k 0 : ℤ) : ℚ)
        = (getCentralFactorialCoefficients power).getD k 0 ∧
      (_getCentralFactorialCoefficients power maxN).getD k 0
        = centralT ((power + 1) / 2).toNat k) := by
  lift power to ℕ using hp
  lift maxN to ℕ using hn
  obtain ⟨hlen, h1⟩ := getCentralFactorialCoefficients_spec power maxN
  obtain ⟨_, h2⟩ := getCentralFactorialCoefficients_spec power power
  have hm : (((power : ℤ) + 1) / 2).toNat = power / 2 + power % 2 := by omega
  have hmin : min (((power : ℤ) + 1) / 2) (maxN : ℤ)
      = ((min (power / 2 + power % 2) maxN : ℕ) : ℤ) := by
    rw [Nat.cast_min]
    congr 1
    omega
  rw [hmin, hlen, hm]
  refine ⟨by push_cast; rfl, fun k hk => ?_⟩
  have hk1 : k ≤ min (power / 2 + power % 2) maxN := by exact_mod_cast hk
  have hk2 : k ≤ min (power / 2 + power % 2) power := by
    have := le_trans hk1 (min_le_left _ _)
    exact le_min this (by omega)
  rw [getCentralFactorialCoefficients, getD_map_intCast, h1 k hk1, h2 k hk2]
  exact ⟨rfl, rfl, rfl⟩

/-- C23 at `p = 7`, `maxN = 2`: three coefficients instead of five. -/
theorem C23_central_truncation_witness :
    (0 : ℤ) ≤ 7 ∧ (0 : ℤ) ≤ 2 ∧
    ((_getCentralFactorialCoefficients 7 2).length : ℤ) = min (((7 : ℤ) + 1) / 2) 2 + 1 ∧
    (∀ k : ℕ, (k : ℤ) ≤ min (((7 : ℤ) + 1) / 2) 2 →
      (_getCentralFactorialCoefficients 7 2).getD k 0
        = (_getCentralFactorialCoefficients 7 7).getD k 0 ∧
      (((_getCentralFactorialCoefficients 7 2).getD k 0 : ℤ) : ℚ)
        = (getCentralFactorialCoefficients 7).getD k 0 ∧
      (_getCentralFactorialCoefficients 7 2).getD k 0
        = centralT (((7 : ℤ) + 1) / 2).toNat k) :=
  ⟨by decide, by decide, C23_central_truncation 7 2 (by decide) (by decide)⟩

/-- C24: for every `p ≥ 1` the Euler coefficient sequence is palindromic over its first `p`
entries: `getEulerCoefficients(p)[j] = getEulerCoefficients(p)[p - 1 - j]` for `j ≤ p - 1`,
and both are the value `E(p, j)` of the recurrence. -/
theorem C24_euler_palindrome (power : ℤ) (hp : 1 ≤ power) (j : ℕ) (hj : (j : ℤ) ≤ power - 1) :
    (getEulerCoefficients power).getD j 0
      = (getEulerCoefficients power).getD (power.toNat - 1 - j) 0 ∧
    (getEulerCoefficients power).getD (power.toNat - 1 - j) 0
      = ((euler1 power.toNat (power.toNat - 1 - j) : ℤ) : ℚ) ∧
    euler1 power.toNat j = euler1 power.toNat (power.toNat - 1 - j) := by
  lift power to ℕ using (by omega : 0 ≤ power)
  simp only [Int.toNat_ofNat]
  have hj1 : j + 1 ≤ power := by omega
  obtain ⟨_, h⟩ := getEulerCoefficients_spec power power
  have hs := euler1_symm power j (power - 1 - j) (by omega)
  rw [getEulerCoefficients, getD_map_intCast, getD_map_intCast, h j (by omega) (Or.inl (by omega)),
    h (power - 1 - j) (by omega) (Or.inl (by omega)), hs]
  exact ⟨rfl, rfl, rfl⟩

/-- C24 at `p = 5`, `j = 1`: `E(5, 1) = E(5, 3) = 26`. -/
theorem C24_euler_palindrome_witness :
    (1 : ℤ) ≤ 5 ∧ ((1 : ℕ) : ℤ) ≤ (5 : ℤ) - 1 ∧
    ((getEulerCoefficients 5).getD 1 0
      = (getEulerCoefficients 5).getD ((5 : ℤ).toNat - 1 - 1) 0 ∧
    (getEulerCoefficients 5).getD ((5 : ℤ).toNat - 1 - 1) 0
      = ((euler1 (5 : ℤ).toNat ((5 : ℤ).toNat - 1 - 1) : ℤ) : ℚ) ∧
    euler1 (5 : ℤ).toNat 1 = euler1 (5 : ℤ).toNat ((5 : ℤ).toNat - 1 - 1)) :=
  ⟨by decide, by decide, C24_euler_palindrome 5 (by decide) 1 (by decide)⟩

/-- The loop invariant holds when the elimination ends, with `faulhaberLength p` pivots. -/
theorem faulhaberRun_inv (p : ℕ) (hp : 1 ≤ p) :
    FaulhaberInv p (faulhaberRun p) ∧ (faulhaberRun p).pivotIndex = faulhaberLength p := by
  have hL := faulhaberLimit_pos p
  have h : FaulhaberInv p (faulhaberRun p) ∧
      ((faulhaberRun p).stopped = false → (faulhaberRun p).pivotIndex = faulhaberLimit p - 1 + 1) ∧
      ((faulhaberRun p).stopped = true → (faulhaberRun p).pivotIndex = faulhaberLength p) :=
    foldl_range'_reverse_inv
      (fun t (st : FaulhaberState) => FaulhaberInv p st ∧
        (st.stopped = false → st.pivotIndex = t + 1) ∧
        (st.stopped = true → st.pivotIndex = faulhaberLength p))
      (faulhaberStep (decide (p % 2 = 1)) (faulhaberLimit p))
      _ 1 (faulhaberLimit p - 1)
      ⟨faulhaberInv_init p hp, fun _ => rfl, fun h => Bool.noConfusion h⟩
      (fun t st ht hP => faulhaberInv_step p hp st t ht hP.1 hP.2.1 hP.2.2)
  obtain ⟨hinv, hns, hs⟩ := h
  refine ⟨hinv, ?_⟩
  obtain ⟨hlen, hD, hcl, hπ1, hπL, hco, hF⟩ := hinv
  have hb := (faulhaberLength_bounds p hp).2
  cases hst : (faulhaberRun p).stopped with
  | true => exact hs hst
  | false =>
    have := hns hst
    omega

/-- When the elimination ends, the matrix part of the accumulated row is zero from the
column `pivotIndex` on. -/
theorem faulhaberRun_tail_zero (p : ℕ) (hp : 1 ≤ p) (j : ℕ)
    (h1 : (faulhaberRun p).pivotIndex ≤ j) (h2 : j < faulhaberLimit p) :
    (faulhaberRun p).firstRow.getD j 0 = 0 := by
  obtain ⟨⟨hlen, hD, hcl, hπ1, hπL, hco, hF⟩, hπ⟩ := faulhaberRun_inv p hp
  have hsys := faulhaberCoeff_system p hp j h2
  rw [if_neg (by omega)] at hsys
  have hsub : ∑ s in range (faulhaberRun p).pivotIndex, faulhaberCoeff p s *
        ((rowMatrix (decide (p % 2 = 1)) (faulhaberLimit p) (faulhaberLimit p - s) j : ℤ) : ℚ)
      = ∑ s in range (faulhaberLimit p), faulhaberCoeff p s *
        ((rowMatrix (decide (p % 2 = 1)) (faulhaberLimit p) (faulhaberLimit p - s) j : ℤ) : ℚ) := by
    refine sum_subset ?_ ?_
    · intro s hs
      rw [mem_range] at hs ⊢
      omega
    · intro s hs hns
      rw [mem_range] at hs hns
      rw [(faulhaberCoeff_eq_zero_iff p hp s hs).mpr (by omega), zero_mul]
  have hq := hF j h1 h2
  rw [hsub, hsys, mul_zero] at hq
  exact_mod_cast hq

/-- When the loop has no pass (`p ≤ 1`, `nLimit = 1`) it cannot stop on a zero pivot; when
it stops, the pivot is in the last matrix column. -/
theorem faulhaberRun_stopped (p : ℕ) (hs : (faulhaberRun p).stopped = true) :
    2 ≤ p ∧ (faulhaberRun p).pivotIndex + 1 = faulhaberLimit p := by
  have h0 : (faulhaberRun 0).stopped = false := rfl
  have h1 : (faulhaberRun 1).stopped = false := rfl
  have hp2 : 2 ≤ p := by
    rcases Nat.lt_or_ge p 2 with h | h
    · interval_cases p
      · rw [h0] at hs
        exact Bool.noConfusion hs
      · rw [h1] at hs
        exact Bool.noConfusion hs
    · exact h
  refine ⟨hp2, ?_⟩
  rw [(faulhaberRun_inv p (by omega)).2, faulhaberLength, if_neg (by omega), faulhaberLimit]
  split_ifs <;> omega

/-- C25: for every `p ≥ 0`, when the elimination loop of `getFaulhaberCoefficients` stops on
a zero pivot at `pivotIndex = k`, every remaining matrix column of the accumulated first row
is zero: `firstRow[j] = 0` for `k ≤ j < nLimit`, and the coefficient of Faulhaber's formula
at each of these positions is zero. The stop is always in the last column `k = nLimit - 1`. -/
theorem C25_zero_pivot_tail (power : ℤ) (hp : 0 ≤ power)
    (hs : (faulhaberRun power.toNat).stopped = true) :
    (faulhaberRun power.toNat).pivotIndex + 1 = faulhaberLimit power.toNat ∧
    (faulhaberRun power.toNat).firstRow.length = faulhaberLimit power.toNat + 1 ∧
    ∀ j, (faulhaberRun power.toNat).pivotIndex ≤ j → j < faulhaberLimit power.toNat →
      (faulhaberRun power.toNat).firstRow.getD j 0 = 0 ∧
      faulhaberCoeff power.toNat j = 0 := by
  lift power to ℕ using hp
  simp only [Int.toNat_ofNat] at hs ⊢
  obtain ⟨hp2, hπ⟩ := faulhaberRun_stopped power hs
  obtain ⟨hinv, hπL⟩ := faulhaberRun_inv power (by omega)
  refine ⟨hπ, hinv.1, fun j h1 h2 => ⟨faulhaberRun_tail_zero power (by omega) j h1 h2, ?_⟩⟩
  exact (faulhaberCoeff_eq_zero_iff power (by omega) j h2).mpr (by omega)

/-- C25 at `p = 7`: the loop stops at `pivotIndex = 3` of `nLimit = 4` columns. -/
theorem C25_zero_pivot_tail_witness :
    (0 : ℤ) ≤ 7 ∧ (faulhaberRun (7 : ℤ).toNat).stopped = true ∧
    ((faulhaberRun (7 : ℤ).toNat).pivotIndex + 1 = faulhaberLimit (7 : ℤ).toNat ∧
    (faulhaberRun (7 : ℤ).toNat).firstRow.length = faulhaberLimit (7 : ℤ).toNat + 1 ∧
    ∀ j, (faulhaberRun (7 : ℤ).toNat).pivotIndex ≤ j → j < faulhaberLimit (7 : ℤ).toNat →
      (faulhaberRun (7 : ℤ).toNat).firstRow.getD j 0 = 0 ∧
      faulhaberCoeff (7 : ℤ).toNat j = 0) :=
  ⟨by decide, by decide!, C25_zero_pivot_tail 7 (by decide) (by decide!)⟩

/-- The loop of `nCr` carries `num = n - t` after `t` passes, so its pass for `i` multiplies
by `n - i + 1`. -/
theorem nCr_loop_iter (n : ℕ) : ∀ T : ℕ,
    (List.range' 2 T).foldl nCrStep ((n : ℤ), (n : ℤ))
      = ((n : ℤ) - (T : ℤ),
         (List.range' 2 T).foldl
           (fun (result : ℤ) (i : ℕ) => result * ((n : ℤ) - (i : ℤ) + 1) / (i : ℤ)) (n : ℤ))
  | 0 => by simp
  | T + 1 => by
    rw [List.range'_concat, List.foldl_append, List.foldl_append, nCr_loop_iter n T]
    simp only [List.foldl_cons, List.foldl_nil, nCrStep, one_mul]
    refine Prod.ext ?_ ?_
    · show (n : ℤ) - (T : ℤ) - 1 = (n : ℤ) - ((T + 1 : ℕ) : ℤ)
      push_cast
      ring
    · show _ * ((n : ℤ) - (T : ℤ) - 1) / ((2 + T : ℕ) : ℤ)
        = _ * ((n : ℤ) - ((2 + T : ℕ) : ℤ) + 1) / ((2 + T : ℕ) : ℤ)
      congr 2
      push_cast
      ring

/-- The symmetry step of `nCr` replaces `r` by `min(r, n - r)`. -/
theorem nCr_symmetry_min (n r : ℕ) (h : r ≤ n) :
    (if r > n / 2 then n - r else r) = min r (n - r) := by
  split_ifs with h1
  · rw [min_eq_right (by omega)]
  · rw [min_eq_left (by omega)]

/-- C26: for all `0 ≤ r ≤ n`, every division in the loop of `nCr` is exact. The loop runs
for `i = 2..min(r, n - r)`; before the pass for `i` the state is `num = n - i + 2`,
`result = C(n, i - 1)`, the product `result * (n - i + 1)` is divisible by `i`, and after the
pass `result = C(n, i)`. -/
theorem C26_nCr_exact (n r i : ℕ) (hr : r ≤ n) (hi2 : 2 ≤ i) (hi : i ≤ min r (n - r)) :
    (if r > n / 2 then n - r else r) = min r (n - r) ∧
    ((List.range' 2 (i - 2)).foldl nCrStep ((n : ℤ), (n : ℤ))).1 - 1
      = (n : ℤ) - (i : ℤ) + 1 ∧
    ((List.range' 2 (i - 2)).foldl nCrStep ((n : ℤ), (n : ℤ))).2
      = ((n.choose (i - 1) : ℕ) : ℤ) ∧
    (i : ℤ) ∣ ((List.range' 2 (i - 2)).foldl nCrStep ((n : ℤ), (n : ℤ))).2
      * (((List.range' 2 (i - 2)).foldl nCrStep ((n : ℤ), (n : ℤ))).1 - 1) ∧
    (nCrStep ((List.range' 2 (i - 2)).foldl nCrStep ((n : ℤ), (n : ℤ))) i).2
      = ((n.choose i : ℕ) : ℤ) := by
  have hir : i ≤ r := le_trans hi (min_le_left _ _)
  have hin : i ≤ n - r := le_trans hi (min_le_right _ _)
  have hloop := nCr_loop n (i - 2) (by omega)
  rw [show i - 2 + 1 = i - 1 from by omega] at hloop
  have hch := Nat.choose_succ_right_eq n (i - 1)
  rw [show i - 1 + 1 = i from by omega] at hch
  have hprod : ((n.choose (i - 1) : ℕ) : ℤ) * ((n : ℤ) - ((i - 2 : ℕ) : ℤ) - 1)
      = ((n.choose i : ℕ) : ℤ) * (i : ℤ) := by
    have h1 : ((n - (i - 1) : ℕ) : ℤ) = (n : ℤ) - ((i - 2 : ℕ) : ℤ) - 1 := by omega
    rw [← h1]
    exact_mod_cast hch.symm
  refine ⟨nCr_symmetry_min n r hr, ?_, ?_, ?_, ?_⟩
  · rw [hloop]
    show (n : ℤ) - ((i - 2 : ℕ) : ℤ) - 1 = _
    omega
  · rw [hloop]
  · rw [hloop]
    show (i : ℤ) ∣ ((n.choose (i - 1) : ℕ) : ℤ) * ((n : ℤ) - ((i - 2 : ℕ) : ℤ) - 1)
    rw [hprod]
    exact dvd_mul_left _ _
  · rw [hloop]
    show ((n.choose (i - 1) : ℕ) : ℤ) * ((n : ℤ) - ((i - 2 : ℕ) : ℤ) - 1) / (i : ℤ) = _
    rw [hprod]
    exact Int.mul_ediv_cancel _ (by omega)

/-- C26 at `n = 10`, `r = 4`, `i = 3`: `C(10, 2) * 8 = 360` is divisible by `3`. -/
theorem C26_nCr_exact_witness :
    4 ≤ 10 ∧ 2 ≤ 3 ∧ 3 ≤ min 4 (10 - 4) ∧
    ((if 4 > 10 / 2 then 10 - 4 else 4) = min 4 (10 - 4) ∧
    ((List.range' 2 (3 - 2)).foldl nCrStep (((10 : ℕ) : ℤ), ((10 : ℕ) : ℤ))).1 - 1
      = ((10 : ℕ) : ℤ) - ((3 : ℕ) : ℤ) + 1 ∧
    ((List.range' 2 (3 - 2)).foldl nCrStep (((10 : ℕ) : ℤ), ((10 : ℕ) : ℤ))).2
      = (((10 : ℕ).choose (3 - 1) : ℕ) : ℤ) ∧
    ((3 : ℕ) : ℤ) ∣ ((List.range' 2 (3 - 2)).foldl nCrStep (((10 : ℕ) : ℤ), ((10 : ℕ) : ℤ))).2
      * (((List.range' 2 (3 - 2)).foldl nCrStep (((10 : ℕ) : ℤ), ((10 : ℕ) : ℤ))).1 - 1) ∧
    (nCrStep ((List.range' 2 (3 - 2)).foldl nCrStep (((10 : ℕ) : ℤ), ((10 : ℕ) : ℤ))) 3).2
      = (((10 : ℕ).choose 3 : ℕ) : ℤ)) :=
  ⟨by decide, by decide, by decide, C26_nCr_exact 10 4 3 (by decide) (by decide) (by decide)⟩

/-- C27 (as stated, refuted): at `n = 4`, `r = 2` the iteration `result = result * (n - i) / i`
from `result = n` gives `4 * 2 / 2 = 4`, while `nCr(4, 2) = 6`. -/
theorem C27_nCr_spec_iteration_counterexample :
    2 ≤ 2 ∧ 2 ≤ 4 / 2 ∧ nCr 4 2 = 6 ∧ nCrIterSpec 0 4 2 = 4 ∧ nCr 4 2 ≠ nCrIterSpec 0 4 2 := by
  decide

/-- C27 (amended): for all `2 ≤ r ≤ n / 2`, `nCr(n, r)` is the value obtained by starting
from `result = n` and applying `result = result * (n - i + 1) / i` for `i = 2..r` (the loop
decrements `num` before it multiplies); this value is `C(n, r)`. -/
theorem C27_nCr_iteration (n r : ℕ) (hr2 : 2 ≤ r) (hr : r ≤ n / 2) :
    nCr n r = nCrIterSpec 1 n r ∧ nCrIterSpec 1 n r = ((n.choose r : ℕ) : ℤ) := by
  have h1 : nCr n r = nCrIterSpec 1 n r := by
    have hn : ¬ r > n := by omega
    have hh : ¬ r > n / 2 := by omega
    have h0 : ¬ r = 0 := by omega
    simp only [nCr, hn, hh, h0, if_false, nCr_loop_iter, nCrIterSpec]
  exact ⟨h1, by rw [← h1, nCr_eq_choose]⟩

/-- C27 (amended) at `n = 4`, `r = 2`. -/
theorem C27_nCr_iteration_witness :
    2 ≤ 2 ∧ 2 ≤ 4 / 2 ∧ nCr 4 2 = nCrIterSpec 1 4 2 ∧
    nCrIterSpec 1 4 2 = (((4 : ℕ).choose 2 : ℕ) : ℤ) :=
  ⟨by decide, by decide, C27_nCr_iteration 4 2 (by decide) (by decide)⟩

/-- The first `t` values of the loop variable of the row builders. -/
theorem rowLoopIndices_take (k t : ℕ) (h : t ≤ k) :
    (rowLoopIndices k).take t = (List.range t).map (fun t => 2 * k - 1 - 2 * t) := by
  rw [rowLoopIndices, ← List.map_take, List.take_range, min_eq_left h]

/-- The state of `createRowForOddPower` before its pass number `t`: the carried `ncr` is `0`
or `C(rowNum, i + 2)` for the coming loop variable `i`. -/
theorem oddRow_state (k t : ℕ) (ht : t < k) :
    (((rowLoopIndices k).take t).foldl (oddRowStep k) (([] : List ℤ), (0 : ℤ))).2
      = if t = 0 then 0 else ((k.choose (2 * k - 1 - 2 * t + 2) : ℕ) : ℤ) := by
  rw [rowLoopIndices_take k t (le_of_lt ht), List.foldl_map, oddRow_loop k t (le_of_lt ht)]
  show (if t = 0 then (0 : ℤ) else _) = _
  split_ifs
  · rfl
  · rw [show 2 * k + 1 - 2 * t = 2 * k - 1 - 2 * t + 2 from by omega]

/-- The state of `createRowForEvenPower` before its pass number `t`. -/
theorem evenRow_state (k t : ℕ) (ht : t < k) :
    (((rowLoopIndices k).take t).foldl (evenRowStep k)
        (([] : List ℤ), (0 : ℤ), (0 : ℤ))).2
      = (if t = 0 then 0 else ((k.choose (2 * k - 1 - 2 * t + 2) : ℕ) : ℤ),
         if t = 0 then 0 else (((k - 1).choose (2 * k - 1 - 2 * t + 2) : ℕ) : ℤ)) := by
  rw [rowLoopIndices_take k t (le_of_lt ht), List.foldl_map, evenRow_loop k t (le_of_lt ht)]
  show ((if t = 0 then (0 : ℤ) else _), (if t = 0 then (0 : ℤ) else _)) = _
  split_ifs
  · rfl
  · rw [show 2 * k + 1 - 2 * t = 2 * k - 1 - 2 * t + 2 from by omega]

/-- A non-zero binomial `C(top, i + 2)` keeps the divisor `(top - i - 1) (top - i)` of the
incremental update away from zero. -/
theorem ncrUpdate_divisor_ne_zero (top i : ℕ) (c : ℤ)
    (hc : c = 0 ∨ c = ((top.choose (i + 2) : ℕ) : ℤ)) (hne : c ≠ 0) :
    ((top : ℤ) - (i : ℤ) - 1) * ((top : ℤ) - (i : ℤ)) ≠ 0 := by
  rcases hc with h | h
  · exact absurd h hne
  · have hle : i + 2 ≤ top := by
      by_contra hlt
      rw [Nat.choose_eq_zero_of_lt (by omega)] at h
      exact hne (by simpa using h)
    have h1 : (top : ℤ) - (i : ℤ) - 1 ≠ 0 := by omega
    have h2 : (top : ℤ) - (i : ℤ) ≠ 0 := by omega
    exact mul_ne_zero h1 h2

/-- C28: for `1 ≤ rowNum ≤ nLimit`, `createRowForOddPower(nLimit, rowNum)` gives a row of
`nLimit + 1` entries: `0` at every `j < nLimit - rowNum`, `C(rowNum, 2t + 1)` (the value of a
direct `nCr`) at `nLimit - rowNum + t` for `t < rowNum`, and `1` last; `scaleBy` is the first
non-zero entry, the one at `nLimit - rowNum`, which is `rowNum`; and whenever a pass takes the
incremental update, its divisor `(rowNum - i - 1) (rowNum - i)` is not zero. -/
theorem C28_odd_row (nLimit rowNum : ℕ) (h1 : 1 ≤ rowNum) (h2 : rowNum ≤ nLimit) :
    (createRowForOddPower nLimit rowNum).1.length = nLimit + 1 ∧
    (∀ j, j < nLimit - rowNum → (createRowForOddPower nLimit rowNum).1.getD j 0 = 0) ∧
    (∀ t, t < rowNum →
      (createRowForOddPower nLimit rowNum).1.getD (nLimit - rowNum + t) 0
        = ((rowNum.choose (2 * t + 1) : ℕ) : ℤ) ∧
      (createRowForOddPower nLimit rowNum).1.getD (nLimit - rowNum + t) 0
        = nCr rowNum (2 * t + 1)) ∧
    (createRowForOddPower nLimit rowNum).1.getD nLimit 0 = 1 ∧
    (createRowForOddPower nLimit rowNum).2 = (rowNum : ℤ) ∧
    (createRowForOddPower nLimit rowNum).1.getD (nLimit - rowNum) 0
      = (createRowForOddPower nLimit rowNum).2 ∧
    (createRowForOddPower nLimit rowNum).2 ≠ 0 ∧
    (∀ t, t < rowNum → 2 * rowNum - 1 - 2 * t ≤ rowNum →
      (((rowLoopIndices rowNum).take t).foldl (oddRowStep rowNum)
        (([] : List ℤ), (0 : ℤ))).2 ≠ 0 →
      ((rowNum : ℤ) - ((2 * rowNum - 1 - 2 * t : ℕ) : ℤ) - 1)
        * ((rowNum : ℤ) - ((2 * rowNum - 1 - 2 * t : ℕ) : ℤ)) ≠ 0) := by
  obtain ⟨hlen, hent, haug, hsc⟩ := createRow_spec true nLimit rowNum h1 h2
  have hcr : createRow true nLimit rowNum = createRowForOddPower nLimit rowNum := rfl
  rw [hcr] at hlen hent haug hsc
  have hlead := rowEntry_zero true rowNum h1
  have hval : ∀ t, t < rowNum →
      (createRowForOddPower nLimit rowNum).1.getD (nLimit - rowNum + t) 0
        = ((rowNum.choose (2 * t + 1) : ℕ) : ℤ) := by
    intro t ht
    rw [hent _ (by omega), rowMatrix, if_pos (by omega), rowEntry, if_pos rfl,
      show nLimit - rowNum + t + rowNum - nLimit = t from by omega]
  have hsc2 : (createRowForOddPower nLimit rowNum).2 = (rowNum : ℤ) := by
    rw [hsc, hlead.1, if_pos rfl]
  refine ⟨hlen, fun j hj => ?_, fun t ht => ⟨hval t ht, ?_⟩, haug, hsc2, ?_, ?_, ?_⟩
  · rw [hent _ (by omega), rowMatrix, if_neg (by omega)]
  · rw [hval t ht, nCr_eq_choose]
  · have := hval 0 h1
    rw [Nat.add_zero] at this
    rw [this, hsc2]
    simp
  · rw [hsc]
    exact hlead.2
  · intro t ht _ hne
    rw [oddRow_state rowNum t ht] at hne
    refine ncrUpdate_divisor_ne_zero rowNum (2 * rowNum - 1 - 2 * t) _ ?_ hne
    split_ifs
    · exact Or.inl rfl
    · exact Or.inr rfl

/-- C28 at `nLimit = 5`, `rowNum = 3`: the row `0, 0, 3, 1, 0, 1` with `scaleBy = 3`. -/
theorem C28_odd_row_witness :
    1 ≤ 3 ∧ 3 ≤ 5 ∧
    ((createRowForOddPower 5 3).1.length = 5 + 1 ∧
    (∀ j, j < 5 - 3 → (createRowForOddPower 5 3).1.getD j 0 = 0) ∧
    (∀ t, t < 3 →
      (createRowForOddPower 5 3).1.getD (5 - 3 + t) 0 = (((3 : ℕ).choose (2 * t + 1) : ℕ) : ℤ) ∧
      (createRowForOddPower 5 3).1.getD (5 - 3 + t) 0 = nCr 3 (2 * t + 1)) ∧
    (createRowForOddPower 5 3).1.getD 5 0 = 1 ∧
    (createRowForOddPower 5 3).2 = ((3 : ℕ) : ℤ) ∧
    (createRowForOddPower 5 3).1.getD (5 - 3) 0 = (createRowForOddPower 5 3).2 ∧
    (createRowForOddPower 5 3).2 ≠ 0 ∧
    (∀ t, t < 3 → 2 * 3 - 1 - 2 * t ≤ 3 →
      (((rowLoopIndices 3).take t).foldl (oddRowStep 3) (([] : List ℤ), (0 : ℤ))).2 ≠ 0 →
      (((3 : ℕ) : ℤ) - ((2 * 3 - 1 - 2 * t : ℕ) : ℤ) - 1)
        * (((3 : ℕ) : ℤ) - ((2 * 3 - 1 - 2 * t : ℕ) : ℤ)) ≠ 0)) :=
  ⟨by decide, by decide, C28_odd_row 5 3 (by decide) (by decide)⟩

/-- C29: for `1 ≤ rowNum ≤ nLimit`, `createRowForEvenPower(nLimit, rowNum)` gives a row of
`nLimit + 1` entries: `0` at every `j < nLimit - rowNum`,
`C(rowNum, 2t + 1) + C(rowNum - 1, 2t + 1)` (the values of direct `nCr` calls) at
`nLimit - rowNum + t` for `t < rowNum`, and `1` last; `scaleBy` is the first non-zero entry,
the one at `nLimit - rowNum`, which is `2 rowNum - 1`; and whenever a pass takes one of the
two incremental updates, its divisor is not zero. -/
theorem C29_even_row (nLimit rowNum : ℕ) (h1 : 1 ≤ rowNum) (h2 : rowNum ≤ nLimit) :
    (createRowForEvenPower nLimit rowNum).1.length = nLimit + 1 ∧
    (∀ j, j < nLimit - rowNum → (createRowForEvenPower nLimit rowNum).1.getD j 0 = 0) ∧
    (∀ t, t < rowNum →
      (createRowForEvenPower nLimit rowNum).1.getD (nLimit - rowNum + t) 0
        = ((rowNum.choose (2 * t + 1) : ℕ) : ℤ) + (((rowNum - 1).choose (2 * t + 1) : ℕ) : ℤ) ∧
      (createRowForEvenPower nLimit rowNum).1.getD (nLimit - rowNum + t) 0
        = nCr rowNum (2 * t + 1) + nCr (rowNum - 1) (2 * t + 1)) ∧
    (createRowForEvenPower nLimit rowNum).1.getD nLimit 0 = 1 ∧
    (createRowForEvenPower nLimit rowNum).2 = 2 * (rowNum : ℤ) - 1 ∧
    (createRowForEvenPower nLimit rowNum).1.getD (nLimit - rowNum) 0
      = (createRowForEvenPower nLimit rowNum).2 ∧
    (createRowForEvenPower nLimit rowNum).2 ≠ 0 ∧
    (∀ t, t < rowNum → 2 * rowNum - 1 - 2 * t ≤ rowNum →
      ((((rowLoopIndices rowNum).take t).foldl (evenRowStep rowNum)
          (([] : List ℤ), (0 : ℤ), (0 : ℤ))).2.1 ≠ 0 →
        ((rowNum : ℤ) - ((2 * rowNum - 1 - 2 * t : ℕ) : ℤ) - 1)
          * ((rowNum : ℤ) - ((2 * rowNum - 1 - 2 * t : ℕ) : ℤ)) ≠ 0) ∧
      ((((rowLoopIndices rowNum).take t).foldl (evenRowStep rowNum)
          (([] : List ℤ), (0 : ℤ), (0 : ℤ))).2.2 ≠ 0 →
        (((rowNum : ℤ) - 1) - ((2 * rowNum - 1 - 2 * t : ℕ) : ℤ) - 1)
          * (((rowNum : ℤ) - 1) - ((2 * rowNum - 1 - 2 * t : ℕ) : ℤ)) ≠ 0)) := by
  obtain ⟨hlen, hent, haug, hsc⟩ := createRow_spec false nLimit rowNum h1 h2
  have hcr : createRow false nLimit rowNum = createRowForEvenPower nLimit rowNum := rfl
  rw [hcr] at hlen hent haug hsc
  have hlead := rowEntry_zero false rowNum h1
  have hval : ∀ t, t < rowNum →
      (createRowForEvenPower nLimit rowNum).1.getD (nLimit - rowNum + t) 0
        = ((rowNum.choose (2 * t + 1) : ℕ) : ℤ)
          + (((rowNum - 1).choose (2 * t + 1) : ℕ) : ℤ) := by
    intro t ht
    rw [hent _ (by omega), rowMatrix, if_pos (by omega), rowEntry, if_neg (by simp),
      show nLimit - rowNum + t + rowNum - nLimit = t from by omega]
  have hsc2 : (createRowForEvenPower nLimit rowNum).2 = 2 * (rowNum : ℤ) - 1 := by
    rw [hsc, hlead.1, if_neg (by simp)]
  refine ⟨hlen, fun j hj => ?_, fun t ht => ⟨hval t ht, ?_⟩, haug, hsc2, ?_, ?_, ?_⟩
  · rw [hent _ (by omega), rowMatrix, if_neg (by omega)]
  · rw [hval t ht, nCr_eq_choose, nCr_eq_choose]
  · have := hval 0 h1
    rw [Nat.add_zero] at this
    rw [this, hsc, rowEntry, if_neg (by simp)]
  · rw [hsc]
    exact hlead.2
  · intro t ht _
    rw [evenRow_state rowNum t ht]
    constructor
    · intro hne
      refine ncrUpdate_divisor_ne_zero rowNum (2 * rowNum - 1 - 2 * t) _ ?_ hne
      show (if t = 0 then (0 : ℤ) else _) = 0 ∨ (if t = 0 then (0 : ℤ) else _) = _
      split_ifs
      · exact Or.inl rfl
      · exact Or.inr rfl
    · intro hne
      have h := ncrUpdate_divisor_ne_zero (rowNum - 1) (2 * rowNum - 1 - 2 * t) _
        (by
          show (if t = 0 then (0 : ℤ) else _) = 0 ∨ (if t = 0 then (0 : ℤ) else _) = _
          split_ifs
          · exact Or.inl rfl
          · exact Or.inr rfl) hne
      rw [Nat.cast_sub h1] at h
      exact_mod_cast h

/-- C29 at `nLimit = 5`, `rowNum = 3`: the row `0, 0, 5, 1, 0, 1` with `scaleBy = 5`. -/
theorem C29_even_row_witness :
    1 ≤ 3 ∧ 3 ≤ 5 ∧
    ((createRowForEvenPower 5 3).1.length = 5 + 1 ∧
    (∀ j, j < 5 - 3 → (createRowForEvenPower 5 3).1.getD j 0 = 0) ∧
    (∀ t, t < 3 →
      (createRowForEvenPower 5 3).1.getD (5 - 3 + t) 0
        = (((3 : ℕ).choose (2 * t + 1) : ℕ) : ℤ) + ((((3 : ℕ) - 1).choose (2 * t + 1) : ℕ) : ℤ) ∧
      (createRowForEvenPower 5 3).1.getD (5 - 3 + t) 0
        = nCr 3 (2 * t + 1) + nCr (3 - 1) (2 * t + 1)) ∧
    (createRowForEvenPower 5 3).1.getD 5 0 = 1 ∧
    (createRowForEvenPower 5 3).2 = 2 * ((3 : ℕ) : ℤ) - 1 ∧
    (createRowForEvenPower 5 3).1.getD (5 - 3) 0 = (createRowForEvenPower 5 3).2 ∧
    (createRowForEvenPower 5 3).2 ≠ 0 ∧
    (∀ t, t < 3 → 2 * 3 - 1 - 2 * t ≤ 3 →
      ((((rowLoopIndices 3).take t).foldl (evenRowStep 3)
          (([] : List ℤ), (0 : ℤ), (0 : ℤ))).2.1 ≠ 0 →
        (((3 : ℕ) : ℤ) - ((2 * 3 - 1 - 2 * t : ℕ) : ℤ) - 1)
          * (((3 : ℕ) : ℤ) - ((2 * 3 - 1 - 2 * t : ℕ) : ℤ)) ≠ 0) ∧
      ((((rowLoopIndices 3).take t).foldl (evenRowStep 3)
          (([] : List ℤ), (0 : ℤ), (0 : ℤ))).2.2 ≠ 0 →
        ((((3 : ℕ) : ℤ) - 1) - ((2 * 3 - 1 - 2 * t : ℕ) : ℤ) - 1)
          * ((((3 : ℕ) : ℤ) - 1) - ((2 * 3 - 1 - 2 * t : ℕ) : ℤ)) ≠ 0))) :=
  ⟨by decide, by decide, C29_even_row 5 3 (by decide) (by decide)⟩

/-- The returned coefficients solve every column of the system of the rows
`rowNum = nLimit, nLimit - 1, ..`, for `p ≥ 1`. -/
theorem getFaulhaberCoefficients_system (p : ℕ) (hp : 1 ≤ p) (j : ℕ)
    (hj : j < faulhaberLimit p) :
    ∑ t in range (getFaulhaberCoefficients (p : ℤ)).length,
        (getFaulhaberCoefficients (p : ℤ)).getD t 0 *
          (((createRow (decide (p % 2 = 1)) (faulhaberLimit p)
            (faulhaberLimit p - t)).1.getD j 0 : ℤ) : ℚ)
      = if j = 0 then 1 else 0 := by
  rw [getFaulhaberCoefficients_sum p hp (fun t =>
    (((createRow (decide (p % 2 = 1)) (faulhaberLimit p)
      (faulhaberLimit p - t)).1.getD j 0 : ℤ) : ℚ)), ← faulhaberCoeff_system p hp j hj]
  refine sum_congr rfl fun t ht => ?_
  rw [mem_range] at ht
  rw [(createRow_spec (decide (p % 2 = 1)) (faulhaberLimit p) (faulhaberLimit p - t)
    (by omega) (by omega)).2.1 j hj]

/-- C30: for every `p ≥ 0`, with `A_t` the matrix part of the row built by
`createRowForOddPower` / `createRowForEvenPower` (by the parity of `p`) for
`rowNum = nLimit - t`, and `c = getFaulhaberCoefficients(p)` of length `L`: for every column
`j < L`, `∑ t < L, c[t] * A_t[j]` is `1` when `j = 0` and `0` otherwise. For `p ≥ 1` the same
holds for every column `j < nLimit`. -/
theorem C30_triangular_system (power : ℤ) (hp : 0 ≤ power) :
    (∀ j, j < (getFaulhaberCoefficients power).length →
      ∑ t in range (getFaulhaberCoefficients power).length,
          (getFaulhaberCoefficients power).getD t 0 *
            (((if power.toNat % 2 = 1
                then createRowForOddPower (faulhaberLimit power.toNat)
                  (faulhaberLimit power.toNat - t)
                else createRowForEvenPower (faulhaberLimit power.toNat)
                  (faulhaberLimit power.toNat - t)).1.getD j 0 : ℤ) : ℚ)
        = if j = 0 then 1 else 0) ∧
    (1 ≤ power → ∀ j, j < faulhaberLimit power.toNat →
      ∑ t in range (getFaulhaberCoefficients power).length,
          (getFaulhaberCoefficients power).getD t 0 *
            (((if power.toNat % 2 = 1
                then createRowForOddPower (faulhaberLimit power.toNat)
                  (faulhaberLimit power.toNat - t)
                else createRowForEvenPower (faulhaberLimit power.toNat)
                  (faulhaberLimit power.toNat - t)).1.getD j 0 : ℤ) : ℚ)
        = if j = 0 then 1 else 0) := by
  lift power to ℕ using hp
  simp only [Int.toNat_ofNat]
  have hrow : ∀ t, (if power % 2 = 1
      then createRowForOddPower (faulhaberLimit power) (faulhaberLimit power - t)
      else createRowForEvenPower (faulhaberLimit power) (faulhaberLimit power - t))
      = createRow (decide (power % 2 = 1)) (faulhaberLimit power) (faulhaberLimit power - t) := by
    intro t
    rw [createRow]
    by_cases h : power % 2 = 1
    · rw [if_pos h, if_pos (decide_eq_true h)]
    · rw [if_neg h, if_neg (by simpa using h)]
  simp only [hrow]
  constructor
  · intro j hj
    rcases Nat.eq_zero_or_pos power with h0 | hpos
    · subst h0
      have hc : getFaulhaberCoefficients ((0 : ℕ) : ℤ) = [1] := by decide!
      have hr : (createRow (decide (0 % 2 = 1)) (faulhaberLimit 0)
          (faulhaberLimit 0 - 0)).1.getD 0 0 = 1 := by decide
      rw [hc] at hj ⊢
      have hj0 : j = 0 := by simpa using hj
      subst hj0
      rw [List.length_singleton, sum_range_one, hr]
      simp
    · have hlen := (getFaulhaberCoefficients_length power).2
      exact getFaulhaberCoefficients_system power hpos j (by omega)
  · intro hp1 j hj
    exact getFaulhaberCoefficients_system power (by omega) j hj

/-- C30 at `p = 6`: three coefficients, four columns. -/
theorem C30_triangular_system_witness :
    (0 : ℤ) ≤ 6 ∧
    ((∀ j, j < (getFaulhaberCoefficients 6).length →
      ∑ t in range (getFaulhaberCoefficients 6).length,
          (getFaulhaberCoefficients 6).getD t 0 *
            (((if (6 : ℤ).toNat % 2 = 1
                then createRowForOddPower (faulhaberLimit (6 : ℤ).toNat)
                  (faulhaberLimit (6 : ℤ).toNat - t)
                else createRowForEvenPower (faulhaberLimit (6 : ℤ).toNat)
                  (faulhaberLimit (6 : ℤ).toNat - t)).1.getD j 0 : ℤ) : ℚ)
        = if j = 0 then 1 else 0) ∧
    ((1 : ℤ) ≤ 6 → ∀ j, j < faulhaberLimit (6 : ℤ).toNat →
      ∑ t in range (getFaulhaberCoefficients 6).length,
          (getFaulhaberCoefficients 6).getD t 0 *
            (((if (6 : ℤ).toNat % 2 = 1
                then createRowForOddPower (faulhaberLimit (6 : ℤ).toNat)
                  (faulhaberLimit (6 : ℤ).toNat - t)
                else createRowForEvenPower (faulhaberLimit (6 : ℤ).toNat)
                  (faulhaberLimit (6 : ℤ).toNat - t)).1.getD j 0 : ℤ) : ℚ)
        = if j = 0 then 1 else 0)) :=
  ⟨by decide, C30_triangular_system 6 (by decide)⟩

/-- Faulhaber's leading coefficient is the inverse of the leading entry of the first row. -/
theorem faulhaberCoeff_zero (p : ℕ) (hp : 1 ≤ p) :
    faulhaberCoeff p 0
      = 1 / ((rowEntry (decide (p % 2 = 1)) (faulhaberLimit p) 0 : ℤ) : ℚ) := by
  have hL := faulhaberLimit_pos p
  have hd := (rowEntry_zero (decide (p % 2 = 1)) (faulhaberLimit p) hL).2
  have hdq : ((rowEntry (decide (p % 2 = 1)) (faulhaberLimit p) 0 : ℤ) : ℚ) ≠ 0 := by
    exact_mod_cast hd
  have hpart := faulhaberCoeff_partial p hp 0 (by omega)
  rw [sum_range_zero, zero_add, if_pos rfl, Nat.sub_zero] at hpart
  rw [eq_div_iff hdq, hpart]

/-- The leading entry of the first row, by the parity of `p`: `(p + 1) / 2` or `p + 1`. -/
theorem firstRow_scale (p : ℕ) :
    ((rowEntry (decide (p % 2 = 1)) (faulhaberLimit p) 0 : ℤ) : ℚ)
      = if p % 2 = 1 then ((p : ℚ) + 1) / 2 else (p : ℚ) + 1 := by
  have hL := faulhaberLimit_pos p
  rw [(rowEntry_zero (decide (p % 2 = 1)) (faulhaberLimit p) hL).1]
  by_cases h : p % 2 = 1
  · have h2 := faulhaberLimit_odd p h
    have h3 : (2 : ℚ) * (faulhaberLimit p : ℚ) = (p : ℚ) + 1 := by exact_mod_cast h2
    rw [if_pos (decide_eq_true h), if_pos h]
    push_cast
    linarith
  · have h2 := faulhaberLimit_even p (by omega)
    have h3 : (2 : ℚ) * (faulhaberLimit p : ℚ) = (p : ℚ) + 2 := by exact_mod_cast h2
    rw [if_neg (by simpa using h), if_neg h]
    push_cast
    linarith

/-- A pass of the elimination loop that finds a non-zero pivot appends
`-pivot / (scaleBy * nextScaleBy)` and multiplies `scaleBy` by the (non-zero) scale factor of
the row it uses. -/
theorem faulhaberStep_coeff (oddPower : Bool) (nL : ℕ) (st : FaulhaberState) (i : ℕ)
    (hst : st.stopped = false) (hlen : st.firstRow.length = nL + 1)
    (hπ : st.pivotIndex < nL) (hi1 : 1 ≤ i) (hi : i ≤ nL)
    (hp : st.firstRow.getD st.pivotIndex 0 ≠ 0) :
    (faulhaberStep oddPower nL st i).coeffs
      = st.coeffs ++ [(-((st.firstRow.getD st.pivotIndex 0 : ℤ) : ℚ))
          / (((st.scaleBy : ℤ) : ℚ) * (((createRow oddPower nL i).2 : ℤ) : ℚ))] ∧
    (faulhaberStep oddPower nL st i).scaleBy = st.scaleBy * (createRow oddPower nL i).2 ∧
    (createRow oddPower nL i).2 ≠ 0 ∧
    (faulhaberStep oddPower nL st i).pivotIndex = st.pivotIndex + 1 := by
  have hset : (st.firstRow.set nL 0).getD st.pivotIndex 0 = st.firstRow.getD st.pivotIndex 0 := by
    rw [getD_set_eq, if_neg (fun h => by omega)]
  have hsetL : (st.firstRow.set nL 0).getD nL 0 = 0 := by
    rw [getD_set_eq, if_pos ⟨rfl, by omega⟩]
  obtain ⟨rlen, rent, raug, rscale⟩ := createRow_spec oddPower nL i hi1 hi
  obtain ⟨elen, eent⟩ := eliminateRow_spec nL st.pivotIndex
    ((st.firstRow.set nL 0).getD st.pivotIndex 0) (createRow oddPower nL i).1
    (st.firstRow.set nL 0) (le_of_lt hπ)
  rw [faulhaberStep_next _ _ _ _ hst (by rw [hset]; exact hp)]
  refine ⟨?_, rfl, ?_, rfl⟩
  · show st.coeffs ++ [_ / _] = _
    rw [eent, if_pos ⟨hπ, le_rfl, by rw [List.length_set]; omega⟩, hsetL, raug, hset]
    congr 2
    push_cast
    ring
  · rw [rscale]
    exact (rowEntry_zero oddPower i hi1).2

/-- C31: for every `p ≥ 0` every coefficient returned by `getFaulhaberCoefficients(p)` is
non-zero. Entry `0` is `1 / scaleBy` of the first row; a pass that meets a non-zero pivot
appends `-pivot / (scaleBy * nextScaleBy)`, the accumulated product of scale factors, whose
factors are all non-zero; when the loop ends the accumulated `scaleBy` is not zero. -/
theorem C31_coefficients_nonzero (power : ℤ) (hp : 0 ≤ power) :
    (∀ k, k < (getFaulhaberCoefficients power).length →
      (getFaulhaberCoefficients power).getD k 0 ≠ 0) ∧
    (getFaulhaberCoefficients power).getD 0 0
      = 1 / (((createRow (decide (power.toNat % 2 = 1)) (faulhaberLimit power.toNat)
          (faulhaberLimit power.toNat)).2 : ℤ) : ℚ) ∧
    (createRow (decide (power.toNat % 2 = 1)) (faulhaberLimit power.toNat)
      (faulhaberLimit power.toNat)).2 ≠ 0 ∧
    (∀ (st : FaulhaberState) (i : ℕ), st.stopped = false →
      st.firstRow.length = faulhaberLimit power.toNat + 1 →
      st.pivotIndex < faulhaberLimit power.toNat → 1 ≤ i → i ≤ faulhaberLimit power.toNat →
      st.firstRow.getD st.pivotIndex 0 ≠ 0 →
      (faulhaberStep (decide (power.toNat % 2 = 1)) (faulhaberLimit power.toNat) st i).coeffs
        = st.coeffs ++ [(-((st.firstRow.getD st.pivotIndex 0 : ℤ) : ℚ))
            / (((st.scaleBy : ℤ) : ℚ) * (((createRow (decide (power.toNat % 2 = 1))
                (faulhaberLimit power.toNat) i).2 : ℤ) : ℚ))] ∧
      (faulhaberStep (decide (power.toNat % 2 = 1)) (faulhaberLimit power.toNat) st i).scaleBy
        = st.scaleBy * (createRow (decide (power.toNat % 2 = 1))
            (faulhaberLimit power.toNat) i).2 ∧
      (createRow (decide (power.toNat % 2 = 1)) (faulhaberLimit power.toNat) i).2 ≠ 0) ∧
    (faulhaberRun power.toNat).scaleBy ≠ 0 := by
  lift power to ℕ using hp
  simp only [Int.toNat_ofNat]
  have hL := faulhaberLimit_pos power
  obtain ⟨_, _, _, rscale⟩ := createRow_spec (decide (power % 2 = 1)) (faulhaberLimit power)
    (faulhaberLimit power) hL le_rfl
  have hd := (rowEntry_zero (decide (power % 2 = 1)) (faulhaberLimit power) hL).2
  have hstep : ∀ (st : FaulhaberState) (i : ℕ), st.stopped = false →
      st.firstRow.length = faulhaberLimit power + 1 →
      st.pivotIndex < faulhaberLimit power → 1 ≤ i → i ≤ faulhaberLimit power →
      st.firstRow.getD st.pivotIndex 0 ≠ 0 →
      (faulhaberStep (decide (power % 2 = 1)) (faulhaberLimit power) st i).coeffs
        = st.coeffs ++ [(-((st.firstRow.getD st.pivotIndex 0 : ℤ) : ℚ))
            / (((st.scaleBy : ℤ) : ℚ) * (((createRow (decide (power % 2 = 1))
                (faulhaberLimit power) i).2 : ℤ) : ℚ))] ∧
      (faulhaberStep (decide (power % 2 = 1)) (faulhaberLimit power) st i).scaleBy
        = st.scaleBy * (createRow (decide (power % 2 = 1)) (faulhaberLimit power) i).2 ∧
      (createRow (decide (power % 2 = 1)) (faulhaberLimit power) i).2 ≠ 0 := by
    intro st i h1 h2 h3 h4 h5 h6
    obtain ⟨a, b, c, _⟩ := faulhaberStep_coeff _ _ st i h1 h2 h3 h4 h5 h6
    exact ⟨a, b, c⟩
  rcases Nat.eq_zero_or_pos power with h0 | hpos
  · subst h0
    have hc : getFaulhaberCoefficients ((0 : ℕ) : ℤ) = [1] := by decide!
    refine ⟨fun k hk => ?_, ?_, by rw [rscale]; exact hd, hstep, by decide⟩
    · rw [hc] at hk ⊢
      have hk0 : k = 0 := by simpa using hk
      subst hk0
      simp
    · rw [hc]
      decide!
  · obtain ⟨hlen, hent⟩ := getFaulhaberCoefficients_spec power hpos
    have hb := faulhaberLength_bounds power hpos
    refine ⟨fun k hk => ?_, ?_, by rw [rscale]; exact hd, hstep,
      (faulhaberRun_inv power hpos).1.2.1⟩
    · rw [hlen] at hk
      rw [hent k hk]
      intro h
      have := (faulhaberCoeff_eq_zero_iff power hpos k (by omega)).mp h
      omega
    · rw [hent 0 (by omega), rscale]
      exact faulhaberCoeff_zero power hpos

/-- C31 at `p = 6`. -/
theorem C31_coefficients_nonzero_witness :
    (0 : ℤ) ≤ 6 ∧
    ((∀ k, k < (getFaulhaberCoefficients 6).length →
      (getFaulhaberCoefficients 6).getD k 0 ≠ 0) ∧
    (getFaulhaberCoefficients 6).getD 0 0
      = 1 / (((createRow (decide ((6 : ℤ).toNat % 2 = 1)) (faulhaberLimit (6 : ℤ).toNat)
          (faulhaberLimit (6 : ℤ).toNat)).2 : ℤ) : ℚ) ∧
    (createRow (decide ((6 : ℤ).toNat % 2 = 1)) (faulhaberLimit (6 : ℤ).toNat)
      (faulhaberLimit (6 : ℤ).toNat)).2 ≠ 0 ∧
    (∀ (st : FaulhaberState) (i : ℕ), st.stopped = false →
      st.firstRow.length = faulhaberLimit (6 : ℤ).toNat + 1 →
      st.pivotIndex < faulhaberLimit (6 : ℤ).toNat → 1 ≤ i → i ≤ faulhaberLimit (6 : ℤ).toNat →
      st.firstRow.getD st.pivotIndex 0 ≠ 0 →
      (faulhaberStep (decide ((6 : ℤ).toNat % 2 = 1)) (faulhaberLimit (6 : ℤ).toNat) st i).coeffs
        = st.coeffs ++ [(-((st.firstRow.getD st.pivotIndex 0 : ℤ) : ℚ))
            / (((st.scaleBy : ℤ) : ℚ) * (((createRow (decide ((6 : ℤ).toNat % 2 = 1))
                (faulhaberLimit (6 : ℤ).toNat) i).2 : ℤ) : ℚ))] ∧
      (faulhaberStep (decide ((6 : ℤ).toNat % 2 = 1)) (faulhaberLimit (6 : ℤ).toNat) st i).scaleBy
        = st.scaleBy * (createRow (decide ((6 : ℤ).toNat % 2 = 1))
            (faulhaberLimit (6 : ℤ).toNat) i).2 ∧
      (createRow (decide ((6 : ℤ).toNat % 2 = 1)) (faulhaberLimit (6 : ℤ).toNat) i).2 ≠ 0) ∧
    (faulhaberRun (6 : ℤ).toNat).scaleBy ≠ 0) :=
  ⟨by decide, C31_coefficients_nonzero 6 (by decide)⟩

/-- C32: for every `p ≥ 0` the first Faulhaber coefficient is the first row's trailing `1`
divided by its `scaleBy`: `2 / (p + 1)` when `p` is odd and `1 / (p + 1)` when `p` is even. -/
theorem C32_first_coefficient (power : ℤ) (hp : 0 ≤ power) :
    1 ≤ (getFaulhaberCoefficients power).length ∧
    (getFaulhaberCoefficients power).getD 0 0
      = (if power % 2 = 1 then 2 / ((power : ℚ) + 1) else 1 / ((power : ℚ) + 1)) ∧
    (createRow (decide (power.toNat % 2 = 1)) (faulhaberLimit power.toNat)
      (faulhaberLimit power.toNat)).1.getD (faulhaberLimit power.toNat) 0 = 1 ∧
    (getFaulhaberCoefficients power).getD 0 0
      = (((createRow (decide (power.toNat % 2 = 1)) (faulhaberLimit power.toNat)
            (faulhaberLimit power.toNat)).1.getD (faulhaberLimit power.toNat) 0 : ℤ) : ℚ)
        / (((createRow (decide (power.toNat % 2 = 1)) (faulhaberLimit power.toNat)
            (faulhaberLimit power.toNat)).2 : ℤ) : ℚ) := by
  lift power to ℕ using hp
  simp only [Int.toNat_ofNat, Int.cast_natCast]
  have hL := faulhaberLimit_pos power
  obtain ⟨_, _, raug, rscale⟩ := createRow_spec (decide (power % 2 = 1)) (faulhaberLimit power)
    (faulhaberLimit power) hL le_rfl
  have hfirst : (getFaulhaberCoefficients (power : ℤ)).getD 0 0
      = 1 / ((rowEntry (decide (power % 2 = 1)) (faulhaberLimit power) 0 : ℤ) : ℚ) := by
    rcases Nat.eq_zero_or_pos power with h0 | hpos
    · subst h0
      decide!
    · obtain ⟨hlen, hent⟩ := getFaulhaberCoefficients_spec power hpos
      rw [hent 0 (faulhaberLength_bounds power hpos).1]
      exact faulhaberCoeff_zero power hpos
  refine ⟨(getFaulhaberCoefficients_length power).1, ?_, raug, ?_⟩
  · rw [hfirst, firstRow_scale]
    have hq : ((power : ℚ) + 1) ≠ 0 := by positivity
    by_cases h : power % 2 = 1
    · rw [if_pos h, if_pos (by omega)]
      field_simp
    · rw [if_neg h, if_neg (by omega)]
  · rw [hfirst, raug, rscale]
    simp

/-- C32 at `p = 5` (`1/3`) . -/
theorem C32_first_coefficient_witness :
    (0 : ℤ) ≤ 5 ∧
    (1 ≤ (getFaulhaberCoefficients 5).length ∧
    (getFaulhaberCoefficients 5).getD 0 0
      = (if (5 : ℤ) % 2 = 1 then 2 / (((5 : ℤ) : ℚ) + 1) else 1 / (((5 : ℤ) : ℚ) + 1)) ∧
    (createRow (decide ((5 : ℤ).toNat % 2 = 1)) (faulhaberLimit (5 : ℤ).toNat)
      (faulhaberLimit (5 : ℤ).toNat)).1.getD (faulhaberLimit (5 : ℤ).toNat) 0 = 1 ∧
    (getFaulhaberCoefficients 5).getD 0 0
      = (((createRow (decide ((5 : ℤ).toNat % 2 = 1)) (faulhaberLimit (5 : ℤ).toNat)
            (faulhaberLimit (5 : ℤ).toNat)).1.getD (faulhaberLimit (5 : ℤ).toNat) 0 : ℤ) : ℚ)
        / (((createRow (decide ((5 : ℤ).toNat % 2 = 1)) (faulhaberLimit (5 : ℤ).toNat)
            (faulhaberLimit (5 : ℤ).toNat)).2 : ℤ) : ℚ)) :=
  ⟨by decide, C32_first_coefficient 5 (by decide)⟩

/-- C33: `computeNextCoefficient(current, m)` returns
`-(∑ k < m, k even or k = 1, C(m+1, k) * current[k]) / C(m+1, m)`, for every `m` (so for every
even `m ≥ 2`) and every `current`, of which only the entries `0..m-1` matter; `binom` is
`C(m+1, k)` at the start of iteration `k`, the product `binom * (m + 1 - k)` is divisible by
`k + 1`, and the final divisor is `C(m+1, m) = m + 1`. -/
theorem C33_next_coefficient (current : List ℚ) (m : ℕ) :
    computeNextCoefficient current m
      = -(∑ k ∈ range m, if k % 2 = 0 ∨ k = 1
            then (((m + 1).choose k : ℕ) : ℚ) * current.getD k 0 else 0)
        / (((m + 1).choose m : ℕ) : ℚ) ∧
    (∀ current2 : List ℚ, (∀ k, k < m → current2.getD k 0 = current.getD k 0) →
      computeNextCoefficient current2 m = computeNextCoefficient current m) ∧
    (∀ k, k ≤ m →
      ((List.range k).foldl (nextCoefficientStep current m) ((1 : ℤ), (0 : ℚ))).1
        = (((m + 1).choose k : ℕ) : ℤ)) ∧
    (∀ k, k < m →
      ((k : ℤ) + 1) ∣
        ((List.range k).foldl (nextCoefficientStep current m) ((1 : ℤ), (0 : ℚ))).1
          * ((m : ℤ) + 1 - (k : ℤ))) ∧
    ((List.range m).foldl (nextCoefficientStep current m) ((1 : ℤ), (0 : ℚ))).1
      = (m : ℤ) + 1 := by
  have hch : (m + 1).choose m = m + 1 := Nat.choose_succ_self_right m
  refine ⟨?_, fun current2 h => ?_, fun k hk => ?_, fun k hk => ?_, ?_⟩
  · rw [computeNextCoefficient_eq, hch]
    push_cast
    rfl
  · rw [computeNextCoefficient_eq, computeNextCoefficient_eq]
    congr 2
    refine sum_congr rfl fun k hk => ?_
    rw [h k (mem_range.mp hk)]
  · rw [nextCoefficient_loop current m k (by omega)]
  · rw [nextCoefficient_loop current m k (by omega)]
    have h1 := Nat.choose_succ_right_eq (m + 1) k
    have h2 : ((((m + 1).choose (k + 1) * (k + 1) : ℕ)) : ℤ)
        = ((((m + 1).choose k * (m + 1 - k) : ℕ)) : ℤ) := by rw [h1]
    push_cast [Nat.cast_sub (show k ≤ m + 1 by omega)] at h2
    show ((k : ℤ) + 1) ∣ (((m + 1).choose k : ℕ) : ℤ) * ((m : ℤ) + 1 - (k : ℤ))
    rw [← h2]
    exact dvd_mul_left _ _
  · rw [nextCoefficient_loop current m m (by omega), hch]
    push_cast
    rfl

/-- The rational value before `mpq_get_num` is the power sum itself. -/
theorem bernoulliSumQuotient_eq (p n : ℕ) :
    bernoulliSumQuotient (p : ℤ) (n : ℤ)
      = ((∑ x ∈ range (n + 1), (x : ℤ) ^ p : ℤ) : ℚ) := by
  obtain ⟨hlen, hval⟩ := getBernoulliCoefficients_spec p
  simp only [bernoulliSumQuotient, hlen]
  rw [bernoulli_sum_loop _ p n]
  have hterm : ∀ s ∈ range (p + 1),
      (if (p - s) % 2 = 0 ∨ p - s = 1
        then (getBernoulliCoefficients (p : ℤ)).getD (p - s) 0
          * (((p + 1).choose (s + 1) : ℕ) : ℚ) * ((n : ℚ) + 1) ^ (s + 1) else 0)
      = (fun i => bernoulli i * (((p + 1).choose i : ℕ) : ℚ) * ((n : ℚ) + 1) ^ (p + 1 - i))
          (p + 1 - 1 - s) := by
    intro s hs
    have hs' := Finset.mem_range.mp hs
    have e1 : p + 1 - 1 - s = p - s := by omega
    have e2 : p + 1 - (p - s) = s + 1 := by omega
    have e3 : (p + 1).choose (p - s) = (p + 1).choose (s + 1) := by
      exact Nat.choose_symm_of_eq_add (by omega)
    simp only [e1, e2, e3]
    rw [hval (p - s) (by omega)]
    split_ifs with h
    · rfl
    · rw [bernoulli_odd_eq_zero (p - s) (by omega) (by omega)]
      simp
  rw [Finset.sum_congr rfl hterm, Finset.sum_range_reflect
    (fun i => bernoulli i * (((p + 1).choose i : ℕ) : ℚ) * ((n : ℚ) + 1) ^ (p + 1 - i)) (p + 1)]
  have hF := sum_range_pow (n + 1) p
  push_cast at hF ⊢
  rw [hF, Finset.sum_div]

/-- C34: for every `p ≥ 0` and `n ≥ 0` the rational value that
`computeBernoulliSumWithTimeStat` holds after the final division by `p + 1` is an integer
(denominator `1`), namely the power sum, and the function returns its numerator. -/
theorem C34_bernoulli_integer (power n : ℤ) (hp : 0 ≤ power) (hn : 0 ≤ n) (r : ℤ) :
    (bernoulliSumQuotient power n).den = 1 ∧
    computeBernoulliSumWithTimeStat power n r = (bernoulliSumQuotient power n).num ∧
    bernoulliSumQuotient power n = ((computeBernoulliSumWithTimeStat power n r : ℤ) : ℚ) ∧
    bernoulliSumQuotient power n
      = ((∑ x ∈ range (n.toNat + 1), (x : ℤ) ^ power.toNat : ℤ) : ℚ) := by
  lift power to ℕ using hp
  lift n to ℕ using hn
  have hq := bernoulliSumQuotient_eq power n
  have hg : ¬ ((power : ℤ) < 0 ∨ (n : ℤ) < 0) := by omega
  have hnum : computeBernoulliSumWithTimeStat (power : ℤ) (n : ℤ) r
      = (bernoulliSumQuotient (power : ℤ) (n : ℤ)).num := by
    simp only [computeBernoulliSumWithTimeStat, hg, if_false, bernoulliSumQuotient]
  refine ⟨?_, hnum, ?_, ?_⟩
  · rw [hq]
    exact Rat.den_intCast _
  · rw [hnum, hq, Rat.num_intCast]
  · rw [hq]
    simp

/-- C34 at `p = 3`, `n = 4`. -/
theorem C34_bernoulli_integer_witness :
    (0 : ℤ) ≤ 3 ∧ (0 : ℤ) ≤ 4 ∧
    ((bernoulliSumQuotient 3 4).den = 1 ∧
    computeBernoulliSumWithTimeStat 3 4 0 = (bernoulliSumQuotient 3 4).num ∧
    bernoulliSumQuotient 3 4 = ((computeBernoulliSumWithTimeStat 3 4 0 : ℤ) : ℚ) ∧
    bernoulliSumQuotient 3 4
      = ((∑ x ∈ range ((4 : ℤ).toNat + 1), (x : ℤ) ^ (3 : ℤ).toNat : ℤ) : ℚ)) :=
  ⟨by decide, by decide, C34_bernoulli_integer 3 4 (by decide) (by decide) 0⟩

/-- The closed form `(t + 1)! * C(n + 1, t + 1)` of the running `fallingFactorial` is the
product `(n + 1) n (n - 1) .. (n + 1 - t)`. -/
theorem factorial_mul_choose_eq_prod (n t : ℕ) (ht : t ≤ n) :
    (((t + 1).factorial * (n + 1).choose (t + 1) : ℕ) : ℤ)
      = ∏ i ∈ range (t + 1), ((n : ℤ) + 1 - (i : ℤ)) := by
  rw [← Nat.descFactorial_eq_factorial_mul_choose, Nat.descFactorial_eq_prod_range]
  push_cast
  refine prod_congr rfl fun i hi => ?_
  rw [mem_range] at hi
  rw [Nat.cast_sub (by omega)]
  push_cast
  ring

/-- C35: in `computeStirlingSumWithTimeStat`, for `p, n ≥ 0` and every pass
`t ≤ min(p, n)` (the loop has `min(p, n) + 1` passes), the running `fallingFactorial` at the
start of the pass is `∏ i = 0..t, (n + 1 - i)`, it is divisible by `t + 1`, and the multiplier
`n - t` applied at the end of the pass is non-negative. -/
theorem C35_stirling_division_exact (power n : ℤ) (hp : 0 ≤ power) (hn : 0 ≤ n) (t : ℕ)
    (ht : (t : ℤ) ≤ min power n) :
    ((if power > n then n else power) + 1).toNat = (min power n).toNat + 1 ∧
    ((List.range t).foldl (stirlingSumStep (_getStirlingCoefficients power (n + 1)) n)
        ((0 : ℤ), n + 1)).2
      = ∏ i ∈ range (t + 1), (n + 1 - (i : ℤ)) ∧
    ((t : ℤ) + 1) ∣
      ((List.range t).foldl (stirlingSumStep (_getStirlingCoefficients power (n + 1)) n)
        ((0 : ℤ), n + 1)).2 ∧
    0 ≤ n - (t : ℤ) ∧
    (stirlingSumStep (_getStirlingCoefficients power (n + 1)) n
      ((List.range t).foldl (stirlingSumStep (_getStirlingCoefficients power (n + 1)) n)
        ((0 : ℤ), n + 1)) t).2
      = (∏ i ∈ range (t + 1), (n + 1 - (i : ℤ))) * (n - (t : ℤ)) := by
  lift power to ℕ using hp
  lift n to ℕ using hn
  have htn : t ≤ n := by
    have := le_trans ht (min_le_right _ _)
    omega
  have hloop := stirling_sum_loop (_getStirlingCoefficients (power : ℤ) ((n : ℤ) + 1)) n t
    (by omega)
  have hprod := factorial_mul_choose_eq_prod n t htn
  refine ⟨?_, ?_, ?_, by omega, ?_⟩
  · rcases le_total (power : ℤ) (n : ℤ) with h | h
    · rw [min_eq_left h]
      split_ifs <;> omega
    · rw [min_eq_right h]
      split_ifs <;> omega
  · rw [hloop]
    exact hprod
  · rw [hloop]
    show ((t : ℤ) + 1) ∣ (((t + 1).factorial * (n + 1).choose (t + 1) : ℕ) : ℤ)
    rw [Nat.factorial_succ]
    push_cast
    exact Dvd.intro ((t.factorial : ℤ) * (((n + 1).choose (t + 1) : ℕ) : ℤ)) (by ring)
  · rw [hloop]
    show (((t + 1).factorial * (n + 1).choose (t + 1) : ℕ) : ℤ) * ((n : ℤ) - (t : ℤ)) = _
    rw [hprod]

/-- C35 at `p = 5`, `n = 3`, `t = 2`: `fallingFactorial = 4 * 3 * 2 = 24`. -/
theorem C35_stirling_division_exact_witness :
    (0 : ℤ) ≤ 5 ∧ (0 : ℤ) ≤ 3 ∧ ((2 : ℕ) : ℤ) ≤ min (5 : ℤ) 3 ∧
    (((if (5 : ℤ) > 3 then (3 : ℤ) else 5) + 1).toNat = (min (5 : ℤ) 3).toNat + 1 ∧
    ((List.range 2).foldl (stirlingSumStep (_getStirlingCoefficients 5 (3 + 1)) 3)
        ((0 : ℤ), 3 + 1)).2
      = ∏ i ∈ range (2 + 1), ((3 : ℤ) + 1 - (i : ℤ)) ∧
    (((2 : ℕ) : ℤ) + 1) ∣
      ((List.range 2).foldl (stirlingSumStep (_getStirlingCoefficients 5 (3 + 1)) 3)
        ((0 : ℤ), 3 + 1)).2 ∧
    0 ≤ (3 : ℤ) - ((2 : ℕ) : ℤ) ∧
    (stirlingSumStep (_getStirlingCoefficients 5 (3 + 1)) 3
      ((List.range 2).foldl (stirlingSumStep (_getStirlingCoefficients 5 (3 + 1)) 3)
        ((0 : ℤ), 3 + 1)) 2).2
      = (∏ i ∈ range (2 + 1), ((3 : ℤ) + 1 - (i : ℤ))) * ((3 : ℤ) - ((2 : ℕ) : ℤ))) :=
  ⟨by decide, by decide, by decide,
    C35_stirling_division_exact 5 3 (by decide) (by decide) 2 (by decide)⟩

/-- The state of the summation loop of `computeEulerSumWithTimeStat` before the pass `J`,
while `n + j + 1` fits a `long` for every index met: `firstTime` is still set exactly when no
index has contributed yet, and afterwards `temp` is the binomial `C(n + J, p + 1)` of the
last contributing index. -/
theorem euler_sum_state (coeffs : List ℤ) (p n Jmax : ℕ)
    (hb : n + Jmax < 9223372036854775808) :
    (((List.range Jmax).foldl (eulerSumStep coeffs p n)
        { result := 0, temp := 0, firstTime := true }).firstTime = true
      ↔ (Jmax = 0 ∨ n + Jmax ≤ p)) ∧
    (((List.range Jmax).foldl (eulerSumStep coeffs p n)
        { result := 0, temp := 0, firstTime := true }).firstTime = false →
      ((List.range Jmax).foldl (eulerSumStep coeffs p n)
        { result := 0, temp := 0, firstTime := true }).temp
        = (((n + Jmax).choose (p + 1) : ℕ) : ℤ)) :=
  foldl_range_inv
    (fun J (s : EulerSumState) =>
      (s.firstTime = true ↔ (J = 0 ∨ n + J ≤ p)) ∧
      (s.firstTime = false → s.temp = (((n + J).choose (p + 1) : ℕ) : ℤ)))
    (eulerSumStep coeffs p n) { result := 0, temp := 0, firstTime := true } Jmax
    ⟨by simp, by simp⟩
    (fun J s hJ hs => by
      obtain ⟨h2, h3⟩ := hs
      rw [eulerSumStep_exact coeffs p n s J (by omega)]
      by_cases hc : n + J ≥ p
      · have htemp : (if s.firstTime = true then nCr (n + J + 1) (p + 1)
            else s.temp * ((n : ℤ) + (J : ℤ) + 1) / ((n : ℤ) + (J : ℤ) - (p : ℤ)))
            = (((n + J + 1).choose (p + 1) : ℕ) : ℤ) := by
          by_cases hf : s.firstTime = true
          · rw [if_pos hf, nCr_eq_choose]
          · rw [if_neg hf]
            have hf' : s.firstTime = false := by simpa using hf
            have hlt : p < n + J := by
              by_contra hle
              exact hf (h2.mpr (Or.inr (by omega)))
            have hu := choose_shift_update (n + J) p hlt
            push_cast at hu
            rw [h3 hf', hu]
        simp only [if_pos hc, htemp]
        refine ⟨?_, ?_⟩
        · constructor
          · intro h
            exact absurd h (by simp)
          · intro h
            omega
        · intro _
          rfl
      · simp only [if_neg hc]
        refine ⟨?_, ?_⟩
        · constructor
          · intro _
            exact Or.inr (by omega)
          · intro _
            exact h2.mpr (Or.inr (by omega))
        · intro hf
          have : s.firstTime = true := h2.mpr (Or.inr (by omega))
          rw [this] at hf
          exact absurd hf (by simp))

/-- In `computeEulerSumWithTimeStat`, while `n + p + 1` fits a `long`: for every index
`j ≤ p` with `n + j ≥ p`, the pass for `j` leaves `temp = C(n + j + 1, p + 1)` and adds
`coeffs[j] * temp`; when it takes the incremental update (`firstTime` cleared), the previous
`temp` is `C(n + j, p + 1)`, the divisor `n + j - p` is at least `1` and divides
`temp * (n + j + 1)`. -/
theorem euler_sum_pass_in_range (power n : ℤ) (hp : 0 ≤ power) (hn : 0 ≤ n)
    (hb : n + power + 1 < 9223372036854775808) (j : ℕ)
    (hj : (j : ℤ) ≤ power) (hc : power ≤ n + (j : ℤ)) :
    j < (_getEulerCoefficients power n).length ∧
    (eulerSumStep (_getEulerCoefficients power n) power.toNat n.toNat
      ((List.range j).foldl (eulerSumStep (_getEulerCoefficients power n) power.toNat n.toNat)
        { result := 0, temp := 0, firstTime := true }) j).temp
      = (((n.toNat + j + 1).choose (power.toNat + 1) : ℕ) : ℤ) ∧
    (eulerSumStep (_getEulerCoefficients power n) power.toNat n.toNat
      ((List.range j).foldl (eulerSumStep (_getEulerCoefficients power n) power.toNat n.toNat)
        { result := 0, temp := 0, firstTime := true }) j).result
      = ((List.range j).foldl (eulerSumStep (_getEulerCoefficients power n) power.toNat n.toNat)
          { result := 0, temp := 0, firstTime := true }).result
        + (_getEulerCoefficients power n).getD j 0
          * (((n.toNat + j + 1).choose (power.toNat + 1) : ℕ) : ℤ) ∧
    (((List.range j).foldl (eulerSumStep (_getEulerCoefficients power n) power.toNat n.toNat)
        { result := 0, temp := 0, firstTime := true }).firstTime = false →
      1 ≤ n + (j : ℤ) - power ∧
      ((List.range j).foldl (eulerSumStep (_getEulerCoefficients power n) power.toNat n.toNat)
        { result := 0, temp := 0, firstTime := true }).temp
        = (((n.toNat + j).choose (power.toNat + 1) : ℕ) : ℤ) ∧
      (n + (j : ℤ) - power) ∣
        ((List.range j).foldl (eulerSumStep (_getEulerCoefficients power n) power.toNat n.toNat)
          { result := 0, temp := 0, firstTime := true }).temp * (n + (j : ℤ) + 1)) := by
  lift power to ℕ using hp
  lift n to ℕ using hn
  simp only [Int.toNat_ofNat]
  have hjp : j ≤ power := by omega
  have hcn : n + j ≥ power := by omega
  have hbn : n + power + 1 < 9223372036854775808 := by omega
  obtain ⟨hlen, _⟩ := getEulerCoefficients_spec power n
  obtain ⟨hft, htemp⟩ :=
    euler_sum_state (_getEulerCoefficients (power : ℤ) (n : ℤ)) power n j (by omega)
  obtain ⟨_, htemp'⟩ :=
    euler_sum_state (_getEulerCoefficients (power : ℤ) (n : ℤ)) power n (j + 1) (by omega)
  have hstep : (List.range (j + 1)).foldl
      (eulerSumStep (_getEulerCoefficients (power : ℤ) (n : ℤ)) power n)
      { result := 0, temp := 0, firstTime := true }
      = eulerSumStep (_getEulerCoefficients (power : ℤ) (n : ℤ)) power n
        ((List.range j).foldl (eulerSumStep (_getEulerCoefficients (power : ℤ) (n : ℤ)) power n)
          { result := 0, temp := 0, firstTime := true }) j := by
    rw [List.range_succ, List.foldl_append, List.foldl_cons, List.foldl_nil]
  rw [hstep] at htemp'
  have hex := eulerSumStep_exact (_getEulerCoefficients (power : ℤ) (n : ℤ)) power n
    ((List.range j).foldl (eulerSumStep (_getEulerCoefficients (power : ℤ) (n : ℤ)) power n)
      { result := 0, temp := 0, firstTime := true }) j (by omega)
  rw [if_pos hcn] at hex
  have hnew : (eulerSumStep (_getEulerCoefficients (power : ℤ) (n : ℤ)) power n
        ((List.range j).foldl (eulerSumStep (_getEulerCoefficients (power : ℤ) (n : ℤ)) power n)
          { result := 0, temp := 0, firstTime := true }) j).temp
      = (((n + j + 1).choose (power + 1) : ℕ) : ℤ) := by
    refine htemp' ?_
    rw [hex]
  refine ⟨by rw [hlen]; omega, hnew, ?_, fun hf => ?_⟩
  · rw [← hnew, hex]
  · have hlt : power < n + j := by
      by_contra hle
      have := hft.mpr (Or.inr (by omega))
      rw [this] at hf
      exact Bool.noConfusion hf
    refine ⟨by omega, htemp hf, ?_⟩
    rw [htemp hf]
    have h1 := Nat.choose_mul_succ_eq (n + j) (power + 1)
    have h2 : (((n + j).choose (power + 1) * (n + j + 1) : ℕ) : ℤ)
        = (((n + j + 1).choose (power + 1) * (n + j + 1 - (power + 1)) : ℕ) : ℤ) := by rw [h1]
    rw [show n + j + 1 - (power + 1) = n + j - power from by omega] at h2
    push_cast [Nat.cast_sub (le_of_lt hlt)] at h2
    rw [h2]
    exact dvd_mul_left _ _

/-- C36 (refuted on the code): at `p = 0`, `n = LONG_MAX`, `j = 0` the index satisfies
`j ≤ p` and `n + j ≥ p`, and the pass adds its term (`firstTime` is cleared), but `temp` is
`0` and not `C(n + j + 1, p + 1) = C(2^63, 1) = 2^63`: the argument `n + j + 1` of `nCr` is
computed as a signed 64-bit `long` and wraps to `LONG_MIN`, for which `nCr` returns `0`. The
evaluator then returns `0`. -/
theorem C36_euler_temp_overflow :
    (eulerSumStep (_getEulerCoefficients 0 9223372036854775807)
      (0 : ℤ).toNat (9223372036854775807 : ℤ).toNat
      { result := 0, temp := 0, firstTime := true } 0).temp = 0 ∧
    (eulerSumStep (_getEulerCoefficients 0 9223372036854775807)
      (0 : ℤ).toNat (9223372036854775807 : ℤ).toNat
      { result := 0, temp := 0, firstTime := true } 0).firstTime = false ∧
    ((((9223372036854775807 : ℤ).toNat + 0 + 1).choose ((0 : ℤ).toNat + 1) : ℕ) : ℤ)
      = 9223372036854775808 ∧
    wrapLong (9223372036854775807 + 0 + 1) = -9223372036854775808 ∧
    computeEulerSumWithTimeStat 0 9223372036854775807 0 = 0 := by
  refine ⟨by decide, by decide, ?_, by decide, by decide⟩
  rw [show (9223372036854775807 : ℤ).toNat = 9223372036854775807 from rfl,
    show (0 : ℤ).toNat + 1 = 1 from rfl, Nat.choose_one_right]
  norm_num

/-- C37: in `computeCentralFactorialSumWithTimeStat`, for `p ≥ 1`, `n ≥ 0` and every pass
`1 ≤ k ≤ min(ceil(p / 2), n)` (the loop runs over exactly these `k`), the running product
after its update is `∏ i = 1..k, (n + i) (n - i + 1)`, with both factors at least `1`, and
the per-term division is exact: `coeffs[k] * product * (2n + 1)` is divisible by
`2 (2k + 1)` when `p` is even, `coeffs[k] * product` by `2k` when `p` is odd. -/
theorem C37_central_division_exact (power n : ℤ) (hp : 1 ≤ power) (hn : 0 ≤ n) (k : ℕ)
    (hk1 : 1 ≤ k) (hk : (k : ℤ) ≤ min ((power + 1) / 2) n) :
    ((_getCentralFactorialCoefficients power n).length : ℤ) - 1 = min ((power + 1) / 2) n ∧
    (centralSumStep (_getCentralFactorialCoefficients power n) (decide (power % 2 = 0)) n
      ((List.range' 1 (k - 1)).foldl
        (centralSumStep (_getCentralFactorialCoefficients power n) (decide (power % 2 = 0)) n)
        ((0 : ℤ), (1 : ℤ))) k).2
      = ∏ l ∈ range k, ((n + ((l : ℤ) + 1)) * (n - ((l : ℤ) + 1) + 1)) ∧
    (∀ l : ℕ, l < k → 1 ≤ n + ((l : ℤ) + 1) ∧ 1 ≤ n - ((l : ℤ) + 1) + 1) ∧
    (power % 2 = 0 →
      (2 * (2 * (k : ℤ) + 1)) ∣
        (_getCentralFactorialCoefficients power n).getD k 0
          * (∏ l ∈ range k, ((n + ((l : ℤ) + 1)) * (n - ((l : ℤ) + 1) + 1)))
          * (2 * n + 1)) ∧
    (power % 2 = 1 →
      (2 * (k : ℤ)) ∣
        (_getCentralFactorialCoefficients power n).getD k 0
          * (∏ l ∈ range k, ((n + ((l : ℤ) + 1)) * (n - ((l : ℤ) + 1) + 1)))) := by
  lift power to ℕ using (by omega : 0 ≤ power)
  lift n to ℕ using hn
  obtain ⟨k, rfl⟩ : ∃ k', k = k' + 1 := ⟨k - 1, by omega⟩
  have hkn : k + 1 ≤ n := by
    have := le_trans hk (min_le_right _ _)
    omega
  obtain ⟨hlen, _⟩ := getCentralFactorialCoefficients_spec power n
  have hprod : ∀ j : ℕ, (∏ l ∈ range j, (((n : ℤ) + ((l : ℤ) + 1)) * ((n : ℤ) - ((l : ℤ) + 1) + 1)))
      = centralProd (n : ℤ) j := fun j => rfl
  have hloop := central_sum_loop (_getCentralFactorialCoefficients (power : ℤ) (n : ℤ))
    (decide ((power : ℤ) % 2 = 0)) n k
  refine ⟨?_, ?_, fun l hl => ⟨by omega, by omega⟩, fun _ => ?_, fun _ => ?_⟩
  · rw [hlen]
    have hmin : min (((power : ℤ) + 1) / 2) (n : ℤ)
        = ((min (power / 2 + power % 2) n : ℕ) : ℤ) := by
      rw [Nat.cast_min]
      congr 1
      omega
    rw [hmin]
    push_cast
    ring
  · rw [Nat.add_sub_cancel, hloop, hprod, centralProd_succ]
    simp only [centralSumStep]
    push_cast
    ring
  · rw [hprod]
    have h := sum_mul_centralOdd k n
    have e : (_getCentralFactorialCoefficients (power : ℤ) (n : ℤ)).getD (k + 1) 0
          * centralProd (n : ℤ) (k + 1) * (2 * (n : ℤ) + 1)
        = (2 * (2 * (((k + 1 : ℕ) : ℤ)) + 1))
          * ((_getCentralFactorialCoefficients (power : ℤ) (n : ℤ)).getD (k + 1) 0
            * ∑ x ∈ range (n + 1), (x : ℤ) * centralOdd (x : ℤ) k) := by
      push_cast
      linear_combination
        (-(_getCentralFactorialCoefficients (power : ℤ) (n : ℤ)).getD (k + 1) 0) * h
    rw [e]
    exact dvd_mul_right _ _
  · rw [hprod]
    have h := sum_centralOdd k n
    have e : (_getCentralFactorialCoefficients (power : ℤ) (n : ℤ)).getD (k + 1) 0
          * centralProd (n : ℤ) (k + 1)
        = (2 * (((k + 1 : ℕ) : ℤ)))
          * ((_getCentralFactorialCoefficients (power : ℤ) (n : ℤ)).getD (k + 1) 0
            * ∑ x ∈ range (n + 1), centralOdd (x : ℤ) k) := by
      push_cast
      linear_combination
        (-(_getCentralFactorialCoefficients (power : ℤ) (n : ℤ)).getD (k + 1) 0) * h
    rw [e]
    exact dvd_mul_right _ _

/-- C37 at `p = 4`, `n = 3`, `k = 2`: the product is `4 * 3 * 5 * 2 = 120`. -/
theorem C37_central_division_exact_witness :
    (1 : ℤ) ≤ 4 ∧ (0 : ℤ) ≤ 3 ∧ 1 ≤ 2 ∧ ((2 : ℕ) : ℤ) ≤ min (((4 : ℤ) + 1) / 2) 3 ∧
    (((_getCentralFactorialCoefficients 4 3).length : ℤ) - 1 = min (((4 : ℤ) + 1) / 2) 3 ∧
    (centralSumStep (_getCentralFactorialCoefficients 4 3) (decide ((4 : ℤ) % 2 = 0)) 3
      ((List.range' 1 (2 - 1)).foldl
        (centralSumStep (_getCentralFactorialCoefficients 4 3) (decide ((4 : ℤ) % 2 = 0)) 3)
        ((0 : ℤ), (1 : ℤ))) 2).2
      = ∏ l ∈ range 2, (((3 : ℤ) + ((l : ℤ) + 1)) * ((3 : ℤ) - ((l : ℤ) + 1) + 1)) ∧
    (∀ l : ℕ, l < 2 → 1 ≤ (3 : ℤ) + ((l : ℤ) + 1) ∧ 1 ≤ (3 : ℤ) - ((l : ℤ) + 1) + 1) ∧
    ((4 : ℤ) % 2 = 0 →
      (2 * (2 * ((2 : ℕ) : ℤ) + 1)) ∣
        (_getCentralFactorialCoefficients 4 3).getD 2 0
          * (∏ l ∈ range 2, (((3 : ℤ) + ((l : ℤ) + 1)) * ((3 : ℤ) - ((l : ℤ) + 1) + 1)))
          * (2 * 3 + 1)) ∧
    ((4 : ℤ) % 2 = 1 →
      (2 * ((2 : ℕ) : ℤ)) ∣
        (_getCentralFactorialCoefficients 4 3).getD 2 0
          * (∏ l ∈ range 2, (((3 : ℤ) + ((l : ℤ) + 1)) * ((3 : ℤ) - ((l : ℤ) + 1) + 1))))) :=
  ⟨by decide, by decide, by decide, by decide,
    C37_central_division_exact 4 3 (by decide) (by decide) 2 (by decide) (by decide)⟩

end PowerSum
